import Mathlib

/-!
Verification development for the MicroPather C++17 port
(src/micropather.cpp, src/micropather.h).

Shallow embedding conventions:
* Client states (`void*`) are modelled as natural numbers (`State := ℕ`);
  the value `0` plays the role of `nullptr` where the code compares
  against null (path-cache items).  The engine never dereferences a
  state, so this abstraction is faithful.
* `float` costs are modelled as rationals; `FLT_MAX` is the exact
  rational value of the C constant, `(2^24 - 1) * 2^104`.
* The `PathNodePool` hash table (per-bucket binary trees over pointer
  order, block allocator, free list) implements an association from
  states to uniquely-owned records; the embedding models that map
  directly as an association list with first-match lookup/update.
* `PathCache::Item::Hash` in micropather.h reads `2 * sizeof(void*)`
  bytes located at the address the `start` state points to; its value
  therefore depends only on the (fixed) memory behind the start state,
  i.e. it is some fixed function of the start state.  The embedding
  abstracts it as an explicit parameter `hashFn : State → ℕ`.
* `assertExpression` throws on failure; every operation that can throw
  is modelled with `Option` (or an explicit flag), `none` meaning the
  call aborted by exception.  Loops whose termination is not structural
  (linear probing, the search loop, parent-chain walking) take explicit
  fuel; exhausting the fuel also yields `none` (the C++ code would not
  have terminated, or needed more iterations than the bound).
* `PathNode::CalcTotalCost` is declared in micropather.h but its body
  is not part of the two provided sources; `calcTotalCost` below is
  modelled from the spec (§3 Record: "total cost (sum, or 'infinite'
  sentinel if either input is infinite)").  Likewise the doubly linked
  list primitives `AddBefore`/`Unlink`/`InitSentinel` have no body in
  the sources; the open queue is modelled directly as a sorted list,
  following the spec (§4.3) and the uses in micropather.cpp.
-/

namespace MicroPather

/-- Client states: opaque identities.  `0` plays the role of `nullptr`. -/
abbrev State := ℕ

/-- The exact rational value of `FLT_MAX` (single precision),
`(2^24 - 1) * 2^104`, written as a literal so that kernel reduction
(`decide`) works on comparisons against it. -/
def fltMax : ℚ := 340282346638528859811704183484516925440

/-- Modelled from the spec: `PathNode::CalcTotalCost` is declared in
micropather.h but its body is not in the provided sources.  Spec §3,
Record: "total cost (sum, or 'infinite' sentinel if either input is
infinite)". -/
def calcTotalCost (cfs est : ℚ) : ℚ :=
  if cfs < fltMax ∧ est < fltMax then cfs + est else fltMax

/-- The record the engine keeps per state (class `PathNode`).
`numAdjacent = none` models the C++ value `-1` (unknown);
`cacheIndex = none` models `-1` (not stored in the adjacency cache). -/
structure PathNode where
  state : State
  costFromStart : ℚ
  estToGoal : ℚ
  totalCost : ℚ
  parent : Option State
  frame : ℕ
  numAdjacent : Option ℕ
  cacheIndex : Option ℕ
  inOpen : Bool
  inClosed : Bool
deriving Repr, DecidableEq

/-- `PathNode::Clear`: zero everything, then mark adjacency unknown. -/
def pathNodeClear (s : State) : PathNode :=
  { state := s, costFromStart := 0, estToGoal := 0, totalCost := 0, parent := none,
    frame := 0, numAdjacent := none, cacheIndex := none, inOpen := false, inClosed := false }

/-- `PathNode::Init`: set the search fields; `numAdjacent`/`cacheIndex` are untouched. -/
def pathNodeInit (n : PathNode) (fr : ℕ) (s : State) (cfs est : ℚ) (parent : Option State) :
    PathNode :=
  { n with state := s, costFromStart := cfs, estToGoal := est,
           totalCost := calcTotalCost cfs est, parent := parent, frame := fr,
           inOpen := false, inClosed := false }

/-- The state-to-record map maintained by `PathNodePool` (hash table with
per-bucket trees), modelled as an association list with first-match lookup. -/
abbrev Pool := List (State × PathNode)

def poolFind : Pool → State → Option PathNode
  | [], _ => none
  | (t, m) :: rest, s => if t = s then some m else poolFind rest s

def poolSet : Pool → State → PathNode → Pool
  | [], s, n => [(s, n)]
  | (t, m) :: rest, s, n => if t = s then (s, n) :: rest else (t, m) :: poolSet rest s n

/-- One slot of the path cache (`PathCache::Item`).  The `void*` fields are
states with `0` for `nullptr`. -/
structure PCItem where
  start : State
  pcEnd : State
  next : State
  cost : ℚ
deriving Repr, DecidableEq

/-- `Item::Empty`: both identities null. -/
def PCItem.isEmptySlot (it : PCItem) : Prop := it.start = 0 ∧ it.pcEnd = 0

instance (it : PCItem) : Decidable it.isEmptySlot := by
  unfold PCItem.isEmptySlot; infer_instance

/-- `Item::KeyEqual`. -/
def PCItem.keyEqual (a b : PCItem) : Prop := a.start = b.start ∧ a.pcEnd = b.pcEnd

instance (a b : PCItem) : Decidable (a.keyEqual b) := by
  unfold PCItem.keyEqual; infer_instance

/-- The memoization table (`class PathCache`). -/
structure PathCache where
  mem : List PCItem
  allocated : ℕ
  nItems : ℕ
  hit : ℕ
  miss : ℕ
deriving Repr, DecidableEq

/-- `PathCache::PathCache(int)`. -/
def mkPathCache (n : ℕ) : PathCache :=
  { mem := List.replicate n ⟨0, 0, 0, 0⟩, allocated := n, nItems := 0, hit := 0, miss := 0 }

/-- `PathCache::Reset`. -/
def pcReset (pc : PathCache) : PathCache :=
  if pc.nItems ≠ 0 then
    { pc with mem := List.replicate pc.allocated ⟨0, 0, 0, 0⟩, nItems := 0, hit := 0, miss := 0 }
  else pc

/-- `Item::Hash % allocated` applied to an item: the C++ hash reads the
memory behind the `start` pointer, so it is an unknown but fixed function
of the start state, abstracted as `hashFn`. -/
def pcItemHash (hashFn : State → ℕ) (it : PCItem) : ℕ := hashFn it.start

/-- Result of a linear-probe lookup. -/
inductive Probe where
  | found : PCItem → Probe
  | absent : Probe
  | diverge : Probe
deriving Repr, DecidableEq

/-- The probe loop of `PathCache::Find`.  `fuel` bounds the number of slots
inspected; the C++ loop would run forever on a full table with no match. -/
def pcFindAux (pc : PathCache) (key : PCItem) : ℕ → ℕ → Probe
  | _, 0 => .diverge
  | idx, fuel + 1 =>
    match pc.mem.get? idx with
    | none => .diverge
    | some slot =>
      if slot.isEmptySlot then .absent
      else if slot.keyEqual key then .found slot
      else pcFindAux pc key ((idx + 1) % pc.allocated) fuel

/-- `PathCache::Find`. -/
def pcFind (hashFn : State → ℕ) (pc : PathCache) (s e : State) : Probe :=
  if pc.allocated = 0 then .diverge
  else pcFindAux pc ⟨s, e, 0, 0⟩ (hashFn s % pc.allocated) pc.allocated

/-- Outcome flag for operations that may throw (`assertExpression`) or
whose probe loop may fail to terminate. -/
inductive PCFlag where
  | ok : PCFlag
  | assertFail : PCFlag
  | diverge : PCFlag
deriving Repr, DecidableEq

/-- The probe loop of `PathCache::AddItem`. -/
def pcAddItemAux (item : PCItem) : PathCache → ℕ → ℕ → PathCache × PCFlag
  | pc, _, 0 => (pc, .diverge)
  | pc, idx, fuel + 1 =>
    match pc.mem.get? idx with
    | none => (pc, .diverge)
    | some slot =>
      if slot.isEmptySlot then
        ({ pc with mem := pc.mem.set idx item, nItems := pc.nItems + 1 }, .ok)
      else if slot.keyEqual item then
        if (slot.next ≠ 0 ∧ item.next ≠ 0) ∨ (slot.next = 0 ∧ item.next = 0) then (pc, .ok)
        else (pc, .assertFail)
      else pcAddItemAux item pc ((idx + 1) % pc.allocated) fuel

/-- `PathCache::AddItem`. -/
def pcAddItem (hashFn : State → ℕ) (pc : PathCache) (item : PCItem) : PathCache × PCFlag :=
  if pc.allocated = 0 then (pc, .assertFail)
  else pcAddItemAux item pc (pcItemHash hashFn item % pc.allocated) pc.allocated

/-- The insertion loop shared by `PathCache::Add` and `AddNoSolution`.
On an exception the already-inserted prefix stays in the table, as in C++. -/
def pcAddLoop (hashFn : State → ℕ) : PathCache → List PCItem → PathCache × PCFlag
  | pc, [] => (pc, .ok)
  | pc, it :: rest =>
    match pcAddItem hashFn pc it with
    | (pc', .ok) => pcAddLoop hashFn pc' rest
    | (pc', flag) => (pc', flag)

/-- The batch of items `PathCache::Add` builds from a path and its edge costs. -/
def pcAddItems (path : List State) (cost : List ℚ) : List PCItem :=
  ((path.zip path.tail).zip cost).map fun x => ⟨x.1.1, path.getLast?.getD 0, x.1.2, x.2⟩

/-- `PathCache::Add`. -/
def pcAdd (hashFn : State → ℕ) (pc : PathCache) (path : List State) (cost : List ℚ) :
    PathCache × PCFlag :=
  if pc.nItems + path.length > pc.allocated * 3 / 4 then (pc, .ok)
  else pcAddLoop hashFn pc (pcAddItems path cost)

/-- `PathCache::AddNoSolution`. -/
def pcAddNoSolution (hashFn : State → ℕ) (pc : PathCache) (e : State) (states : List State) :
    PathCache × PCFlag :=
  if states.length + pc.nItems > pc.allocated * 3 / 4 then (pc, .ok)
  else pcAddLoop hashFn pc (states.map fun s => ⟨s, e, 0, fltMax⟩)

/-- The replay loop of `PathCache::Solve`: given the current `start` and the
item found for `(start, end)`, accumulate cost and follow next-hops. -/
def pcSolveLoop (hashFn : State → ℕ) (pc : PathCache) (e : State) :
    State → Option PCItem → List State → ℚ → ℕ → Option (List State × ℚ)
  | _, _, _, _, 0 => none
  | start, item, path, total, fuel + 1 =>
    if start = e then some (path, total)
    else
      match item with
      | none => none
      | some it =>
        let nextItem :=
          match pcFind hashFn pc it.next e with
          | .found j => some (some j)
          | .absent => some none
          | .diverge => none
        match nextItem with
        | none => none
        | some j => pcSolveLoop hashFn pc e it.next j (path ++ [it.next]) (total + it.cost) fuel

/-- `PathCache::Solve`: returns the updated cache (hit/miss counters) and the
replayed path; the accumulated `*totalCost` is discarded by the caller. -/
def pcSolveFull (hashFn : State → ℕ) (pc : PathCache) (start e : State) :
    Option (PathCache × List State) :=
  match pcFind hashFn pc start e with
  | .diverge => none
  | .absent => some ({ pc with miss := pc.miss + 1 }, [])
  | .found item =>
    if item.cost = fltMax then some ({ pc with hit := pc.hit + 1 }, [])
    else
      match pcSolveLoop hashFn pc e start (some item) [start] 0 (pc.allocated + 2) with
      | none => none
      | some (path, _) => some ({ pc with hit := pc.hit + 1 }, path)

/-- The client callback interface (`class Graph`). -/
structure Graph where
  leastCostEstimate : State → State → ℚ
  adjacentCost : State → List (State × ℚ)

/-- The engine state (`class MicroPather` plus its `PathNodePool`).
`lceCalls`/`adjCalls` count invocations of the two client callbacks. -/
structure Engine where
  pool : Pool
  poolCache : List (State × ℚ)
  cacheCap : ℕ
  frame : ℕ
  pathCache : Option PathCache
  lceCalls : ℕ
  adjCalls : ℕ
deriving Repr, DecidableEq

/-- `MicroPather::MicroPather(graph, allocate, typicalAdjacent, cache)`. -/
def mkEngine (allocate typicalAdjacent : ℕ) (cache : Bool) : Engine :=
  { pool := [], poolCache := [], cacheCap := allocate * typicalAdjacent, frame := 0,
    pathCache := if cache then some (mkPathCache (allocate * 4)) else none,
    lceCalls := 0, adjCalls := 0 }

/-- `PathNodePool::GetPathNode`: find-existing (current frame) wins; a stale
record is re-initialised in place; an absent record is allocated and cleared. -/
def getPathNode (es : Engine) (fr : ℕ) (s : State) (cfs est : ℚ) (parent : Option State) :
    Engine × PathNode :=
  match poolFind es.pool s with
  | some n =>
    if n.frame = fr then (es, n)
    else
      let n' := pathNodeInit n fr s cfs est parent
      ({ es with pool := poolSet es.pool s n' }, n')
  | none =>
    let n' := pathNodeInit (pathNodeClear s) fr s cfs est parent
    ({ es with pool := poolSet es.pool s n' }, n')

/-- The per-neighbor `GetPathNode` calls in the client branch of
`MicroPather::GetNodeNeighbors`. -/
def createNeighbors : Engine → List (State × ℚ) → Engine
  | es, [] => es
  | es, (t, _) :: rest => createNeighbors (getPathNode es es.frame t fltMax fltMax none).1 rest

/-- The stale-record reinitialisation in the cached branch of
`MicroPather::GetNodeNeighbors`. -/
def refreshStale (fr : ℕ) : Pool → List (State × ℚ) → Pool
  | pool, [] => pool
  | pool, (t, _) :: rest =>
    match poolFind pool t with
    | some m =>
      if m.frame ≠ fr then refreshStale fr (poolSet pool t (pathNodeInit m fr t fltMax fltMax none)) rest
      else refreshStale fr pool rest
    | none => refreshStale fr pool rest

/-- `MicroPather::GetNodeNeighbors`. -/
def getNodeNeighbors (g : Graph) (es : Engine) (s : State) : Engine × List (State × ℚ) :=
  match poolFind es.pool s with
  | none => (es, [])
  | some n =>
    if n.numAdjacent = some 0 then (es, [])
    else
      match n.cacheIndex with
      | none =>
        let edges := g.adjacentCost s
        let es1 : Engine := { es with adjCalls := es.adjCalls + 1,
                                      pool := poolSet es.pool s { n with numAdjacent := some edges.length } }
        let es2 := createNeighbors es1 edges
        if 0 < edges.length ∧ es2.poolCache.length + edges.length ≤ es2.cacheCap then
          match poolFind es2.pool s with
          | some n2 =>
            ({ es2 with pool := poolSet es2.pool s { n2 with cacheIndex := some es2.poolCache.length },
                        poolCache := es2.poolCache ++ edges }, edges)
          | none => (es2, edges)
        else (es2, edges)
      | some off =>
        let entries := (es.poolCache.drop off).take (n.numAdjacent.getD 0)
        ({ es with pool := refreshStale es.frame es.pool entries }, entries)

/-- Total cost of a state as read from the pool (used by the open queue). -/
def tcOf (es : Engine) (s : State) : ℚ :=
  match poolFind es.pool s with
  | some n => n.totalCost
  | none => 0

/-- The insertion scan of `OpenQueue::Push`: insert before the first element
of strictly greater total cost; the sentinel (list end) has cost `FLT_MAX`,
so the scan always terminates. -/
def openInsertList (tc : State → ℚ) (s : State) : List State → List State
  | [] => [s]
  | x :: xs => if tc s < tc x then s :: x :: xs else x :: openInsertList tc s xs

/-- The rightward scan of `OpenQueue::Update`: advance while the moved node
costs strictly more, then re-link before the stopping element. -/
def insertScan (tc : State → ℚ) (s : State) : List State → List State
  | [] => [s]
  | x :: xs => if tc s > tc x then x :: insertScan tc s xs else s :: x :: xs

/-- Split a list at the first occurrence of `s`: `some (pre, post)` with
`l = pre ++ s :: post` and `s ∉ pre`, or `none` when `s` is absent. -/
def splitAtElem (s : State) : List State → Option (List State × List State)
  | [] => none
  | x :: xs =>
    if x = s then some ([], xs)
    else
      match splitAtElem s xs with
      | some (p, q) => some (x :: p, q)
      | none => none

/-- `OpenQueue::Update`: if the node now costs less than its predecessor it is
re-linked at the front of the queue; then, if it costs more than its
successor, it is unlinked and scanned rightward to its place. -/
def openUpdate (tc : State → ℚ) (s : State) (l : List State) : List State :=
  match splitAtElem s l with
  | none => l
  | some (pre, post) =>
    let l1 := if pre ≠ [] ∧ tc s < tc (pre.getLast?.getD s) then s :: (pre ++ post) else l
    match splitAtElem s l1 with
    | none => l1
    | some (pre1, post1) =>
      let succCost := match post1 with
        | [] => fltMax
        | x :: _ => tc x
      if tc s > succCost then pre1 ++ insertScan tc s post1 else l1

/-- Case description of `OpenQueue::Update` when the node moved to the front
(proof helper for the characterization below). -/
def updFront (tc : State → ℚ) (s : State) : List State → List State
  | [] => [s]
  | y :: ys => if tc y < tc s then insertScan tc s (y :: ys) else s :: y :: ys

/-- Case description of `OpenQueue::Update` when the node did not move left. -/
def updKeep (tc : State → ℚ) (s : State) (pre : List State) : List State → List State
  | [] => pre ++ [s]
  | y :: ys => if tc y < tc s then pre ++ insertScan tc s (y :: ys) else pre ++ s :: y :: ys

/-- One relaxation pass of `MicroPather::Solve` (lines 828-870): filter
infinite edges, then update/insert each neighbor. -/
def solveRelax (g : Graph) : Engine → State → State → List (State × ℚ) → List State →
    Option (Engine × List State)
  | es, _, _, [], opn => some (es, opn)
  | es, endNode, s, (t, c) :: rest, opn =>
    if c = fltMax then solveRelax g es endNode s rest opn
    else
      match poolFind es.pool s, poolFind es.pool t with
      | some node, some child =>
        if (child.inOpen || child.inClosed) ∧ t = s then none
        else if child.inOpen ∧ child.inClosed then none
        else if child.inOpen ∨ child.inClosed then
          if node.costFromStart + c < child.costFromStart then
            let h := g.leastCostEstimate t endNode
            let child' := { child with parent := some s, costFromStart := node.costFromStart + c,
                                       estToGoal := h, totalCost := calcTotalCost (node.costFromStart + c) h }
            let es' : Engine := { es with pool := poolSet es.pool t child',
                                          lceCalls := es.lceCalls + 1 }
            let opn' := if child.inOpen then openUpdate (tcOf es') t opn else opn
            solveRelax g es' endNode s rest opn'
          else solveRelax g es endNode s rest opn
        else
          let h := g.leastCostEstimate t endNode
          let child' := { child with parent := some s, costFromStart := node.costFromStart + c,
                                     estToGoal := h, totalCost := calcTotalCost (node.costFromStart + c) h }
          let es' : Engine := { es with pool := poolSet es.pool t child',
                                        lceCalls := es.lceCalls + 1 }
          if child'.totalCost < fltMax then
            let es'' : Engine := { es' with pool := poolSet es'.pool t { child' with inOpen := true } }
            solveRelax g es'' endNode s rest (openInsertList (tcOf es'') t opn)
          else none
      | _, _ => none

/-- Walk the parent back-references from a record; `fuel` bounds the walk
(the C++ loop would not terminate on a cyclic chain). -/
def parentChain (pool : Pool) : State → ℕ → Option (List State)
  | _, 0 => none
  | s, fuel + 1 =>
    match poolFind pool s with
    | none => none
    | some n =>
      match n.parent with
      | none => some [s]
      | some p =>
        match parentChain pool p fuel with
        | none => none
        | some l => some (s :: l)

/-- First matching cost in a neighbor list (the inner loop of
`MicroPather::GoalReached` cache population). -/
def firstCostTo : List (State × ℚ) → State → Option ℚ
  | [], _ => none
  | (u, c) :: rest, t => if u = t then some c else firstCostTo rest t

/-- The cost-collection walk of `MicroPather::GoalReached` (lines 494-515):
re-resolve each consecutive pair and re-fetch its edge cost; the
`costVec.size() == i + 1` assertion fails if no matching edge exists. -/
def goalCosts (g : Graph) : Engine → List State → Option (Engine × List ℚ)
  | es, [] => some (es, [])
  | es, [_] => some (es, [])
  | es, a :: b :: rest =>
    match poolFind es.pool a, poolFind es.pool b with
    | some _, some _ =>
      let r := getNodeNeighbors g es a
      match firstCostTo r.2 b with
      | some c =>
        match goalCosts g r.1 (b :: rest) with
        | some (es', cs) => some (es', c :: cs)
        | none => none
      | none => none
    | _, _ => none

/-- `MicroPather::GoalReached`: rebuild the path from parent links and, when
caching is enabled, collect the consecutive edge costs and populate the
path cache. -/
def goalReached (g : Graph) (hashFn : State → ℕ) (es : Engine) (node startNode endNode : State) :
    Option (Engine × List State) :=
  match parentChain es.pool node (es.pool.length + 1) with
  | none => none
  | some chain =>
    let path := if chain.length < 3 then [startNode, endNode]
                else startNode :: ((chain.drop 1).dropLast).reverse ++ [endNode]
    match es.pathCache with
    | none => some (es, path)
    | some _ =>
      match goalCosts g es path with
      | none => none
      | some (es', costs) =>
        match es'.pathCache with
        | some pc =>
          match pcAdd hashFn pc path costs with
          | (pc', .ok) => some ({ es' with pathCache := some pc' }, path)
          | _ => none
        | none => some (es', path)

/-- The main loop of `MicroPather::Solve` (lines 811-879). -/
def solveLoop (g : Graph) (hashFn : State → ℕ) (startNode endNode : State) :
    Engine → List State → ℕ → Option (Engine × List State)
  | _, _, 0 => none
  | es, [], _ =>
    match es.pathCache with
    | none => some (es, [])
    | some pc =>
      match pcAddNoSolution hashFn pc endNode [startNode] with
      | (pc', .ok) => some ({ es with pathCache := some pc' }, [])
      | _ => none
  | es, s :: rest, fuel + 1 =>
    match poolFind es.pool s with
    | none => none
    | some node =>
      if node.inClosed ∨ ¬node.inOpen then none
      else
        let es1 : Engine := { es with pool := poolSet es.pool s { node with inOpen := false } }
        if s = endNode then goalReached g hashFn es1 s startNode endNode
        else
          let es2 : Engine :=
            { es1 with pool := poolSet es1.pool s { node with inOpen := false, inClosed := true } }
          let r := getNodeNeighbors g es2 s
          match solveRelax g r.1 endNode s r.2 rest with
          | none => none
          | some (es3, opn') => solveLoop g hashFn startNode endNode es3 opn' fuel

/-- The search phase of `MicroPather::Solve`: bump the frame, seed the start
record, push it, and run the loop. -/
def solveSearch (g : Graph) (hashFn : State → ℕ) (es : Engine) (startNode endNode : State)
    (fuel : ℕ) : Option (Engine × List State) :=
  let es1 : Engine := { es with frame := es.frame + 1, lceCalls := es.lceCalls + 1 }
  let r := getPathNode es1 es1.frame startNode 0 (g.leastCostEstimate startNode endNode) none
  if r.2.inOpen ∨ r.2.inClosed then none
  else if r.2.totalCost < fltMax then
    let es2 : Engine := { r.1 with pool := poolSet r.1.pool startNode { r.2 with inOpen := true } }
    solveLoop g hashFn startNode endNode es2 [startNode] fuel
  else none

/-- `MicroPather::Solve` (lines 776-880). -/
def solve (g : Graph) (hashFn : State → ℕ) (es : Engine) (startNode endNode : State)
    (fuel : ℕ) : Option (Engine × List State) :=
  if startNode = endNode then some (es, [])
  else
    match es.pathCache with
    | some pc =>
      match pcSolveFull hashFn pc startNode endNode with
      | none => none
      | some (pc', path) =>
        let es1 : Engine := { es with pathCache := some pc' }
        if path ≠ [] then some (es1, path)
        else solveSearch g hashFn es1 startNode endNode fuel
    | none => solveSearch g hashFn es startNode endNode fuel

/-- One relaxation pass of `MicroPather::SolveForNearStates` (lines 914-946).
Note: unlike `Solve`, there is no `FLT_MAX` edge filter here. -/
def sfnsRelax (g : Graph) : Engine → State → State → List (State × ℚ) → List State →
    Option (Engine × List State)
  | es, _, _, [], opn => some (es, opn)
  | es, startState, s, (t, c) :: rest, opn =>
    match poolFind es.pool s, poolFind es.pool t with
    | some node, some child =>
      if ¬node.costFromStart < fltMax then none
      else if child.inOpen ∧ child.inClosed then none
      else if (child.inOpen ∨ child.inClosed) ∧ t = s then none
      else if (child.inOpen ∨ child.inClosed) ∧ child.costFromStart ≤ node.costFromStart + c then
        sfnsRelax g es startState s rest opn
      else if t = startState then none
      else
        let child' := { child with parent := some s, costFromStart := node.costFromStart + c,
                                   estToGoal := 0, totalCost := node.costFromStart + c }
        let es' : Engine := { es with pool := poolSet es.pool t child' }
        if child.inOpen then sfnsRelax g es' startState s rest (openUpdate (tcOf es') t opn)
        else if ¬child.inClosed then
          if child'.totalCost < fltMax then
            let es'' : Engine := { es' with pool := poolSet es'.pool t { child' with inOpen := true } }
            sfnsRelax g es'' startState s rest (openInsertList (tcOf es'') t opn)
          else none
        else sfnsRelax g es' startState s rest opn
    | _, _ => none

/-- The main loop of `MicroPather::SolveForNearStates` (lines 901-947);
`closedL` is the closed-sentinel list, in insertion order. -/
def sfnsLoop (g : Graph) (startState : State) (maxCost : ℚ) :
    Engine → List State → List State → ℕ → Option (Engine × List State)
  | _, _, _, 0 => none
  | es, [], closedL, _ => some (es, closedL)
  | es, s :: rest, closedL, fuel + 1 =>
    match poolFind es.pool s with
    | none => none
    | some node =>
      if node.inClosed ∨ ¬node.inOpen then none
      else
        let es1 : Engine :=
          { es with pool := poolSet es.pool s { node with inOpen := false, inClosed := true } }
        let closedL1 := closedL ++ [s]
        if node.totalCost > maxCost then sfnsLoop g startState maxCost es1 rest closedL1 fuel
        else
          let r := getNodeNeighbors g es1 s
          match sfnsRelax g r.1 startState s r.2 rest with
          | none => none
          | some (es2, opn') => sfnsLoop g startState maxCost es2 opn' closedL1 fuel

/-- `MicroPather::SolveForNearStates` (lines 883-964). -/
def solveForNearStates (g : Graph) (es : Engine) (startState : State) (maxCost : ℚ)
    (fuel : ℕ) : Option (Engine × List (State × ℚ)) :=
  let es1 : Engine := { es with frame := es.frame + 1 }
  let r := getPathNode es1 es1.frame startState 0 0 none
  if r.2.inOpen ∨ r.2.inClosed then none
  else if r.2.totalCost < fltMax then
    let es2 : Engine := { r.1 with pool := poolSet r.1.pool startState { r.2 with inOpen := true } }
    match sfnsLoop g startState maxCost es2 [startState] [] fuel with
    | none => none
    | some (es', closedL) =>
      some (es', closedL.filterMap fun t =>
        match poolFind es'.pool t with
        | some m => if m.totalCost ≤ maxCost then some (t, m.totalCost) else none
        | none => none)
  else none

/-! ### Path semantics of the client graph -/

/-- A walk in the client graph from `a` to `b` of total cost `w`, using only
traversable (non-`FLT_MAX`) edges. -/
inductive PathTo (g : Graph) : State → State → ℚ → Prop where
  | refl (a : State) : PathTo g a a 0
  | tail {a u v : State} {w c : ℚ} : PathTo g a u w → (v, c) ∈ g.adjacentCost u →
      c ≠ fltMax → PathTo g a v (w + c)

/-- The list `p` is a walk in `g` (head to last) of total cost `w`. -/
inductive ListPath (g : Graph) : List State → ℚ → Prop where
  | single (a : State) : ListPath g [a] 0
  | cons {a b : State} {rest : List State} {c w : ℚ} : (b, c) ∈ g.adjacentCost a →
      c ≠ fltMax → ListPath g (b :: rest) w → ListPath g (a :: b :: rest) (c + w)

/-- `w` is the cost of a minimum-cost path from `a` to `b`. -/
def IsMinDist (g : Graph) (a b : State) (w : ℚ) : Prop :=
  PathTo g a b w ∧ ∀ w', PathTo g a b w' → w ≤ w'

/-- Ascending order by a cost assignment, the open queue invariant. -/
def SortedBy (tc : State → ℚ) (l : List State) : Prop :=
  l.Pairwise fun a b => tc a ≤ tc b

/-! ### The open queue as a state machine (for the queue invariant claim) -/

/-- Total costs of the records, as an association list (node costs are stored
on the records; the queue orders by them). -/
abbrev CostMap := List (State × ℚ)

def cmGet (m : CostMap) (s : State) : ℚ :=
  match m with
  | [] => 0
  | (t, c) :: rest => if t = s then c else cmGet rest s

def cmSet (m : CostMap) (s : State) (c : ℚ) : CostMap :=
  match m with
  | [] => [(s, c)]
  | (t, c0) :: rest => if t = s then (s, c) :: rest else (t, c0) :: cmSet rest s c

/-- Open-queue operations.  `push s c`/`update s c` set the node total cost to
`c` (the engine always writes the cost right before the queue call). -/
inductive QOp where
  | push : State → ℚ → QOp
  | pop : QOp
  | update : State → ℚ → QOp

/-- Execute one queue operation, checking its precondition (`Push`: the node is
in neither open nor closed and its cost is below the sentinel; `Pop`:
non-empty; `Update`: the node is already open). -/
def qExec : CostMap × List State → QOp → Option (CostMap × List State)
  | (m, l), .push s c =>
    if s ∉ l ∧ c < fltMax then
      let m' := cmSet m s c
      some (m', openInsertList (cmGet m') s l)
    else none
  | (m, l), .pop =>
    match l with
    | [] => none
    | _ :: t => some (m, t)
  | (m, l), .update s c =>
    if s ∈ l then
      let m' := cmSet m s c
      some (m', openUpdate (cmGet m') s l)
    else none

def qExecList : CostMap × List State → List QOp → Option (CostMap × List State)
  | st, [] => some st
  | st, op :: ops =>
    match qExec st op with
    | none => none
    | some st' => qExecList st' ops

/-! ### Path-cache well-formedness (for the load-factor/uniqueness claim) -/

/-- Path-cache operations available between resets. -/
inductive PCOp where
  | add : List State → List ℚ → PCOp
  | addNoSolution : State → List State → PCOp
  | reset : PCOp

/-- Real engine calls never pass null identities (spec §3: start/end
identities are never null). -/
def PCOpValid : PCOp → Prop
  | .add p _ => ∀ s ∈ p, s ≠ 0
  | .addNoSolution e ss => e ≠ 0 ∧ ∀ s ∈ ss, s ≠ 0
  | .reset => True

def pcExec (hashFn : State → ℕ) (pc : PathCache) : PCOp → PathCache
  | .add p c => (pcAdd hashFn pc p c).1
  | .addNoSolution e ss => (pcAddNoSolution hashFn pc e ss).1
  | .reset => pcReset pc

def pcExecList (hashFn : State → ℕ) : PathCache → List PCOp → PathCache
  | pc, [] => pc
  | pc, op :: ops => pcExecList hashFn (pcExec hashFn pc op) ops

/-- Number of occupied (non-empty) slots of the table. -/
def occupiedCount (pc : PathCache) : ℕ :=
  (pc.mem.filter fun it => decide (¬ it.isEmptySlot)).length

/-- Cyclic probe distance from slot `h` to slot `j` in a table of size `n`. -/
def probeDist (n h j : ℕ) : ℕ := (j + n - h) % n

/-- The table holds this exact item in some occupied slot. -/
def pcMapsTo (pc : PathCache) (it : PCItem) : Prop :=
  ∃ j, pc.mem.get? j = some it ∧ ¬it.isEmptySlot

/-- Some occupied slot holds an item with this key. -/
def pcContainsKey (pc : PathCache) (key : PCItem) : Prop :=
  ∃ j it, pc.mem.get? j = some it ∧ ¬it.isEmptySlot ∧ it.keyEqual key

/-- Well-formedness of the open-addressing table: the size field is right, the
item count matches the occupied slots, keys are unique, and every occupied
slot is reachable from its hash index through occupied slots only (no holes
in probe chains; entries are never individually deleted). -/
structure PCWF (hashFn : State → ℕ) (pc : PathCache) : Prop where
  memLen : pc.mem.length = pc.allocated
  count : pc.nItems = occupiedCount pc
  uniq : ∀ i j a b, pc.mem.get? i = some a → pc.mem.get? j = some b → ¬a.isEmptySlot →
    ¬b.isEmptySlot → a.keyEqual b → i = j
  chain : ∀ j it, pc.mem.get? j = some it → ¬it.isEmptySlot →
    ∀ k, k < probeDist pc.allocated (pcItemHash hashFn it % pc.allocated) j →
      ∃ it', pc.mem.get? ((pcItemHash hashFn it % pc.allocated + k) % pc.allocated) = some it' ∧
        ¬it'.isEmptySlot

/-! ### Concrete instances used by the counterexamples and evaluations -/

/-- A concrete stand-in for the memory-dependent item hash. -/
def hf0 : State → ℕ := fun _ => 0

/-- The edgeless graph with zero heuristic. -/
def g1 : Graph := { leastCostEstimate := fun _ _ => 0, adjacentCost := fun _ => [] }

/-- Counterexample graph for the optimality claim: states S=1, A=2, B=3, C=4,
D=5, W=6, G=7; the minimum-cost route 1-3-4-5-7 costs 4, the decoy route
1-6-7 costs 5. -/
def c2adj (s : State) : List (State × ℚ) :=
  if s = 1 then [(2, 2), (3, 1), (6, 3)]
  else if s = 2 then [(4, 1)]
  else if s = 3 then [(4, 1)]
  else if s = 4 then [(5, 1)]
  else if s = 5 then [(7, 1)]
  else if s = 6 then [(7, 2)]
  else []

/-- The admissible but inconsistent heuristic of the optimality counterexample. -/
def c2h (s : State) : ℚ := if s = 3 then 3 else if s = 5 then 1 else 0

/-- True minimum cost to state 7 in `c2adj` (the potential used to certify
admissibility). -/
def c2pot (s : State) : ℚ :=
  if s = 1 then 4 else if s = 2 then 3 else if s = 3 then 3 else if s = 4 then 2
  else if s = 5 then 1 else if s = 6 then 2 else 0

def c2g : Graph :=
  { leastCostEstimate := fun a b => if b = 7 then c2h a else 0, adjacentCost := c2adj }

/-- A graph with a single non-traversable (infinite-cost) edge. -/
def c5g : Graph :=
  { leastCostEstimate := fun _ _ => 0,
    adjacentCost := fun s => if s = 1 then [(2, fltMax)] else [] }

/-- A 4-state chain used for the caching counterexample. -/
def c4adj (s : State) : List (State × ℚ) :=
  if s = 1 then [(2, 1)] else if s = 2 then [(3, 1)] else if s = 3 then [(4, 1)] else []

def c4g : Graph := { leastCostEstimate := fun _ _ => 0, adjacentCost := c4adj }


/-- The engine state after the first no-path `Solve(1, 2)` call of the
negative-caching scenario. -/
def c1es1 : Engine := ((solve g1 hf0 (mkEngine 1 1 true) 1 2 9).map Prod.fst).getD (mkEngine 1 1 true)

/-- The engine state after a first `Solve(1, 4)` call on the 4-chain with
`allocate = 1`: the path-cache batch is refused by the capacity guard. -/
def c4es1 : Engine := ((solve c4g hf0 (mkEngine 1 1 true) 1 4 9).map Prod.fst).getD (mkEngine 1 1 true)

/-- The engine state after a first `Solve(1, 4)` call on the 4-chain with
`allocate = 4`: the path-cache holds the three entries of the path. -/
def c4es4 : Engine := ((solve c4g hf0 (mkEngine 4 1 true) 1 4 9).map Prod.fst).getD (mkEngine 4 1 true)

/-- The path cache of `c4es4`. -/
def c4pc4 : PathCache := c4es4.pathCache.getD (mkPathCache 0)

/-! ### Infrastructure for the optimality proofs (claims about the search
drivers): parent chains, graph-side hypotheses, and the loop invariant. -/

/-- The record `GetPathNode` creates for a state not yet in the pool
(cleared, then initialised at infinite cost with no parent). -/
def untouchedNode (fr : ℕ) (x : State) : PathNode :=
  pathNodeInit (pathNodeClear x) fr x fltMax fltMax none

/-- The closed flag of a state's record, `false` when absent. -/
def closedFlag (es : Engine) (x : State) : Bool :=
  ((poolFind es.pool x).map PathNode.inClosed).getD false

/-- Number of closed records among states below `N`. -/
def closedCount (es : Engine) (N : ℕ) : ℕ :=
  ((List.range N).filter (closedFlag es)).length

/-- The parent back-references of a touched record form a genuine walk from
the start: `Chain g pool start s w l` says the list `l` runs from `start` to
`s`, every link is a real traversable client edge whose head record stores
parent and exact accumulated cost, and every intermediate node is closed. -/
inductive Chain (B : ℚ) (g : Graph) (pool : Pool) (startNode : State) :
    State → ℚ → List State → Prop where
  | base {n : PathNode} : poolFind pool startNode = some n → n.parent = none →
      n.costFromStart = 0 → Chain B g pool startNode startNode 0 [startNode]
  | step {p s : State} {w c : ℚ} {l : List State} {n m : PathNode} :
      Chain B g pool startNode p w l →
      poolFind pool p = some m → m.inClosed = true →
      poolFind pool s = some n → n.parent = some p → n.costFromStart = w + c →
      (s, c) ∈ g.adjacentCost p → c ≠ fltMax → 0 ≤ c → c ≤ B →
      s ∉ l → Chain B g pool startNode s (w + c) (l ++ [s])

/-- Hypotheses on the client graph under which the search is exact: costs are
traversable-and-bounded or infinite, the heuristic is nonnegative, bounded and
consistent, there are no self-edges of finite cost, edge targets lie below
`N`, and the bound keeps every total cost below `FLT_MAX`. -/
structure GHyp (g : Graph) (endNode : State) (N : ℕ) (B : ℚ) : Prop where
  hB : 0 ≤ B
  cost : ∀ s t c, (t, c) ∈ g.adjacentCost s → c = fltMax ∨ (0 ≤ c ∧ c ≤ B)
  hle : ∀ s, 0 ≤ g.leastCostEstimate s endNode ∧ g.leastCostEstimate s endNode ≤ B
  cons : ∀ s t c, (t, c) ∈ g.adjacentCost s → c ≠ fltMax →
    g.leastCostEstimate s endNode ≤ c + g.leastCostEstimate t endNode
  self : ∀ s c, (s, c) ∈ g.adjacentCost s → c = fltMax
  target : ∀ s t c, (t, c) ∈ g.adjacentCost s → t < N
  flt : B * N + B < fltMax

/-- The invariant of `MicroPather::Solve`'s main loop.  `exc` excludes the
edges of the node currently being relaxed from the closed-relaxation field
(it is `fun _ _ => False` between iterations). -/
structure AInvP (g : Graph) (startNode endNode : State) (N : ℕ) (B : ℚ)
    (exc : State → State × ℚ → Prop) (es : Engine) (opn : List State) : Prop where
  cacheNone : es.pathCache = none
  frameEq : ∀ x n, poolFind es.pool x = some n → n.frame = es.frame
  notBoth : ∀ x n, poolFind es.pool x = some n → n.inOpen = true → n.inClosed = false
  openMem : ∀ x, x ∈ opn ↔ ∃ n, poolFind es.pool x = some n ∧ n.inOpen = true
  openNodup : opn.Nodup
  sorted : SortedBy (tcOf es) opn
  startTouched : ∃ n, poolFind es.pool startNode = some n ∧
    (n.inOpen = true ∨ n.inClosed = true) ∧ n.costFromStart = 0
  touchedLt : ∀ x n, poolFind es.pool x = some n →
    n.inOpen = true ∨ n.inClosed = true → x < N
  est : ∀ x n, poolFind es.pool x = some n → n.inOpen = true ∨ n.inClosed = true →
    n.estToGoal = g.leastCostEstimate x endNode
  tct : ∀ x n, poolFind es.pool x = some n → n.inOpen = true ∨ n.inClosed = true →
    n.totalCost = n.costFromStart + n.estToGoal ∧ n.costFromStart + n.estToGoal < fltMax
  chainEx : ∀ x n, poolFind es.pool x = some n → n.inOpen = true ∨ n.inClosed = true →
    ∃ l, Chain B g es.pool startNode x n.costFromStart l
  cacheIdx : ∀ x n, poolFind es.pool x = some n → n.inClosed = false →
    n.numAdjacent = none ∧ n.cacheIndex = none
  closedMin : ∀ x n, poolFind es.pool x = some n → n.inClosed = true →
    IsMinDist g startNode x n.costFromStart
  closedRelaxed : ∀ x n, poolFind es.pool x = some n → n.inClosed = true →
    ∀ t c, (t, c) ∈ g.adjacentCost x → c ≠ fltMax → ¬exc x (t, c) →
      ∃ m, poolFind es.pool t = some m ∧ (m.inOpen = true ∨ m.inClosed = true) ∧
        m.costFromStart ≤ n.costFromStart + c

/-- The between-iterations form of the loop invariant. -/
abbrev AInv (g : Graph) (startNode endNode : State) (N : ℕ) (B : ℚ)
    (es : Engine) (opn : List State) : Prop :=
  AInvP g startNode endNode N B (fun _ _ => False) es opn

/-- Hypotheses on the client graph under which the budgeted search is exact:
every enumerated edge is traversable with a nonnegative bounded cost, there
are no self-edges at all, and edge targets lie below `N`.  (Unlike `Solve`,
`SolveForNearStates` never filters `FLT_MAX` edges — claim C5 — so all
costs must be finite here.) -/
structure NHyp (g : Graph) (N : ℕ) (B : ℚ) : Prop where
  hB : 0 ≤ B
  cost : ∀ s t c, (t, c) ∈ g.adjacentCost s → 0 ≤ c ∧ c ≤ B
  self : ∀ s c, (s, c) ∉ g.adjacentCost s
  target : ∀ s t c, (t, c) ∈ g.adjacentCost s → t < N

/-- The invariant of `MicroPather::SolveForNearStates`'s main loop.  `exc`
excludes the edges of the node currently being relaxed (it is
`fun _ _ => False` between iterations).  `closedL` is the closed-sentinel
list the loop accumulates. -/
structure NInvP (g : Graph) (startState : State) (N : ℕ) (B maxCost : ℚ)
    (exc : State → State × ℚ → Prop) (es : Engine) (opn : List State)
    (closedL : List State) : Prop where
  frameEq : ∀ x n, poolFind es.pool x = some n → n.frame = es.frame
  notBoth : ∀ x n, poolFind es.pool x = some n → n.inOpen = true → n.inClosed = false
  openMem : ∀ x, x ∈ opn ↔ ∃ n, poolFind es.pool x = some n ∧ n.inOpen = true
  openNodup : opn.Nodup
  sorted : SortedBy (tcOf es) opn
  startTouched : ∃ n, poolFind es.pool startState = some n ∧
    (n.inOpen = true ∨ n.inClosed = true) ∧ n.costFromStart = 0
  touchedLt : ∀ x n, poolFind es.pool x = some n →
    n.inOpen = true ∨ n.inClosed = true → x < N
  tct : ∀ x n, poolFind es.pool x = some n → n.inOpen = true ∨ n.inClosed = true →
    n.totalCost = n.costFromStart ∧ n.costFromStart < fltMax ∧ 0 ≤ n.costFromStart
  pathLe : ∀ x n, poolFind es.pool x = some n → n.inOpen = true ∨ n.inClosed = true →
    ∃ w, PathTo g startState x w ∧ w ≤ n.costFromStart
  cacheIdx : ∀ x n, poolFind es.pool x = some n → n.inClosed = false →
    n.numAdjacent = none ∧ n.cacheIndex = none
  closedIff : ∀ x, x ∈ closedL ↔ ∃ n, poolFind es.pool x = some n ∧ n.inClosed = true
  closedNodup : closedL.Nodup
  closedLB : ∀ x n, poolFind es.pool x = some n → n.inClosed = true →
    ∀ y m, poolFind es.pool y = some m → m.inOpen = true →
      n.costFromStart ≤ m.costFromStart
  closedRelaxed : ∀ x n, poolFind es.pool x = some n → n.inClosed = true →
    n.costFromStart ≤ maxCost →
    ∀ t c, (t, c) ∈ g.adjacentCost x → ¬exc x (t, c) →
      ∃ m, poolFind es.pool t = some m ∧ (m.inOpen = true ∨ m.inClosed = true) ∧
        m.costFromStart ≤ n.costFromStart + c

/-- The between-iterations form of the budgeted-loop invariant. -/
abbrev NInv (g : Graph) (startState : State) (N : ℕ) (B maxCost : ℚ)
    (es : Engine) (opn : List State) (closedL : List State) : Prop :=
  NInvP g startState N B maxCost (fun _ _ => False) es opn closedL

/-! ### Theorems.

`Rat.add`/`Rat.mul`/`Rat.sub` are `@[irreducible]` in core, which blocks
elaborator-side `decide`/`rfl` on concrete runs even though the kernel
reduces them fine; make them semireducible for the proofs below. -/

attribute [local semireducible] Rat.add Rat.mul Rat.sub

/-! ### General path lemmas -/

theorem pathTo_nonneg {g : Graph}
    (hc : ∀ u t c, (t, c) ∈ g.adjacentCost u → c ≠ fltMax → 0 ≤ c) :
    ∀ {a b : State} {w : ℚ}, PathTo g a b w → 0 ≤ w := by
  intro a b w h
  induction h with
  | refl => exact le_refl 0
  | tail _ hm hf ih => exact add_nonneg ih (hc _ _ _ hm hf)

theorem pathTo_potential {g : Graph} (pot : State → ℚ)
    (hpot : ∀ u t c, (t, c) ∈ g.adjacentCost u → c ≠ fltMax → pot u ≤ c + pot t) :
    ∀ {a b : State} {w : ℚ}, PathTo g a b w → pot a ≤ w + pot b := by
  intro a b w h
  induction h with
  | refl => simp
  | tail _ hm hf ih =>
    have := hpot _ _ _ hm hf
    linarith

/-! ### Edge facts of the optimality counterexample graph -/

theorem c2adj_mem {u t : State} {c : ℚ} (h : (t, c) ∈ c2adj u) :
    0 ≤ c ∧ c ≠ fltMax ∧ c2pot u ≤ c + c2pot t := by
  unfold c2adj at h
  split_ifs at h with h1 h2 h3 h4 h5 h6 <;>
    simp only [List.mem_cons, List.not_mem_nil, or_false, Prod.mk.injEq] at h
  · subst h1
    rcases h with ⟨rfl, rfl⟩ | ⟨rfl, rfl⟩ | ⟨rfl, rfl⟩ <;>
      exact ⟨by norm_num, by decide, by norm_num [c2pot]⟩
  · subst h2; obtain ⟨rfl, rfl⟩ := h; exact ⟨by norm_num, by decide, by norm_num [c2pot]⟩
  · subst h3; obtain ⟨rfl, rfl⟩ := h; exact ⟨by norm_num, by decide, by norm_num [c2pot]⟩
  · subst h4; obtain ⟨rfl, rfl⟩ := h; exact ⟨by norm_num, by decide, by norm_num [c2pot]⟩
  · subst h5; obtain ⟨rfl, rfl⟩ := h; exact ⟨by norm_num, by decide, by norm_num [c2pot]⟩
  · subst h6; obtain ⟨rfl, rfl⟩ := h; exact ⟨by norm_num, by decide, by norm_num [c2pot]⟩

theorem c2h_le_pot : ∀ a, c2h a ≤ c2pot a := by
  intro a
  unfold c2h c2pot
  split_ifs <;> simp_all

theorem c2pot_nonneg : ∀ a, 0 ≤ c2pot a := by
  intro a
  unfold c2pot
  split_ifs <;> norm_num

/-- The heuristic of the counterexample graph never overestimates the true
remaining cost (admissibility). -/
theorem c2_admissible : ∀ a b w, PathTo c2g a b w → c2g.leastCostEstimate a b ≤ w := by
  intro a b w h
  have hnn : (0 : ℚ) ≤ w := pathTo_nonneg (fun u t c hm _ => (c2adj_mem hm).1) h
  show (if b = 7 then c2h a else 0) ≤ w
  split_ifs with hb
  · subst hb
    have hp := pathTo_potential c2pot (fun u t c hm _ => (c2adj_mem hm).2.2) h
    have h7 : c2pot 7 = 0 := by norm_num [c2pot]
    have ha := c2h_le_pot a
    linarith
  · exact hnn

theorem c2_cheap_path : PathTo c2g 1 7 4 := by
  have e1 : ((3 : ℕ), (1 : ℚ)) ∈ c2g.adjacentCost 1 := by norm_num [c2g, c2adj]
  have e2 : ((4 : ℕ), (1 : ℚ)) ∈ c2g.adjacentCost 3 := by norm_num [c2g, c2adj]
  have e3 : ((5 : ℕ), (1 : ℚ)) ∈ c2g.adjacentCost 4 := by norm_num [c2g, c2adj]
  have e4 : ((7 : ℕ), (1 : ℚ)) ∈ c2g.adjacentCost 5 := by norm_num [c2g, c2adj]
  have h4 : (4 : ℚ) = 0 + 1 + 1 + 1 + 1 := by norm_num
  rw [h4]
  exact .tail (.tail (.tail (.tail (.refl 1) e1 (by decide)) e2 (by decide)) e3 (by decide))
    e4 (by decide)

theorem c2_returned_cost : ∀ w, ListPath c2g [1, 6, 7] w → w = 5 := by
  intro w h
  cases h with
  | cons hm hf h1 =>
    rename_i c w1
    cases h1 with
    | cons hm2 hf2 h2 =>
      rename_i c2 w2
      cases h2
      have hc : c = 3 := by
        simp only [c2g, c2adj] at hm
        norm_num at hm
        exact hm
      have hc2 : c2 = 2 := by
        simp only [c2g, c2adj] at hm2
        norm_num at hm2
        exact hm2
      rw [hc, hc2]
      norm_num

theorem c2_returned_listpath : ListPath c2g [1, 6, 7] 5 := by
  have e1 : ((6 : ℕ), (3 : ℚ)) ∈ c2g.adjacentCost 1 := by norm_num [c2g, c2adj]
  have e2 : ((7 : ℕ), (2 : ℚ)) ∈ c2g.adjacentCost 6 := by norm_num [c2g, c2adj]
  have h5 : (5 : ℚ) = 3 + (2 + 0) := by norm_num
  rw [h5]
  exact .cons e1 (by decide) (.cons e2 (by decide) (.single 7))

/-! ### Claim theorems: trivial solve, negative caching, infinite-edge filter -/

/-- Claim C10: for every state `s`, `Solve(s, s)` returns before touching any
engine state: no client callback is invoked, the frame counter is not
incremented, the path cache (with its hit and miss counters) is neither
consulted nor modified, and no pool record is allocated or changed — the
whole engine state is returned unchanged together with the empty path. -/
theorem c10_trivial_solve_no_effects (g : Graph) (hashFn : State → ℕ) (es : Engine)
    (s : State) (fuel : ℕ) : solve g hashFn es s s fuel = some (es, []) := by
  simp [solve]

/-- Claim C3, counterexample: the caller-visible result of `Solve` is only the
path vector; `Solve(1, 1)` (trivial) and `Solve(1, 2)` on an edgeless graph
(no path, open list exhausts) both return `some []` — equal values, so no
status flag or equivalent in the returned result distinguishes them. -/
theorem c3_no_status_flag :
    (solve g1 hf0 (mkEngine 1 1 false) 1 1 9).map Prod.snd = some [] ∧
    (solve g1 hf0 (mkEngine 1 1 false) 1 2 9).map Prod.snd = some [] ∧
    (solve g1 hf0 (mkEngine 1 1 false) 1 1 9).map Prod.snd =
      (solve g1 hf0 (mkEngine 1 1 false) 1 2 9).map Prod.snd :=
  ⟨by decide, by decide, by decide⟩

/-- Claim C3, amended: `Solve(s, s)` returns the empty sequence for every
state, and the no-path outcome is the same empty sequence; the returned
value carries no status flag, so the two outcomes are indistinguishable
from the result and callers must rely on context. -/
theorem c3_trivial_empty_indistinguishable :
    (∀ (g : Graph) (hashFn : State → ℕ) (es : Engine) (s : State) (fuel : ℕ),
      (solve g hashFn es s s fuel).map Prod.snd = some []) ∧
    (solve g1 hf0 (mkEngine 1 1 false) 1 2 9).map Prod.snd = some [] := by
  constructor
  · intro g hashFn es s fuel
    simp [solve]
  · decide

/-- Claim C1 (code bug): on an edgeless graph with caching enabled,
`Solve(1, 2)` returns the no-path result and registers a negative cache
entry (miss count 1, one `LeastCostEstimate` call, frame 1); the repeat
call finds the negative entry — `PathCache::Solve` increments the hit
counter — but returns the empty vector, which `MicroPather::Solve` treats
as a cache miss: it re-runs the whole search (frame 2) and re-invokes
`LeastCostEstimate` (2 calls), contradicting the negative-caching claim. -/
theorem c1_negative_cache_hit_reruns_search :
    (solve g1 hf0 (mkEngine 1 1 true) 1 2 9).map Prod.snd = some [] ∧
    c1es1.lceCalls = 1 ∧ c1es1.adjCalls = 1 ∧ c1es1.frame = 1 ∧
    c1es1.pathCache.map PathCache.hit = some 0 ∧
    c1es1.pathCache.map PathCache.miss = some 1 ∧
    (solve g1 hf0 c1es1 1 2 9).map Prod.snd = some [] ∧
    ((solve g1 hf0 c1es1 1 2 9).map Prod.fst).map Engine.lceCalls = some 2 ∧
    ((solve g1 hf0 c1es1 1 2 9).map Prod.fst).map Engine.frame = some 2 ∧
    ((solve g1 hf0 c1es1 1 2 9).map Prod.fst).map (fun es => es.pathCache.map PathCache.hit)
      = some (some 1) := by
  refine ⟨by decide, by decide, by decide, by decide, by decide, by decide, by decide,
    by decide, by decide, by decide⟩

/-- Claim C5 (code bug): `SolveForNearStates` does not filter infinite-cost
edges: on a graph whose only edge costs `FLT_MAX`, the relaxation writes
`cost = FLT_MAX` into the fresh neighbor and `OpenQueue::Push` then fails
its `totalCost < FLT_MAX` assertion (the call throws, modelled as `none`);
`Solve` on the same graph does filter the edge and cleanly reports no path. -/
theorem c5_near_states_does_not_filter_infinite :
    solveForNearStates c5g (mkEngine 1 1 false) 1 10 9 = none ∧
    (solve c5g hf0 (mkEngine 1 1 false) 1 2 9).map Prod.snd = some [] :=
  ⟨by decide, by decide⟩

/-- Claim C6, counterexample: with `maxCost = -1` on a single-state graph,
`SolveForNearStates` returns an empty result set even though the claim
requires `start` to always be included with cost 0 (the start is popped
with total cost `0 > maxCost` and then filtered from the output). -/
theorem c6_negative_budget_excludes_start :
    (solveForNearStates g1 (mkEngine 1 1 false) 1 (-1) 9).map Prod.snd = some [] ∧
    IsMinDist g1 1 1 0 := by
  constructor
  · decide
  · refine ⟨.refl 1, fun w h => ?_⟩
    cases h with
    | refl => exact le_refl 0
    | tail _ hm _ => exact absurd hm (by simp [g1])

/-- Claim C8, counterexample: after `Add [1,2,3] [5,5]` the cache maps
`(1,3)` to next hop `2` at cost `5`; a later `Add [1,3] [9]` is within
capacity and the claim requires it to insert `(1,3) ↦ (next 3, cost 9)`,
but `AddItem` finds the key already present and keeps the old entry
unchanged (`nItems` still 2, lookup still yields next hop 2 at cost 5). -/
theorem c8_existing_key_not_overwritten :
    ((pcAdd hf0 (pcAdd hf0 (mkPathCache 8) [1, 2, 3] [5, 5]).1 [1, 3] [9]).2 = .ok) ∧
    ((pcAdd hf0 (pcAdd hf0 (mkPathCache 8) [1, 2, 3] [5, 5]).1 [1, 3] [9]).1.nItems = 2) ∧
    (pcFind hf0 (pcAdd hf0 (pcAdd hf0 (mkPathCache 8) [1, 2, 3] [5, 5]).1 [1, 3] [9]).1 1 3
      = .found ⟨1, 3, 2, 5⟩) :=
  ⟨by decide, by decide, by decide⟩

/-- Claim C2, counterexample: on graph `c2g` the heuristic is admissible
(never overestimates), end `7` is reachable from start `1` at cost 4, yet
`Solve` returns the path `[1, 6, 7]`, whose cost is 5 — not the minimum.
(The heuristic is inconsistent at state 3, and the code never reopens
closed records, so the improvement found through state 3 never propagates.) -/
theorem c2_admissible_heuristic_suboptimal_path :
    (∀ a b w, PathTo c2g a b w → c2g.leastCostEstimate a b ≤ w) ∧
    (solve c2g hf0 (mkEngine 4 2 false) 1 7 30).map Prod.snd = some [1, 6, 7] ∧
    ListPath c2g [1, 6, 7] 5 ∧
    (∀ w, ListPath c2g [1, 6, 7] w → w = 5) ∧
    PathTo c2g 1 7 4 ∧
    (4 : ℚ) < 5 := by
  exact ⟨c2_admissible, by decide, c2_returned_listpath, c2_returned_cost, c2_cheap_path,
    by norm_num⟩

/-! ### Open-queue lemmas -/

theorem openInsertList_perm (tc : State → ℚ) (s : State) :
    ∀ l : List State, (openInsertList tc s l).Perm (s :: l)
  | [] => List.Perm.refl _
  | x :: xs => by
    unfold openInsertList
    split_ifs
    · exact List.Perm.refl _
    · exact ((openInsertList_perm tc s xs).cons x).trans (List.Perm.swap s x xs)

theorem mem_openInsertList {tc : State → ℚ} {s y : State} {l : List State} :
    y ∈ openInsertList tc s l ↔ y = s ∨ y ∈ l := by
  rw [(openInsertList_perm tc s l).mem_iff, List.mem_cons]

theorem sortedBy_openInsertList {tc : State → ℚ} {s : State} :
    ∀ {l : List State}, SortedBy tc l → SortedBy tc (openInsertList tc s l)
  | [], _ => List.pairwise_singleton _ _
  | x :: xs, h => by
    unfold openInsertList
    rcases List.pairwise_cons.mp h with ⟨hx, hxs⟩
    split_ifs with hlt
    · exact List.pairwise_cons.mpr ⟨fun y hy => by
        rcases List.mem_cons.mp hy with rfl | hy
        · exact le_of_lt hlt
        · exact le_trans (le_of_lt hlt) (hx y hy), h⟩
    · refine List.pairwise_cons.mpr ⟨fun y hy => ?_, sortedBy_openInsertList hxs⟩
      rcases mem_openInsertList.mp hy with rfl | hy
      · exact le_of_not_lt hlt
      · exact hx y hy

theorem insertScan_perm (tc : State → ℚ) (s : State) :
    ∀ l : List State, (insertScan tc s l).Perm (s :: l)
  | [] => List.Perm.refl _
  | x :: xs => by
    unfold insertScan
    split_ifs
    · exact ((insertScan_perm tc s xs).cons x).trans (List.Perm.swap s x xs)
    · exact List.Perm.refl _

theorem mem_insertScan {tc : State → ℚ} {s y : State} {l : List State} :
    y ∈ insertScan tc s l ↔ y = s ∨ y ∈ l := by
  rw [(insertScan_perm tc s l).mem_iff, List.mem_cons]

theorem sortedBy_insertScan {tc : State → ℚ} {s : State} :
    ∀ {l : List State}, SortedBy tc l → SortedBy tc (insertScan tc s l)
  | [], _ => List.pairwise_singleton _ _
  | x :: xs, h => by
    unfold insertScan
    rcases List.pairwise_cons.mp h with ⟨hx, hxs⟩
    split_ifs with hgt
    · refine List.pairwise_cons.mpr ⟨fun y hy => ?_, sortedBy_insertScan hxs⟩
      rcases mem_insertScan.mp hy with rfl | hy
      · exact le_of_lt hgt
      · exact hx y hy
    · exact List.pairwise_cons.mpr ⟨fun y hy => by
        rcases List.mem_cons.mp hy with rfl | hy
        · exact le_of_not_lt hgt
        · exact le_trans (le_of_not_lt hgt) (hx y hy), h⟩

theorem splitAtElem_spec {s : State} :
    ∀ {l pre post : List State}, splitAtElem s l = some (pre, post) →
      l = pre ++ s :: post ∧ s ∉ pre
  | [], _, _, h => by simp [splitAtElem] at h
  | x :: xs, pre, post, h => by
    unfold splitAtElem at h
    split_ifs at h with hx
    · subst hx
      obtain ⟨rfl, rfl⟩ := by simpa using h
      exact ⟨rfl, List.not_mem_nil _⟩
    · match hsp : splitAtElem s xs with
      | some (p, q) =>
        rw [hsp] at h
        obtain ⟨rfl, rfl⟩ := by simpa using h
        obtain ⟨h1, h2⟩ := splitAtElem_spec hsp
        exact ⟨by rw [List.cons_append, ← h1], by
          simp only [List.mem_cons, not_or]
          exact ⟨fun hc => hx hc.symm, h2⟩⟩
      | none => rw [hsp] at h; simp at h

theorem splitAtElem_of_mem {s : State} :
    ∀ {l : List State}, s ∈ l → ∃ pre post, splitAtElem s l = some (pre, post)
  | [], h => absurd h (List.not_mem_nil s)
  | x :: xs, h => by
    unfold splitAtElem
    split_ifs with hx
    · exact ⟨[], xs, rfl⟩
    · have hs : s ∈ xs := by
        rcases List.mem_cons.mp h with rfl | hs
        · exact absurd rfl hx
        · exact hs
      obtain ⟨p, q, hpq⟩ := splitAtElem_of_mem hs
      exact ⟨x :: p, q, by rw [hpq]⟩

theorem splitAtElem_append {s : State} :
    ∀ {pre : List State} (post : List State), s ∉ pre →
      splitAtElem s (pre ++ s :: post) = some (pre, post)
  | [], post, _ => by simp [splitAtElem]
  | x :: xs, post, h => by
    have hx : ¬x = s := fun hc => h (hc ▸ List.mem_cons_self x xs)
    have hxs : s ∉ xs := fun hc => h (List.mem_cons_of_mem x hc)
    simp only [List.cons_append, splitAtElem, hx, if_false, List.append_eq]
    rw [splitAtElem_append post hxs]

theorem sortedBy_mem_le_last {tc : State → ℚ} {d : State} :
    ∀ {l : List State}, SortedBy tc l → ∀ x ∈ l, tc x ≤ tc (l.getLast?.getD d)
  | [], _, x, hx => absurd hx (List.not_mem_nil x)
  | [a], _, x, hx => by
    obtain rfl : x = a := by simpa using hx
    simp
  | a :: b :: t, h, x, hx => by
    rcases List.pairwise_cons.mp h with ⟨ha, ht⟩
    have hlast : (a :: b :: t).getLast?.getD d = (b :: t).getLast?.getD d := by
      simp [List.getLast?]
    rw [hlast]
    rcases List.mem_cons.mp hx with rfl | hx
    · have hmem : (b :: t).getLast?.getD d ∈ b :: t := by
        have : ∀ (m : List State) (y : State), (y :: m).getLast?.getD d ∈ y :: m := by
          intro m
          induction m with
          | nil => intro y; simp
          | cons z zs ih =>
            intro y
            have : (y :: z :: zs).getLast?.getD d = (z :: zs).getLast?.getD d := by
              simp [List.getLast?]
            rw [this]
            exact List.mem_cons_of_mem y (ih z)
        exact this t b
      exact ha _ hmem
    · exact sortedBy_mem_le_last ht x hx

/-- Explicit description of `OpenQueue::Update`'s result: either the node is
re-linked at the front and (when needed) scanned right from the old head, or
it stays in place or is scanned right from its successor. -/
theorem openUpdate_char {tc : State → ℚ} {s : State} {l pre post : List State}
    (hsp : splitAtElem s l = some (pre, post)) :
    openUpdate tc s l =
      if pre ≠ [] ∧ tc s < tc (pre.getLast?.getD s) then updFront tc s (pre ++ post)
      else updKeep tc s pre post := by
  obtain ⟨rfl, hspre⟩ := splitAtElem_spec hsp
  unfold openUpdate
  simp only [hsp]
  by_cases h1 : pre ≠ [] ∧ tc s < tc (pre.getLast?.getD s)
  · rw [if_pos h1, if_pos h1]
    have hsp2 : splitAtElem s (s :: (pre ++ post)) = some ([], pre ++ post) := by
      simp [splitAtElem]
    simp only [hsp2]
    rcases pre ++ post with _ | ⟨y, ys⟩
    · simp only [updFront]
      by_cases h2 : tc s > fltMax
      · rw [if_pos h2]
        simp [insertScan]
      · rw [if_neg h2]
    · simp only [updFront]
      by_cases h2 : tc y < tc s
      · rw [if_pos (by simpa [gt_iff_lt] using h2), if_pos h2]
        exact List.nil_append _
      · rw [if_neg (by simpa [gt_iff_lt] using h2), if_neg h2]
  · rw [if_neg h1, if_neg h1]
    rw [splitAtElem_append post hspre]
    rcases post with _ | ⟨y, ys⟩
    · simp only [updKeep]
      by_cases h2 : tc s > fltMax
      · rw [if_pos h2]
        simp [insertScan]
      · rw [if_neg h2]
    · simp only [updKeep]

theorem openUpdate_perm {tc : State → ℚ} {s : State} {l pre post : List State}
    (hsp : splitAtElem s l = some (pre, post)) : (openUpdate tc s l).Perm l := by
  have hchar := @openUpdate_char tc s l pre post hsp
  obtain ⟨rfl, hspre⟩ := splitAtElem_spec hsp
  rw [hchar]
  by_cases h1 : pre ≠ [] ∧ tc s < tc (pre.getLast?.getD s)
  · rw [if_pos h1]
    rcases hpp : pre ++ post with _ | ⟨y, ys⟩
    · obtain ⟨rfl, rfl⟩ := List.append_eq_nil.mp hpp
      exact List.Perm.refl _
    · have hmid : (s :: (pre ++ post)).Perm (pre ++ s :: post) := List.perm_middle.symm
      rw [hpp] at hmid
      simp only [updFront]
      split_ifs
      · exact (insertScan_perm tc s (y :: ys)).trans hmid
      · exact hmid
  · rw [if_neg h1]
    rcases post with _ | ⟨y, ys⟩
    · exact List.Perm.refl _
    · simp only [updKeep]
      split_ifs
      · exact (insertScan_perm tc s (y :: ys)).append_left pre
      · exact List.Perm.refl _

theorem sortedBy_openUpdate {tc : State → ℚ} {s : State} {l pre post : List State}
    (hsp : splitAtElem s l = some (pre, post))
    (hsorted : SortedBy tc (pre ++ post)) : SortedBy tc (openUpdate tc s l) := by
  have hchar := @openUpdate_char tc s l pre post hsp
  obtain ⟨rfl, hspre⟩ := splitAtElem_spec hsp
  have hpre : SortedBy tc pre := (List.pairwise_append.mp hsorted).1
  have hpost : SortedBy tc post := (List.pairwise_append.mp hsorted).2.1
  have hcross : ∀ x ∈ pre, ∀ y ∈ post, tc x ≤ tc y := (List.pairwise_append.mp hsorted).2.2
  rw [hchar]
  by_cases h1 : pre ≠ [] ∧ tc s < tc (pre.getLast?.getD s)
  · rw [if_pos h1]
    rcases hpp : pre ++ post with _ | ⟨y, ys⟩
    · exact List.pairwise_singleton _ _
    · rw [hpp] at hsorted
      show SortedBy tc (if tc y < tc s then insertScan tc s (y :: ys) else s :: y :: ys)
      split_ifs with h2
      · exact sortedBy_insertScan hsorted
      · exact List.pairwise_cons.mpr ⟨fun z hz => by
          rcases List.mem_cons.mp hz with rfl | hz
          · exact le_of_not_lt h2
          · exact le_trans (le_of_not_lt h2)
              ((List.pairwise_cons.mp hsorted).1 z hz), hsorted⟩
  · rw [if_neg h1]
    have hples : ∀ x ∈ pre, tc x ≤ tc s := by
      intro x hx
      rcases not_and_or.mp h1 with hnil | hle
      · rw [not_not] at hnil
        exact absurd (hnil ▸ hx) (List.not_mem_nil x)
      · exact le_trans (sortedBy_mem_le_last hpre x hx) (le_of_not_lt hle)
    rcases post with _ | ⟨y, ys⟩
    · show SortedBy tc (pre ++ [s])
      refine List.pairwise_append.mpr ⟨hpre, List.pairwise_singleton _ _, ?_⟩
      intro x hx z hz
      obtain rfl : z = s := by simpa using hz
      exact hples x hx
    · show SortedBy tc
        (if tc y < tc s then pre ++ insertScan tc s (y :: ys) else pre ++ s :: y :: ys)
      split_ifs with h2
      · refine List.pairwise_append.mpr ⟨hpre, sortedBy_insertScan hpost, ?_⟩
        intro x hx z hz
        rcases mem_insertScan.mp hz with rfl | hz
        · exact hples x hx
        · exact hcross x hx z hz
      · refine List.pairwise_append.mpr ⟨hpre, ?_, ?_⟩
        · exact List.pairwise_cons.mpr ⟨fun z hz => by
            rcases List.mem_cons.mp hz with rfl | hz
            · exact le_of_not_lt h2
            · exact le_trans (le_of_not_lt h2)
                ((List.pairwise_cons.mp hpost).1 z hz), hpost⟩
        · intro x hx z hz
          rcases List.mem_cons.mp hz with rfl | hz
          · exact hples x hx
          · exact hcross x hx z hz

/-! ### The open-queue invariant (claim C7) -/

theorem cmGet_cmSet (m : CostMap) (s : State) (c : ℚ) (x : State) :
    cmGet (cmSet m s c) x = if x = s then c else cmGet m x := by
  induction m with
  | nil =>
    by_cases hx : x = s
    · subst hx; simp [cmSet, cmGet]
    · have hsx : ¬s = x := fun h => hx h.symm
      simp [cmSet, cmGet, hsx, hx]
  | cons p rest ih =>
    obtain ⟨t, c0⟩ := p
    by_cases ht : t = s
    · subst ht
      simp only [cmSet, if_pos rfl, cmGet]
      by_cases hx : x = t
      · subst hx; simp
      · have htx : ¬t = x := fun h => hx h.symm
        simp [htx, hx]
    · simp only [cmSet, if_neg ht, cmGet]
      by_cases htx : t = x
      · subst htx
        have hts : ¬t = s := ht
        simp [hts]
      · simp [htx, ih]

theorem sortedBy_congr {tc tc' : State → ℚ} {l : List State}
    (h : ∀ x ∈ l, tc x = tc' x) (hs : SortedBy tc l) : SortedBy tc' l :=
  List.Pairwise.imp_of_mem (fun ha hb hr => by
    rw [← h _ ha, ← h _ hb]; exact hr) hs

theorem qExec_preserves {m : CostMap} {l : List State} {op : QOp} {m' : CostMap}
    {l' : List State} (hex : qExec (m, l) op = some (m', l'))
    (hs : SortedBy (cmGet m) l) (hn : l.Nodup) :
    SortedBy (cmGet m') l' ∧ l'.Nodup := by
  cases op with
  | push s c =>
    simp only [qExec] at hex
    split_ifs at hex with hc
    · obtain ⟨hm, hl⟩ := by simpa using hex
      subst hm
      subst hl
      have hcong : SortedBy (cmGet (cmSet m s c)) l := by
        refine sortedBy_congr (fun x hx => ?_) hs
        rw [cmGet_cmSet]
        rw [if_neg (fun h => hc.1 (by rw [← h]; exact hx))]
      refine ⟨sortedBy_openInsertList hcong, ?_⟩
      rw [(openInsertList_perm _ s l).nodup_iff]
      exact List.nodup_cons.mpr ⟨hc.1, hn⟩
  | pop =>
    cases l with
    | nil => simp [qExec] at hex
    | cons x t =>
      obtain ⟨hm, hl⟩ := by simpa [qExec] using hex
      subst hm
      subst hl
      exact ⟨hs.of_cons, hn.of_cons⟩
  | update s c =>
    simp only [qExec] at hex
    split_ifs at hex with hc
    · obtain ⟨hm, hl⟩ := by simpa using hex
      subst hm
      subst hl
      obtain ⟨pre, post, hsp⟩ := splitAtElem_of_mem hc
      obtain ⟨hleq, hspre⟩ := splitAtElem_spec hsp
      have hnpost : s ∉ post := by
        rw [hleq] at hn
        have := (List.nodup_append.mp hn).2.1
        exact (List.nodup_cons.mp this).1
      have hsub : (pre ++ post).Sublist (pre ++ s :: post) := by
        exact List.Sublist.append_left (List.sublist_cons_self s post) pre
      have hsorted0 : SortedBy (cmGet m) (pre ++ post) := by
        rw [hleq] at hs
        exact List.Pairwise.sublist hsub hs
      have hsorted : SortedBy (cmGet (cmSet m s c)) (pre ++ post) := by
        refine sortedBy_congr (fun x hx => ?_) hsorted0
        rw [cmGet_cmSet]
        rcases List.mem_append.mp hx with hx | hx
        · rw [if_neg (fun h => hspre (by rw [← h]; exact hx))]
        · rw [if_neg (fun h => hnpost (by rw [← h]; exact hx))]
      refine ⟨sortedBy_openUpdate hsp hsorted, ?_⟩
      rw [(openUpdate_perm hsp).nodup_iff]
      exact hn

theorem qExecList_preserves :
    ∀ (ops : List QOp) (st st' : CostMap × List State),
      qExecList st ops = some st' →
      SortedBy (cmGet st.1) st.2 → st.2.Nodup →
      SortedBy (cmGet st'.1) st'.2 ∧ st'.2.Nodup
  | [], st, st', hex, hs, hn => by
    obtain rfl : st = st' := by simpa [qExecList] using hex
    exact ⟨hs, hn⟩
  | op :: ops, (m, l), st', hex, hs, hn => by
    simp only [qExecList] at hex
    match hst : qExec (m, l) op with
    | none => rw [hst] at hex; simp at hex
    | some (m1, l1) =>
      rw [hst] at hex
      obtain ⟨hs1, hn1⟩ := qExec_preserves hst hs hn
      exact qExecList_preserves ops (m1, l1) st' hex hs1 hn1

/-- Claim C7: starting from the empty open queue, after any sequence of
`Push`/`Pop`/`Update` operations each invoked under its precondition
(`Push`: the node is in neither open nor closed and its total cost is below
the infinite sentinel; `Pop`: queue non-empty; `Update`: node already open),
the queue remains sorted ascending by total cost (and duplicate-free).  The
sentinel of infinite cost is the list end in this embedding: the insertion
scans `openInsertList`/`insertScan` terminate structurally at it. -/
theorem c7_open_queue_sorted_invariant (ops : List QOp) (m0 m : CostMap) (l : List State)
    (hex : qExecList (m0, []) ops = some (m, l)) :
    SortedBy (cmGet m) l ∧ l.Nodup :=
  qExecList_preserves ops (m0, []) (m, l) hex (List.Pairwise.nil) (List.nodup_nil)

/-- Witness for C7 at a concrete operation sequence. -/
theorem c7_open_queue_sorted_invariant_witness :
    qExecList ([], []) [QOp.push 1 5, QOp.push 2 3, QOp.update 2 7, QOp.pop]
      = some ([(1, 5), (2, 7)], [2]) ∧
    (SortedBy (cmGet [(1, 5), (2, 7)]) [2] ∧ List.Nodup [2]) :=
  ⟨by decide,
   c7_open_queue_sorted_invariant [QOp.push 1 5, QOp.push 2 3, QOp.update 2 7, QOp.pop]
     [] [(1, 5), (2, 7)] [2] (by decide)⟩

/-! ### Linear-probing lemmas for the path cache -/

theorem probeDist_lt {n : ℕ} (hn : 0 < n) (h j : ℕ) : probeDist n h j < n :=
  Nat.mod_lt _ hn

theorem probeDist_spec {n h j : ℕ} (hh : h < n) (hj : j < n) :
    (h + probeDist n h j) % n = j := by
  unfold probeDist
  rw [Nat.add_mod_mod]
  have h1 : h + (j + n - h) = j + n := by omega
  rw [h1, Nat.add_mod_right]
  exact Nat.mod_eq_of_lt hj

theorem probeDist_add {n h k : ℕ} (hh : h < n) (hk : k < n) :
    probeDist n h ((h + k) % n) = k := by
  unfold probeDist
  have h1 : (h + k) % n + n - h = (h + k) % n + (n - h) := by omega
  rw [h1, Nat.mod_add_mod]
  have h2 : h + k + (n - h) = k + n := by omega
  rw [h2, Nat.add_mod_right]
  exact Nat.mod_eq_of_lt hk

theorem pcFindAux_spec_found (pc : PathCache) (key it : PCItem) :
    ∀ (m idx fuel : ℕ), idx < pc.allocated →
      (∀ i < m, ∃ it', pc.mem.get? ((idx + i) % pc.allocated) = some it' ∧
        ¬it'.isEmptySlot ∧ ¬it'.keyEqual key) →
      pc.mem.get? ((idx + m) % pc.allocated) = some it →
      ¬it.isEmptySlot → it.keyEqual key → m < fuel →
      pcFindAux pc key idx fuel = .found it
  | 0, idx, fuel + 1, hidx, _, hit, hne, hkey, _ => by
    rw [show (idx + 0) % pc.allocated = idx by rw [Nat.add_zero, Nat.mod_eq_of_lt hidx]] at hit
    simp only [pcFindAux, hit, if_neg hne, if_pos hkey]
  | m + 1, idx, fuel + 1, hidx, hskip, hit, hne, hkey, hfuel => by
    obtain ⟨it0, hit0, hne0, hnk0⟩ := hskip 0 (Nat.succ_pos m)
    rw [show (idx + 0) % pc.allocated = idx by rw [Nat.add_zero, Nat.mod_eq_of_lt hidx]] at hit0
    simp only [pcFindAux, hit0, if_neg hne0, if_neg hnk0]
    refine pcFindAux_spec_found pc key it m ((idx + 1) % pc.allocated) fuel
      (Nat.mod_lt _ (lt_of_le_of_lt (Nat.zero_le idx) hidx)) ?_ ?_ hne hkey (by omega)
    · intro i hi
      obtain ⟨it', h1, h2, h3⟩ := hskip (i + 1) (by omega)
      refine ⟨it', ?_, h2, h3⟩
      rw [Nat.mod_add_mod, show idx + 1 + i = idx + (i + 1) by omega]
      exact h1
    · rw [Nat.mod_add_mod, show idx + 1 + m = idx + (m + 1) by omega]
      exact hit

theorem pcFindAux_spec_absent (pc : PathCache) (key : PCItem) :
    ∀ (m idx fuel : ℕ), idx < pc.allocated →
      (∀ i < m, ∃ it', pc.mem.get? ((idx + i) % pc.allocated) = some it' ∧
        ¬it'.isEmptySlot ∧ ¬it'.keyEqual key) →
      (∃ it0, pc.mem.get? ((idx + m) % pc.allocated) = some it0 ∧ it0.isEmptySlot) →
      m < fuel →
      pcFindAux pc key idx fuel = .absent
  | 0, idx, fuel + 1, hidx, _, hit, _ => by
    obtain ⟨it0, hit0, hemp⟩ := hit
    rw [show (idx + 0) % pc.allocated = idx by rw [Nat.add_zero, Nat.mod_eq_of_lt hidx]] at hit0
    simp only [pcFindAux, hit0, if_pos hemp]
  | m + 1, idx, fuel + 1, hidx, hskip, hit, hfuel => by
    obtain ⟨it0, hit0, hne0, hnk0⟩ := hskip 0 (Nat.succ_pos m)
    rw [show (idx + 0) % pc.allocated = idx by rw [Nat.add_zero, Nat.mod_eq_of_lt hidx]] at hit0
    simp only [pcFindAux, hit0, if_neg hne0, if_neg hnk0]
    refine pcFindAux_spec_absent pc key m ((idx + 1) % pc.allocated) fuel
      (Nat.mod_lt _ (lt_of_le_of_lt (Nat.zero_le idx) hidx)) ?_ ?_ (by omega)
    · intro i hi
      obtain ⟨it', h1, h2, h3⟩ := hskip (i + 1) (by omega)
      refine ⟨it', ?_, h2, h3⟩
      rw [Nat.mod_add_mod, show idx + 1 + i = idx + (i + 1) by omega]
      exact h1
    · obtain ⟨it0, h1, h2⟩ := hit
      refine ⟨it0, ?_, h2⟩
      rw [Nat.mod_add_mod, show idx + 1 + m = idx + (m + 1) by omega]
      exact h1

theorem keyEqual_symm {a b : PCItem} (h : a.keyEqual b) : b.keyEqual a :=
  ⟨h.1.symm, h.2.symm⟩

theorem keyEqual_trans {a b c : PCItem} (h1 : a.keyEqual b) (h2 : b.keyEqual c) : a.keyEqual c :=
  ⟨h1.1.trans h2.1, h1.2.trans h2.2⟩

theorem exists_empty_slot {pc : PathCache} (hocc : occupiedCount pc < pc.mem.length) :
    ∃ j it, pc.mem.get? j = some it ∧ it.isEmptySlot := by
  by_contra hno
  push_neg at hno
  have hall : ∀ it ∈ pc.mem, (decide (¬ it.isEmptySlot)) = true := by
    intro it hmem
    obtain ⟨j, hj⟩ := List.mem_iff_get?.mp hmem
    simp only [decide_eq_true_iff]
    exact hno j it hj
  have heq : (pc.mem.filter fun it => decide (¬ it.isEmptySlot)) = pc.mem :=
    List.filter_eq_self.mpr hall
  unfold occupiedCount at hocc
  rw [heq] at hocc
  exact lt_irrefl _ hocc

theorem pcFind_found {hashFn : State → ℕ} {pc : PathCache} {s e : State} {j : ℕ} {it : PCItem}
    (wf : PCWF hashFn pc) (hj : pc.mem.get? j = some it) (hne : ¬it.isEmptySlot)
    (hkey : it.keyEqual ⟨s, e, 0, 0⟩) : pcFind hashFn pc s e = .found it := by
  have hjlt : j < pc.allocated := wf.memLen ▸ (List.get?_eq_some.mp hj).1
  have halloc : 0 < pc.allocated := lt_of_le_of_lt (Nat.zero_le j) hjlt
  have hhash : pcItemHash hashFn it = hashFn s := by
    unfold pcItemHash
    rw [show it.start = s from hkey.1]
  unfold pcFind
  rw [if_neg (by omega)]
  have hhlt : hashFn s % pc.allocated < pc.allocated := Nat.mod_lt _ halloc
  have hjm : (hashFn s % pc.allocated + probeDist pc.allocated (hashFn s % pc.allocated) j)
      % pc.allocated = j := probeDist_spec hhlt hjlt
  refine pcFindAux_spec_found pc _ it (probeDist pc.allocated (hashFn s % pc.allocated) j)
    (hashFn s % pc.allocated) pc.allocated hhlt ?_ (by rw [hjm]; exact hj) hne hkey
    (probeDist_lt halloc _ _)
  intro i hi
  have hi' : i < probeDist pc.allocated (pcItemHash hashFn it % pc.allocated) j := by
    rw [hhash]; exact hi
  obtain ⟨it', hget', hne'⟩ := wf.chain j it hj hne i hi'
  rw [hhash] at hget'
  refine ⟨it', hget', hne', ?_⟩
  intro hk'
  have hkeq : it'.keyEqual it := keyEqual_trans hk' (keyEqual_symm hkey)
  have hij := wf.uniq ((hashFn s % pc.allocated + i) % pc.allocated) j it' it hget' hj hne' hne hkeq
  have h1 : probeDist pc.allocated (hashFn s % pc.allocated)
      ((hashFn s % pc.allocated + i) % pc.allocated) = i :=
    probeDist_add hhlt (lt_trans hi (probeDist_lt halloc _ _))
  rw [hij] at h1
  omega

theorem pcFind_absent {hashFn : State → ℕ} {pc : PathCache} {s e : State}
    (wf : PCWF hashFn pc) (halloc : 0 < pc.allocated)
    (hocc : occupiedCount pc < pc.allocated)
    (hnc : ¬pcContainsKey pc ⟨s, e, 0, 0⟩) : pcFind hashFn pc s e = .absent := by
  classical
  have hhlt : hashFn s % pc.allocated < pc.allocated := Nat.mod_lt _ halloc
  have hex : ∃ i, (∃ it0, pc.mem.get? ((hashFn s % pc.allocated + i) % pc.allocated) = some it0 ∧
      it0.isEmptySlot) ∧ i < pc.allocated := by
    obtain ⟨j, it, hj, hemp⟩ := exists_empty_slot (by rw [wf.memLen]; exact hocc)
    have hjlt : j < pc.allocated := wf.memLen ▸ (List.get?_eq_some.mp hj).1
    refine ⟨probeDist pc.allocated (hashFn s % pc.allocated) j, ⟨it, ?_, hemp⟩,
      probeDist_lt halloc _ _⟩
    rw [probeDist_spec hhlt hjlt]
    exact hj
  obtain ⟨i0, hemp0, hi0⟩ := hex
  have hexm : ∃ i, ∃ it0, pc.mem.get? ((hashFn s % pc.allocated + i) % pc.allocated) = some it0 ∧
      it0.isEmptySlot := ⟨i0, hemp0⟩
  unfold pcFind
  rw [if_neg (by omega)]
  refine pcFindAux_spec_absent pc _ (Nat.find hexm) (hashFn s % pc.allocated) pc.allocated
    hhlt ?_ (Nat.find_spec hexm) (lt_of_le_of_lt (Nat.find_min' hexm hemp0) hi0)
  intro i hi
  have hpos : (hashFn s % pc.allocated + i) % pc.allocated < pc.mem.length := by
    rw [wf.memLen]
    exact Nat.mod_lt _ halloc
  obtain ⟨it', hit'⟩ : ∃ it', pc.mem.get? ((hashFn s % pc.allocated + i) % pc.allocated)
      = some it' := by
    rw [List.get?_eq_get hpos]
    exact ⟨_, rfl⟩
  refine ⟨it', hit', ?_, ?_⟩
  · intro hempty
    exact Nat.find_min hexm hi ⟨it', hit', hempty⟩
  · intro hkeq
    exact hnc ⟨_, it', hit', fun hempty => Nat.find_min hexm hi ⟨it', hit', hempty⟩, hkeq⟩

theorem pcAddItemAux_spec_insert (pc : PathCache) (item : PCItem) :
    ∀ (m idx fuel : ℕ), idx < pc.allocated →
      (∀ i < m, ∃ it', pc.mem.get? ((idx + i) % pc.allocated) = some it' ∧
        ¬it'.isEmptySlot ∧ ¬it'.keyEqual item) →
      (∃ it0, pc.mem.get? ((idx + m) % pc.allocated) = some it0 ∧ it0.isEmptySlot) →
      m < fuel →
      pcAddItemAux item pc idx fuel =
        ({ pc with mem := pc.mem.set ((idx + m) % pc.allocated) item,
                   nItems := pc.nItems + 1 }, .ok)
  | 0, idx, fuel + 1, hidx, _, hit, _ => by
    obtain ⟨it0, hit0, hemp⟩ := hit
    rw [show (idx + 0) % pc.allocated = idx by rw [Nat.add_zero, Nat.mod_eq_of_lt hidx]] at hit0 ⊢
    simp only [pcAddItemAux, hit0, if_pos hemp]
  | m + 1, idx, fuel + 1, hidx, hskip, hit, hfuel => by
    obtain ⟨it0, hit0, hne0, hnk0⟩ := hskip 0 (Nat.succ_pos m)
    rw [show (idx + 0) % pc.allocated = idx by rw [Nat.add_zero, Nat.mod_eq_of_lt hidx]] at hit0
    simp only [pcAddItemAux, hit0, if_neg hne0, if_neg hnk0]
    have hres := pcAddItemAux_spec_insert pc item m ((idx + 1) % pc.allocated) fuel
      (Nat.mod_lt _ (lt_of_le_of_lt (Nat.zero_le idx) hidx)) ?_ ?_ (by omega)
    · rw [hres]
      rw [Nat.mod_add_mod, show idx + 1 + m = idx + (m + 1) by omega]
    · intro i hi
      obtain ⟨it', h1, h2, h3⟩ := hskip (i + 1) (by omega)
      refine ⟨it', ?_, h2, h3⟩
      rw [Nat.mod_add_mod, show idx + 1 + i = idx + (i + 1) by omega]
      exact h1
    · obtain ⟨it0', h1, h2⟩ := hit
      refine ⟨it0', ?_, h2⟩
      rw [Nat.mod_add_mod, show idx + 1 + m = idx + (m + 1) by omega]
      exact h1

theorem pcAddItemAux_spec_match (pc : PathCache) (item it' : PCItem) :
    ∀ (m idx fuel : ℕ), idx < pc.allocated →
      (∀ i < m, ∃ it0, pc.mem.get? ((idx + i) % pc.allocated) = some it0 ∧
        ¬it0.isEmptySlot ∧ ¬it0.keyEqual item) →
      pc.mem.get? ((idx + m) % pc.allocated) = some it' →
      ¬it'.isEmptySlot → it'.keyEqual item → m < fuel →
      pcAddItemAux item pc idx fuel =
        (pc, if (it'.next ≠ 0 ∧ item.next ≠ 0) ∨ (it'.next = 0 ∧ item.next = 0)
             then .ok else .assertFail)
  | 0, idx, fuel + 1, hidx, _, hit, hne, hkey, _ => by
    rw [show (idx + 0) % pc.allocated = idx by rw [Nat.add_zero, Nat.mod_eq_of_lt hidx]] at hit
    simp only [pcAddItemAux, hit, if_neg hne, if_pos hkey]
    split_ifs <;> rfl
  | m + 1, idx, fuel + 1, hidx, hskip, hit, hne, hkey, hfuel => by
    obtain ⟨it0, hit0, hne0, hnk0⟩ := hskip 0 (Nat.succ_pos m)
    rw [show (idx + 0) % pc.allocated = idx by rw [Nat.add_zero, Nat.mod_eq_of_lt hidx]] at hit0
    simp only [pcAddItemAux, hit0, if_neg hne0, if_neg hnk0]
    refine pcAddItemAux_spec_match pc item it' m ((idx + 1) % pc.allocated) fuel
      (Nat.mod_lt _ (lt_of_le_of_lt (Nat.zero_le idx) hidx)) ?_ ?_ hne hkey (by omega)
    · intro i hi
      obtain ⟨it0', h1, h2, h3⟩ := hskip (i + 1) (by omega)
      refine ⟨it0', ?_, h2, h3⟩
      rw [Nat.mod_add_mod, show idx + 1 + i = idx + (i + 1) by omega]
      exact h1
    · rw [Nat.mod_add_mod, show idx + 1 + m = idx + (m + 1) by omega]
      exact hit

theorem filterLength_set (p : PCItem → Bool) :
    ∀ (l : List PCItem) (j : ℕ) (x old : PCItem), l.get? j = some old →
      ((l.set j x).filter p).length + (if p old then 1 else 0) =
        (l.filter p).length + (if p x then 1 else 0)
  | [], j, x, old, h => by simp at h
  | a :: t, 0, x, old, h => by
    have ha : a = old := by simpa using h
    subst ha
    show ((x :: t).filter p).length + _ = _
    rw [List.filter_cons, List.filter_cons]
    by_cases hx : p x <;> by_cases ho : p a <;> simp [hx, ho] <;> omega
  | a :: t, j + 1, x, old, h => by
    have ih := filterLength_set p t j x old (by simpa using h)
    show ((a :: t.set j x).filter p).length + _ = _
    rw [List.filter_cons, List.filter_cons]
    by_cases ha : p a <;> simp [ha] <;> omega

theorem nonEmptyAt_set {pc : PathCache} {j : ℕ} {item it0 : PCItem}
    (hj : pc.mem.get? j = some it0) (hni : ¬item.isEmptySlot) (pos : ℕ)
    (h : ∃ it', pc.mem.get? pos = some it' ∧ ¬it'.isEmptySlot) :
    ∃ it', (pc.mem.set j item).get? pos = some it' ∧ ¬it'.isEmptySlot := by
  obtain ⟨it', hget, hne⟩ := h
  by_cases hpos : j = pos
  · subst hpos
    refine ⟨item, ?_, hni⟩
    rw [List.get?_set_eq]
    rw [hj]
    rfl
  · exact ⟨it', by rw [List.get?_set_ne _ _ hpos]; exact hget, hne⟩

theorem PCWF_insert {hashFn : State → ℕ} {pc : PathCache} {item it0 : PCItem} {j : ℕ}
    (wf : PCWF hashFn pc) (hj : pc.mem.get? j = some it0) (hemp : it0.isEmptySlot)
    (hni : ¬item.isEmptySlot) (hnc : ¬pcContainsKey pc item)
    (hchain : ∀ k < probeDist pc.allocated (pcItemHash hashFn item % pc.allocated) j,
      ∃ it', pc.mem.get? ((pcItemHash hashFn item % pc.allocated + k) % pc.allocated)
        = some it' ∧ ¬it'.isEmptySlot) :
    PCWF hashFn { pc with mem := pc.mem.set j item, nItems := pc.nItems + 1 } := by
  have hjlt : j < pc.mem.length := (List.get?_eq_some.mp hj).1
  have hget_set : ∀ i, (pc.mem.set j item).get? i =
      if j = i then some item else pc.mem.get? i := by
    intro i
    by_cases hji : j = i
    · subst hji
      rw [List.get?_set_eq, hj, if_pos rfl]
      rfl
    · rw [List.get?_set_ne _ _ hji, if_neg hji]
  refine ⟨?_, ?_, ?_, ?_⟩
  · simp only [List.length_set]
    exact wf.memLen
  · have hcount := filterLength_set (fun it => decide (¬ it.isEmptySlot)) pc.mem j item it0 hj
    unfold occupiedCount
    simp only [decide_eq_true_iff] at hcount
    rw [if_neg (by simpa using hemp), if_pos (by simpa using hni)] at hcount
    have := wf.count
    unfold occupiedCount at this
    simp only
    omega
  · intro i i' a b hga hgb hna hnb hk
    rw [hget_set] at hga hgb
    by_cases hi : j = i <;> by_cases hi' : j = i'
    · omega
    · obtain rfl : item = a := by rw [if_pos hi] at hga; simpa using hga
      rw [if_neg hi'] at hgb
      exact absurd ⟨i', b, hgb, hnb, keyEqual_symm hk⟩ hnc
    · obtain rfl : item = b := by rw [if_pos hi'] at hgb; simpa using hgb
      rw [if_neg hi] at hga
      exact absurd ⟨i, a, hga, hna, hk⟩ hnc
    · rw [if_neg hi] at hga
      rw [if_neg hi'] at hgb
      exact wf.uniq i i' a b hga hgb hna hnb hk
  · intro j' it hget hne k hk
    rw [hget_set] at hget
    by_cases hj' : j = j'
    · obtain rfl : item = it := by rw [if_pos hj'] at hget; simpa using hget
      subst hj'
      simp only at hk
      exact nonEmptyAt_set hj hni _ (hchain k hk)
    · rw [if_neg hj'] at hget
      exact nonEmptyAt_set hj hni _ (wf.chain j' it hget hne k hk)

theorem pcMapsTo_set {pc : PathCache} {it item it0 : PCItem} {j : ℕ}
    (hj : pc.mem.get? j = some it0) (hemp : it0.isEmptySlot)
    (hm : pcMapsTo pc it) :
    pcMapsTo { pc with mem := pc.mem.set j item, nItems := pc.nItems + 1 } it := by
  obtain ⟨i, hi, hne⟩ := hm
  have hij : j ≠ i := by
    intro h
    subst h
    rw [hj] at hi
    obtain rfl : it0 = it := by simpa using hi
    exact hne hemp
  exact ⟨i, by rw [List.get?_set_ne _ _ hij]; exact hi, hne⟩

theorem not_containsKey_set {pc : PathCache} {item it0 key : PCItem} {j : ℕ}
    (hj : pc.mem.get? j = some it0)
    (hnc : ¬pcContainsKey pc key) (hkk : ¬item.keyEqual key) :
    ¬pcContainsKey { pc with mem := pc.mem.set j item, nItems := pc.nItems + 1 } key := by
  rintro ⟨i, it', hget, hne, hkey⟩
  by_cases hij : j = i
  · subst hij
    rw [List.get?_set_eq, hj] at hget
    obtain rfl : item = it' := by simpa using hget
    exact hkk hkey
  · rw [List.get?_set_ne _ _ hij] at hget
    exact hnc ⟨i, it', hget, hne, hkey⟩

theorem pcAddItem_insert_spec {hashFn : State → ℕ} {pc : PathCache} {item : PCItem}
    (wf : PCWF hashFn pc) (halloc : 0 < pc.allocated)
    (hocc : occupiedCount pc < pc.allocated) (hnc : ¬pcContainsKey pc item) :
    ∃ j it0, pc.mem.get? j = some it0 ∧ it0.isEmptySlot ∧
      (∀ k < probeDist pc.allocated (pcItemHash hashFn item % pc.allocated) j,
        ∃ it', pc.mem.get? ((pcItemHash hashFn item % pc.allocated + k) % pc.allocated)
          = some it' ∧ ¬it'.isEmptySlot) ∧
      pcAddItem hashFn pc item =
        ({ pc with mem := pc.mem.set j item, nItems := pc.nItems + 1 }, .ok) := by
  classical
  have hhlt : pcItemHash hashFn item % pc.allocated < pc.allocated := Nat.mod_lt _ halloc
  have hexm : ∃ i, ∃ it0,
      pc.mem.get? ((pcItemHash hashFn item % pc.allocated + i) % pc.allocated) = some it0 ∧
      it0.isEmptySlot := by
    obtain ⟨j, it, hj, hemp⟩ := exists_empty_slot (by rw [wf.memLen]; exact hocc)
    have hjlt : j < pc.allocated := wf.memLen ▸ (List.get?_eq_some.mp hj).1
    refine ⟨probeDist pc.allocated (pcItemHash hashFn item % pc.allocated) j, it, ?_, hemp⟩
    rw [probeDist_spec hhlt hjlt]
    exact hj
  have hmlt : Nat.find hexm < pc.allocated := by
    obtain ⟨j, it, hj, hemp⟩ := exists_empty_slot (by rw [wf.memLen]; exact hocc)
    have hjlt : j < pc.allocated := wf.memLen ▸ (List.get?_eq_some.mp hj).1
    have hle : Nat.find hexm ≤
        probeDist pc.allocated (pcItemHash hashFn item % pc.allocated) j := by
      refine Nat.find_min' hexm ⟨it, ?_, hemp⟩
      rw [probeDist_spec hhlt hjlt]
      exact hj
    exact lt_of_le_of_lt hle (probeDist_lt halloc _ j)
  obtain ⟨it0, hit0, hemp0⟩ := Nat.find_spec hexm
  have hskip : ∀ i < Nat.find hexm, ∃ it',
      pc.mem.get? ((pcItemHash hashFn item % pc.allocated + i) % pc.allocated) = some it' ∧
      ¬it'.isEmptySlot ∧ ¬it'.keyEqual item := by
    intro i hi
    have hpos : (pcItemHash hashFn item % pc.allocated + i) % pc.allocated < pc.mem.length := by
      rw [wf.memLen]
      exact Nat.mod_lt _ halloc
    obtain ⟨it', hit'⟩ : ∃ it',
        pc.mem.get? ((pcItemHash hashFn item % pc.allocated + i) % pc.allocated) = some it' := by
      rw [List.get?_eq_get hpos]
      exact ⟨_, rfl⟩
    have hne' : ¬it'.isEmptySlot := fun hempty => Nat.find_min hexm hi ⟨it', hit', hempty⟩
    exact ⟨it', hit', hne', fun hkeq => hnc ⟨_, it', hit', hne', hkeq⟩⟩
  refine ⟨(pcItemHash hashFn item % pc.allocated + Nat.find hexm) % pc.allocated, it0, hit0,
    hemp0, ?_, ?_⟩
  · intro k hk
    rw [probeDist_add hhlt hmlt] at hk
    obtain ⟨it', h1, h2, _⟩ := hskip k hk
    exact ⟨it', h1, h2⟩
  · unfold pcAddItem
    rw [if_neg (by omega)]
    exact pcAddItemAux_spec_insert pc item (Nat.find hexm) _ pc.allocated hhlt hskip
      ⟨it0, hit0, hemp0⟩ hmlt

theorem pcAddItem_match_spec {hashFn : State → ℕ} {pc : PathCache} {item it' : PCItem} {j : ℕ}
    (wf : PCWF hashFn pc) (hj : pc.mem.get? j = some it') (hne : ¬it'.isEmptySlot)
    (hkey : it'.keyEqual item) :
    pcAddItem hashFn pc item =
      (pc, if (it'.next ≠ 0 ∧ item.next ≠ 0) ∨ (it'.next = 0 ∧ item.next = 0)
           then .ok else .assertFail) := by
  have hjlt : j < pc.allocated := wf.memLen ▸ (List.get?_eq_some.mp hj).1
  have halloc : 0 < pc.allocated := lt_of_le_of_lt (Nat.zero_le j) hjlt
  have hhash : pcItemHash hashFn it' = pcItemHash hashFn item := by
    unfold pcItemHash
    rw [show it'.start = item.start from hkey.1]
  have hhlt : pcItemHash hashFn item % pc.allocated < pc.allocated := Nat.mod_lt _ halloc
  have hjm : (pcItemHash hashFn item % pc.allocated +
      probeDist pc.allocated (pcItemHash hashFn item % pc.allocated) j) % pc.allocated = j :=
    probeDist_spec hhlt hjlt
  unfold pcAddItem
  rw [if_neg (by omega)]
  refine pcAddItemAux_spec_match pc item it'
    (probeDist pc.allocated (pcItemHash hashFn item % pc.allocated) j) _ pc.allocated hhlt ?_
    (by rw [hjm]; exact hj) hne hkey (probeDist_lt halloc _ _)
  intro i hi
  have hi' : i < probeDist pc.allocated (pcItemHash hashFn it' % pc.allocated) j := by
    rw [hhash]; exact hi
  obtain ⟨it0, hget0, hne0⟩ := wf.chain j it' hj hne i hi'
  rw [hhash] at hget0
  refine ⟨it0, hget0, hne0, ?_⟩
  intro hk0
  have hkeq : it0.keyEqual it' := keyEqual_trans hk0 (keyEqual_symm hkey)
  have hij := wf.uniq ((pcItemHash hashFn item % pc.allocated + i) % pc.allocated) j it0 it'
    hget0 hj hne0 hne hkeq
  have h1 : probeDist pc.allocated (pcItemHash hashFn item % pc.allocated)
      ((pcItemHash hashFn item % pc.allocated + i) % pc.allocated) = i :=
    probeDist_add hhlt (lt_trans hi (probeDist_lt halloc _ _))
  rw [hij] at h1
  omega

theorem pcAddItem_preserved {hashFn : State → ℕ} {pc : PathCache} {item : PCItem}
    (wf : PCWF hashFn pc) (halloc : 0 < pc.allocated)
    (hocc : occupiedCount pc < pc.allocated) (hni : ¬item.isEmptySlot) :
    PCWF hashFn (pcAddItem hashFn pc item).1 ∧
    (pcAddItem hashFn pc item).1.allocated = pc.allocated ∧
    (pcAddItem hashFn pc item).1.nItems ≤ pc.nItems + 1 ∧
    (pcAddItem hashFn pc item).2 ≠ .diverge := by
  classical
  by_cases hc : pcContainsKey pc item
  · obtain ⟨j, it', hj, hne, hkey⟩ := hc
    rw [pcAddItem_match_spec wf hj hne hkey]
    refine ⟨wf, rfl, by simp, ?_⟩
    split_ifs <;> simp
  · obtain ⟨j, it0, hj, hemp, hchain, heq⟩ := pcAddItem_insert_spec wf halloc hocc hc
    rw [heq]
    exact ⟨PCWF_insert wf hj hemp hni hc hchain, rfl, by simp, by simp⟩

theorem PCWF_empty {hashFn : State → ℕ} {pc : PathCache}
    (hm : pc.mem = List.replicate pc.allocated ⟨0, 0, 0, 0⟩) (hn : pc.nItems = 0) :
    PCWF hashFn pc := by
  have hemp : ∀ {j : ℕ} {it : PCItem}, pc.mem.get? j = some it → it.isEmptySlot := by
    intro j it hj
    have hmem := List.get?_mem hj
    rw [hm] at hmem
    have hrep := List.eq_of_mem_replicate hmem
    subst hrep
    exact ⟨rfl, rfl⟩
  refine ⟨by rw [hm]; simp, ?_, ?_, ?_⟩
  · unfold occupiedCount
    rw [hn]
    have hfil : (pc.mem.filter fun it => decide (¬ it.isEmptySlot)) = [] := by
      rw [List.filter_eq_nil]
      intro a ha
      obtain ⟨j, hj⟩ := List.mem_iff_get?.mp ha
      simp only [decide_eq_true_iff, not_not]
      exact hemp hj
    rw [hfil]
    rfl
  · intro i j a b hga _ hna _ _
    exact absurd (hemp hga) hna
  · intro j it hget hne _ _
    exact absurd (hemp hget) hne

theorem pcAddLoop_preserved (hashFn : State → ℕ) :
    ∀ (items : List PCItem) (pc : PathCache),
      PCWF hashFn pc → 0 < pc.allocated →
      pc.nItems + items.length ≤ pc.allocated * 3 / 4 →
      (∀ it ∈ items, ¬it.isEmptySlot) →
      PCWF hashFn (pcAddLoop hashFn pc items).1 ∧
      (pcAddLoop hashFn pc items).1.allocated = pc.allocated ∧
      (pcAddLoop hashFn pc items).1.nItems ≤ pc.nItems + items.length ∧
      (pcAddLoop hashFn pc items).2 ≠ .diverge
  | [], pc, wf, _, _, _ => ⟨wf, rfl, by simp [pcAddLoop], by simp [pcAddLoop]⟩
  | it :: rest, pc, wf, hA, hcap, hni => by
    have h34 : pc.allocated * 3 / 4 < pc.allocated := by omega
    have hocc : occupiedCount pc < pc.allocated := by
      have hc := wf.count
      simp only [List.length_cons] at hcap
      omega
    have hpres := pcAddItem_preserved wf hA hocc (hni it (by simp))
    rcases hstep : pcAddItem hashFn pc it with ⟨pc', flag⟩
    rw [hstep] at hpres
    simp only at hpres
    obtain ⟨wf', halloc', hn', hflag'⟩ := hpres
    cases flag with
    | ok =>
      have hrest := pcAddLoop_preserved hashFn rest pc' wf' (halloc' ▸ hA)
        (by simp only [List.length_cons] at hcap; omega)
        (fun x hx => hni x (List.mem_cons_of_mem _ hx))
      simp only [pcAddLoop, hstep]
      refine ⟨hrest.1, hrest.2.1.trans halloc', ?_, hrest.2.2.2⟩
      have := hrest.2.2.1
      simp only [List.length_cons]
      omega
    | assertFail =>
      simp only [pcAddLoop, hstep]
      exact ⟨wf', halloc', by simp only [List.length_cons]; omega, by simp⟩
    | diverge => exact absurd rfl hflag'

theorem pcAddItems_length_le (path : List State) (cost : List ℚ) :
    (pcAddItems path cost).length ≤ path.length := by
  unfold pcAddItems
  simp only [List.length_map, List.length_zip]
  omega

theorem pcAddItems_not_empty {path : List State} {cost : List ℚ}
    (hns : ∀ s ∈ path, s ≠ 0) :
    ∀ it ∈ pcAddItems path cost, ¬ it.isEmptySlot := by
  intro it hit
  unfold pcAddItems at hit
  obtain ⟨x, hx, hmap⟩ := List.mem_map.mp hit
  obtain ⟨⟨a, b⟩, c⟩ := x
  obtain ⟨hx1, _⟩ := List.mem_zip hx
  obtain ⟨h1, _⟩ := List.mem_zip hx1
  intro hemp
  rw [← hmap] at hemp
  exact hns a h1 hemp.1

theorem pcExec_wf {hashFn : State → ℕ} {pc : PathCache} {op : PCOp}
    (wf : PCWF hashFn pc) (hA : 0 < pc.allocated)
    (hcap : pc.nItems ≤ pc.allocated * 3 / 4) (hv : PCOpValid op) :
    PCWF hashFn (pcExec hashFn pc op) ∧
    (pcExec hashFn pc op).allocated = pc.allocated ∧
    (pcExec hashFn pc op).nItems ≤ pc.allocated * 3 / 4 := by
  cases op with
  | add p c =>
    simp only [pcExec, pcAdd]
    split_ifs with hg
    · exact ⟨wf, rfl, hcap⟩
    · push_neg at hg
      have hlen := pcAddItems_length_le p c
      have hres := pcAddLoop_preserved hashFn (pcAddItems p c) pc wf hA (by omega)
        (pcAddItems_not_empty hv)
      exact ⟨hres.1, hres.2.1, by have := hres.2.2.1; omega⟩
  | addNoSolution e ss =>
    simp only [pcExec, pcAddNoSolution]
    split_ifs with hg
    · exact ⟨wf, rfl, hcap⟩
    · push_neg at hg
      have hres := pcAddLoop_preserved hashFn (ss.map fun s => ⟨s, e, 0, fltMax⟩) pc wf hA
        (by simp only [List.length_map]; omega) ?_
      · exact ⟨hres.1, hres.2.1, by have := hres.2.2.1; simp only [List.length_map] at this; omega⟩
      · intro it hit
        obtain ⟨s, hs, hmap⟩ := List.mem_map.mp hit
        intro hemp
        rw [← hmap] at hemp
        exact hv.2 s hs hemp.1
  | reset =>
    simp only [pcExec, pcReset]
    split_ifs with hg
    · exact ⟨PCWF_empty rfl rfl, rfl, by simp⟩
    · exact ⟨wf, rfl, hcap⟩

theorem pcExecList_wf (hashFn : State → ℕ) :
    ∀ (ops : List PCOp) (pc : PathCache),
      PCWF hashFn pc → 0 < pc.allocated →
      pc.nItems ≤ pc.allocated * 3 / 4 →
      (∀ op ∈ ops, PCOpValid op) →
      PCWF hashFn (pcExecList hashFn pc ops) ∧
      (pcExecList hashFn pc ops).allocated = pc.allocated ∧
      (pcExecList hashFn pc ops).nItems ≤ pc.allocated * 3 / 4
  | [], pc, wf, _, hcap, _ => ⟨wf, rfl, hcap⟩
  | op :: ops, pc, wf, hA, hcap, hv => by
    have hstep := pcExec_wf wf hA hcap (hv op (by simp))
    have hrest := pcExecList_wf hashFn ops (pcExec hashFn pc op) hstep.1
      (hstep.2.1 ▸ hA) (hstep.2.1 ▸ hstep.2.2)
      (fun x hx => hv x (List.mem_cons_of_mem _ hx))
    simp only [pcExecList]
    exact ⟨hrest.1, hrest.2.1.trans hstep.2.1, hstep.2.1 ▸ hrest.2.2⟩

theorem pcFind_not_diverge {hashFn : State → ℕ} {pc : PathCache}
    (wf : PCWF hashFn pc) (hA : 0 < pc.allocated)
    (hocc : occupiedCount pc < pc.allocated) (s e : State) :
    pcFind hashFn pc s e ≠ .diverge := by
  classical
  by_cases hc : pcContainsKey pc ⟨s, e, 0, 0⟩
  · obtain ⟨j, it, hj, hne, hkey⟩ := hc
    rw [pcFind_found wf hj hne hkey]
    simp
  · rw [pcFind_absent wf hA hocc hc]
    simp

/-- C9: starting from `PathCache(maxItems)` with a positive table size, after any
sequence of `Add` / `AddNoSolution` / `Reset` calls whose state identities are
non-null, the table is well formed (item count matches occupied slots, at most
one entry per `(start, end)` key, probe chains unbroken), the occupied-slot
count never exceeds three quarters of the allocated size, and every
linear-probe loop in `Find` and `AddItem` terminates (never exhausts its fuel)
by reaching an empty slot or a key match. -/
theorem c9_pathcache_invariants (hashFn : State → ℕ) (A : ℕ) (ops : List PCOp)
    (hA : 0 < A) (hops : ∀ op ∈ ops, PCOpValid op) :
    PCWF hashFn (pcExecList hashFn (mkPathCache A) ops) ∧
    occupiedCount (pcExecList hashFn (mkPathCache A) ops) ≤ A * 3 / 4 ∧
    (∀ i j a b, (pcExecList hashFn (mkPathCache A) ops).mem.get? i = some a →
      (pcExecList hashFn (mkPathCache A) ops).mem.get? j = some b →
      ¬a.isEmptySlot → ¬b.isEmptySlot → a.keyEqual b → i = j) ∧
    (∀ s e, pcFind hashFn (pcExecList hashFn (mkPathCache A) ops) s e ≠ .diverge) ∧
    (∀ item, ¬item.isEmptySlot →
      (pcAddItem hashFn (pcExecList hashFn (mkPathCache A) ops) item).2 ≠ .diverge) := by
  have hwf0 : PCWF hashFn (mkPathCache A) := PCWF_empty rfl rfl
  have hres := pcExecList_wf hashFn ops (mkPathCache A) hwf0 hA (by simp [mkPathCache])
    hops
  obtain ⟨wf, halloc, hcap⟩ := hres
  have halloc' : (pcExecList hashFn (mkPathCache A) ops).allocated = A := halloc
  have hocc : occupiedCount (pcExecList hashFn (mkPathCache A) ops) ≤ A * 3 / 4 := by
    have := wf.count
    omega
  have hAlt : occupiedCount (pcExecList hashFn (mkPathCache A) ops) <
      (pcExecList hashFn (mkPathCache A) ops).allocated := by
    rw [halloc']
    omega
  refine ⟨wf, hocc, wf.uniq, ?_, ?_⟩
  · intro s e
    exact pcFind_not_diverge wf (by omega) hAlt s e
  · intro item hni
    exact (pcAddItem_preserved wf (by omega) hAlt hni).2.2.2

theorem pcFind_of_mapsTo {hashFn : State → ℕ} {pc : PathCache} {it : PCItem}
    (wf : PCWF hashFn pc) (hm : pcMapsTo pc it) :
    pcFind hashFn pc it.start it.pcEnd = .found it := by
  obtain ⟨j, hj, hne⟩ := hm
  exact pcFind_found wf hj hne ⟨rfl, rfl⟩

theorem not_containsKey_of_slots {pc : PathCache} {key : PCItem}
    (h : ∀ slot ∈ pc.mem, slot.isEmptySlot ∨ ¬slot.keyEqual key) :
    ¬pcContainsKey pc key := by
  rintro ⟨j, it, hget, hne, hkey⟩
  rcases h it (List.get?_mem hget) with hemp | hnk
  · exact hne hemp
  · exact hnk hkey

theorem zip_get? {α β : Type} :
    ∀ (l1 : List α) (l2 : List β) (i : ℕ) (a : α) (b : β),
      l1.get? i = some a → l2.get? i = some b → (l1.zip l2).get? i = some (a, b)
  | [], _, i, _, _, h1, _ => by simp at h1
  | _ :: _, [], i, _, _, _, h2 => by simp at h2
  | x :: xs, y :: ys, 0, a, b, h1, h2 => by
    simp only [List.get?] at h1 h2
    obtain rfl : x = a := by simpa using h1
    obtain rfl : y = b := by simpa using h2
    rfl
  | x :: xs, y :: ys, i + 1, a, b, h1, h2 => by
    simp only [List.zip_cons_cons, List.get?_cons_succ] at h1 h2 ⊢
    exact zip_get? xs ys i a b h1 h2

theorem tail_get? {α : Type} (l : List α) (i : ℕ) : l.tail.get? i = l.get? (i + 1) := by
  cases l <;> simp

theorem pcAddItems_get? {path : List State} {cost : List ℚ} {i : ℕ} {si si1 : State} {ci : ℚ}
    (h1 : path.get? i = some si) (h2 : path.get? (i + 1) = some si1)
    (hc : cost.get? i = some ci) :
    (pcAddItems path cost).get? i = some ⟨si, path.getLast?.getD 0, si1, ci⟩ := by
  unfold pcAddItems
  rw [List.get?_map,
    zip_get? _ _ _ _ _ (zip_get? _ _ _ _ _ h1 (by rw [tail_get?]; exact h2)) hc]
  rfl

theorem pcAddItems_pairwise {path : List State} {cost : List ℚ} (hnd : path.Nodup) :
    (pcAddItems path cost).Pairwise fun a b => ¬ a.keyEqual b := by
  rw [List.pairwise_iff_get]
  intro i j hij
  have hijn : (i : ℕ) < (j : ℕ) := hij
  have hlen : (pcAddItems path cost).length ≤ path.length - 1 := by
    unfold pcAddItems
    simp only [List.length_map, List.length_zip, List.length_tail]
    omega
  have hjlen : (j : ℕ) < (pcAddItems path cost).length := j.isLt
  have hclen : (pcAddItems path cost).length ≤ cost.length := by
    unfold pcAddItems
    simp only [List.length_map, List.length_zip]
    omega
  obtain ⟨si, hsi⟩ : ∃ s, path.get? (i : ℕ) = some s :=
    ⟨path.get ⟨(i : ℕ), by omega⟩, List.get?_eq_get _⟩
  obtain ⟨si1, hsi1⟩ : ∃ s, path.get? ((i : ℕ) + 1) = some s :=
    ⟨path.get ⟨(i : ℕ) + 1, by omega⟩, List.get?_eq_get _⟩
  obtain ⟨ci, hci⟩ : ∃ c, cost.get? (i : ℕ) = some c :=
    ⟨cost.get ⟨(i : ℕ), by omega⟩, List.get?_eq_get _⟩
  obtain ⟨sj, hsj⟩ : ∃ s, path.get? (j : ℕ) = some s :=
    ⟨path.get ⟨(j : ℕ), by omega⟩, List.get?_eq_get _⟩
  obtain ⟨sj1, hsj1⟩ : ∃ s, path.get? ((j : ℕ) + 1) = some s :=
    ⟨path.get ⟨(j : ℕ) + 1, by omega⟩, List.get?_eq_get _⟩
  obtain ⟨cj, hcj⟩ : ∃ c, cost.get? (j : ℕ) = some c :=
    ⟨cost.get ⟨(j : ℕ), by omega⟩, List.get?_eq_get _⟩
  have hgi : (pcAddItems path cost).get i = ⟨si, path.getLast?.getD 0, si1, ci⟩ := by
    have := pcAddItems_get? hsi hsi1 hci
    rw [List.get?_eq_get i.isLt] at this
    simpa using this
  have hgj : (pcAddItems path cost).get j = ⟨sj, path.getLast?.getD 0, sj1, cj⟩ := by
    have := pcAddItems_get? hsj hsj1 hcj
    rw [List.get?_eq_get j.isLt] at this
    simpa using this
  rw [hgi, hgj]
  rintro ⟨hkey, -⟩
  simp only at hkey
  subst hkey
  have := List.get?_inj (by omega) hnd (hsi.trans hsj.symm)
  omega

theorem pcAddLoop_inserts (hashFn : State → ℕ) :
    ∀ (items : List PCItem) (pc : PathCache),
      PCWF hashFn pc → 0 < pc.allocated →
      pc.nItems + items.length ≤ pc.allocated * 3 / 4 →
      (∀ it ∈ items, ¬it.isEmptySlot) →
      (∀ it ∈ items, ¬pcContainsKey pc it) →
      items.Pairwise (fun a b => ¬a.keyEqual b) →
      (pcAddLoop hashFn pc items).2 = .ok ∧
      (pcAddLoop hashFn pc items).1.nItems = pc.nItems + items.length ∧
      PCWF hashFn (pcAddLoop hashFn pc items).1 ∧
      (pcAddLoop hashFn pc items).1.allocated = pc.allocated ∧
      (∀ it, pcMapsTo pc it → pcMapsTo (pcAddLoop hashFn pc items).1 it) ∧
      (∀ it ∈ items, pcMapsTo (pcAddLoop hashFn pc items).1 it)
  | [], pc, wf, _, _, _, _, _ => by
    have h : pcAddLoop hashFn pc [] = (pc, .ok) := by simp [pcAddLoop]
    rw [h]
    exact ⟨rfl, by simp, wf, rfl, fun it hh => hh, by simp⟩
  | item :: rest, pc, wf, hA, hcap, hne, hfresh, hpw => by
    have h34 : pc.allocated * 3 / 4 < pc.allocated := by omega
    have hocc : occupiedCount pc < pc.allocated := by
      have hc := wf.count
      simp only [List.length_cons] at hcap
      omega
    have hnci : ¬pcContainsKey pc item := hfresh item (by simp)
    have hnei : ¬item.isEmptySlot := hne item (by simp)
    obtain ⟨j, it0, hj, hemp, hchain, heq⟩ := pcAddItem_insert_spec wf hA hocc hnci
    have hwf' := PCWF_insert wf hj hemp hnei hnci hchain
    have hself : pcMapsTo
        { pc with mem := pc.mem.set j item, nItems := pc.nItems + 1 } item := by
      refine ⟨j, ?_, hnei⟩
      show (pc.mem.set j item).get? j = some item
      rw [List.get?_set_eq, hj]
      rfl
    have hpwc := List.pairwise_cons.mp hpw
    have hrest := pcAddLoop_inserts hashFn rest
      { pc with mem := pc.mem.set j item, nItems := pc.nItems + 1 } hwf' hA
      (by simp only [List.length_cons] at hcap; simp only; omega)
      (fun x hx => hne x (List.mem_cons_of_mem _ hx))
      (fun x hx => not_containsKey_set hj (hfresh x (List.mem_cons_of_mem _ hx))
        (hpwc.1 x hx))
      hpwc.2
    simp only [pcAddLoop, heq]
    refine ⟨hrest.1, ?_, hrest.2.2.1, hrest.2.2.2.1, ?_, ?_⟩
    · have := hrest.2.1
      simp only [List.length_cons]
      simp only at this
      omega
    · intro it hit
      exact hrest.2.2.2.2.1 it (pcMapsTo_set hj hemp hit)
    · intro it hit
      rcases List.mem_cons.mp hit with rfl | hmem
      · exact hrest.2.2.2.2.1 it hself
      · exact hrest.2.2.2.2.2 it hmem

/-- C8: `PathCache::Add` on a fully resolved duplicate-free path whose per-edge
cost list matches, with all batch keys absent from the table: if the batch
would overflow the three-quarters capacity bound nothing at all is inserted
(the cache is returned unchanged), and otherwise, for every consecutive pair
`(s_i, s_{i+1})` of the path with edge cost `c_i`, one entry keyed by
`(s_i, s_k)` (where `s_k` is the final state) is inserted mapping to next hop
`s_{i+1}` with cost `c_i`, findable afterwards by `Find`; the table stays well
formed (in particular at most one entry per key) and the item count grows by
exactly the batch size. -/
theorem c8_add_inserts_batch {hashFn : State → ℕ} {pc : PathCache} {path : List State}
    {cost : List ℚ}
    (wf : PCWF hashFn pc) (hA : 0 < pc.allocated) (hns : ∀ s ∈ path, s ≠ 0)
    (hnd : path.Nodup)
    (fresh : ∀ it ∈ pcAddItems path cost, ∀ slot ∈ pc.mem,
      slot.isEmptySlot ∨ ¬slot.keyEqual it) :
    (pc.nItems + path.length > pc.allocated * 3 / 4 →
      pcAdd hashFn pc path cost = (pc, .ok)) ∧
    (pc.nItems + path.length ≤ pc.allocated * 3 / 4 →
      (pcAdd hashFn pc path cost).2 = .ok ∧
      (pcAdd hashFn pc path cost).1.nItems = pc.nItems + (pcAddItems path cost).length ∧
      PCWF hashFn (pcAdd hashFn pc path cost).1 ∧
      (∀ i si si1 ci, path.get? i = some si → path.get? (i + 1) = some si1 →
        cost.get? i = some ci →
        pcFind hashFn (pcAdd hashFn pc path cost).1 si (path.getLast?.getD 0) =
          .found ⟨si, path.getLast?.getD 0, si1, ci⟩)) := by
  constructor
  · intro hg
    unfold pcAdd
    rw [if_pos hg]
  · intro hg
    have hlen := pcAddItems_length_le path cost
    have hloop := pcAddLoop_inserts hashFn (pcAddItems path cost) pc wf hA (by omega)
      (pcAddItems_not_empty hns) (fun it hit => not_containsKey_of_slots (fresh it hit))
      (pcAddItems_pairwise hnd)
    have hpc : pcAdd hashFn pc path cost = pcAddLoop hashFn pc (pcAddItems path cost) := by
      unfold pcAdd
      rw [if_neg (by omega)]
    rw [hpc]
    refine ⟨hloop.1, hloop.2.1, hloop.2.2.1, ?_⟩
    intro i si si1 ci h1 h2 hc
    have hget := pcAddItems_get? h1 h2 hc
    have hmaps := hloop.2.2.2.2.2 _ (List.get?_mem hget)
    exact pcFind_of_mapsTo hloop.2.2.1 hmaps

/-- Concrete instantiation of the C8 batch-insertion theorem: adding the path
`[1, 2, 3]` with edge costs `[1, 1]` to an empty 8-slot cache makes the entry
`(1, 3) ↦ (next 2, cost 1)` findable. -/
theorem c8_add_inserts_batch_witness :
    (∀ s ∈ ([1, 2, 3] : List State), s ≠ 0) ∧ ([1, 2, 3] : List State).Nodup ∧
    pcFind hf0 (pcAdd hf0 (mkPathCache 8) [1, 2, 3] [1, 1]).1 1 3 =
      .found ⟨1, 3, 2, 1⟩ := by
  refine ⟨by decide, by decide, ?_⟩
  have h := (@c8_add_inserts_batch hf0 (mkPathCache 8) [1, 2, 3] [1, 1]
      (PCWF_empty rfl rfl) (by decide) (by decide) (by decide) (by decide)).2
      (by decide)
  have h4 := h.2.2.2 0 1 2 1 (by decide) (by decide) (by decide)
  have hl : (([1, 2, 3] : List State).getLast?.getD 0) = 3 := rfl
  rw [hl] at h4
  exact h4

/-- Concrete instantiation of the C9 invariant theorem: after adding path
`[1, 2]` with cost `[1]` and then resetting, the probe loops of `Find`
still terminate on every key. -/
theorem c9_pathcache_invariants_witness :
    (0 : ℕ) < 4 ∧ (∀ op ∈ [PCOp.add [1, 2] [1], PCOp.reset], PCOpValid op) ∧
    (∀ s e, pcFind hf0 (pcExecList hf0 (mkPathCache 4)
      [PCOp.add [1, 2] [1], PCOp.reset]) s e ≠ .diverge) := by
  have hv : ∀ op ∈ [PCOp.add [1, 2] [1], PCOp.reset], PCOpValid op := by
    intro op hop
    rcases List.mem_cons.mp hop with rfl | hop'
    · intro s hs
      fin_cases hs <;> decide
    · rcases List.mem_singleton.mp hop' with rfl
      trivial
  exact ⟨by decide, hv,
    (c9_pathcache_invariants hf0 4 [PCOp.add [1, 2] [1], PCOp.reset] (by decide) hv).2.2.2.1⟩

theorem getD_cons_drop {α : Type} (d : α) :
    ∀ (l : List α) (i : ℕ), i < l.length → l.drop i = l.getD i d :: l.drop (i + 1)
  | a :: t, 0, _ => by simp [List.getD]
  | a :: t, i + 1, h => by
    simp only [List.drop_succ_cons, List.getD_cons_succ]
    exact getD_cons_drop d t i (by simpa using h)

theorem pcSolveLoop_replay {hashFn : State → ℕ} {pc : PathCache} {e : State}
    {p : List State} {cs : List ℚ}
    (hcs : cs.length + 1 = p.length)
    (hfind : ∀ i < p.length - 1,
      pcFind hashFn pc (p.getD i 0) e =
        .found ⟨p.getD i 0, e, p.getD (i + 1) 0, cs.getD i 0⟩ ∧ cs.getD i 0 ≠ fltMax)
    (hne : ∀ i < p.length - 1, p.getD i 0 ≠ e)
    (hlast : p.getD (p.length - 1) 0 = e)
    (hee : pcFind hashFn pc e e ≠ .diverge) :
    ∀ (d i : ℕ) (q : List State) (tot : ℚ) (fuel : ℕ),
      i + d + 2 = p.length → p.length - i ≤ fuel →
      ∃ tot', pcSolveLoop hashFn pc e (p.getD i 0)
        (some ⟨p.getD i 0, e, p.getD (i + 1) 0, cs.getD i 0⟩) q tot fuel =
        some (q ++ p.drop (i + 1), tot')
  | 0, i, q, tot, fuel, hd, hf => by
    have hi1 : p.getD (i + 1) 0 = e := by
      rw [← hlast]
      congr 1
      omega
    have hdrop : p.drop (i + 1) = [p.getD (i + 1) 0] := by
      rw [getD_cons_drop 0 p (i + 1) (by omega)]
      rw [List.drop_eq_nil_of_le (by omega)]
    cases fuel with
    | zero => omega
    | succ f =>
      simp only [pcSolveLoop]
      rw [if_neg (hne i (by omega))]
      rcases hfe : pcFind hashFn pc e e with j | _ | _
      · simp only [hi1, hfe]
        cases f with
        | zero => omega
        | succ g =>
          refine ⟨tot + cs.getD i 0, ?_⟩
          rw [hdrop, hi1]
          simp only [pcSolveLoop]
          split_ifs with h
          · rfl
          · exact absurd trivial h
      · simp only [hi1, hfe]
        cases f with
        | zero => omega
        | succ g =>
          refine ⟨tot + cs.getD i 0, ?_⟩
          rw [hdrop, hi1]
          simp only [pcSolveLoop]
          split_ifs with h
          · rfl
          · exact absurd trivial h
      · exact absurd hfe hee
  | d + 1, i, q, tot, fuel, hd, hf => by
    obtain ⟨hfi, -⟩ := hfind (i + 1) (by omega)
    cases fuel with
    | zero => omega
    | succ f =>
      simp only [pcSolveLoop]
      rw [if_neg (hne i (by omega))]
      simp only [hfi]
      obtain ⟨tot', hres⟩ := pcSolveLoop_replay hcs hfind hne hlast hee d (i + 1)
        (q ++ [p.getD (i + 1) 0]) (tot + cs.getD i 0) f (by omega) (by omega)
      refine ⟨tot', ?_⟩
      rw [hres]
      have hdrop : p.drop (i + 1) = p.getD (i + 1) 0 :: p.drop (i + 2) :=
        getD_cons_drop 0 p (i + 1) (by omega)
      rw [hdrop]
      simp

/-- C4 (amended): the replay path of `MicroPather::Solve` on a cache hit.  If
the engine's path cache holds a full chain of entries for a path `p` from
`startNode` to `endNode` — entry `i` keyed `(p[i], endNode)` with next hop
`p[i+1]` and a finite cost — then `Solve` returns exactly `p`, the engine is
unchanged except for the cache hit counter (`hit + 1`): in particular neither
`AdjacentCost` nor `LeastCostEstimate` is invoked and no search runs. -/
theorem c4_cached_solve_replays {g : Graph} {hashFn : State → ℕ} {es : Engine}
    {pc : PathCache} {startNode endNode : State} {p : List State} {cs : List ℚ} {fuel : ℕ}
    (hcache : es.pathCache = some pc)
    (hse : startNode ≠ endNode)
    (hlen : 2 ≤ p.length)
    (hhead : p.getD 0 0 = startNode)
    (hlast : p.getD (p.length - 1) 0 = endNode)
    (hcs : cs.length + 1 = p.length)
    (hfind : ∀ i < p.length - 1,
      pcFind hashFn pc (p.getD i 0) endNode =
        .found ⟨p.getD i 0, endNode, p.getD (i + 1) 0, cs.getD i 0⟩ ∧ cs.getD i 0 ≠ fltMax)
    (hne : ∀ i < p.length - 1, p.getD i 0 ≠ endNode)
    (hfit : p.length ≤ pc.allocated + 2)
    (hee : pcFind hashFn pc endNode endNode ≠ .diverge) :
    solve g hashFn es startNode endNode fuel =
      some ({ es with pathCache := some { pc with hit := pc.hit + 1 } }, p) := by
  obtain ⟨hf0', hcne⟩ := hfind 0 (by omega)
  rw [hhead] at hf0'
  obtain ⟨tot', hloop⟩ := pcSolveLoop_replay hcs hfind hne hlast hee (p.length - 2) 0
    [p.getD 0 0] 0 (pc.allocated + 2) (by omega) (by omega)
  have hp : p.getD 0 0 :: p.drop 1 = p := by
    have h0 := getD_cons_drop 0 p 0 (by omega)
    rw [List.drop_zero] at h0
    exact h0.symm
  have hpne : p ≠ [] := by
    intro h
    rw [h] at hlen
    simp at hlen
  rw [hhead] at hloop hp
  have hq : [startNode] ++ p.drop (0 + 1) = p := by simpa using hp
  unfold solve
  rw [if_neg hse, hcache]
  simp only []
  unfold pcSolveFull
  rw [hf0']
  simp only []
  rw [if_neg hcne]
  rw [hloop]
  simp only []
  rw [hq]
  rw [if_pos hpne]

/-- C4 counterexample: on the 4-chain with `allocate = 1` (path-cache capacity
`4 * 3 / 4 = 3` slots), the first `Solve(1, 4)` finds `[1, 2, 3, 4]` but the
4-entry batch is refused by the capacity guard of `PathCache::Add`, so the
cache stays empty; the repeat call returns the identical path but re-runs the
whole search: the callback counters double (4 → 8 `LeastCostEstimate`,
5 → 9 `AdjacentCost`) and the hit counter stays 0, contradicting the claim
that the second call invokes no callbacks and increments `hit`. -/
theorem c4_capacity_refusal_reruns_search :
    (solve c4g hf0 (mkEngine 1 1 true) 1 4 9).map Prod.snd = some [1, 2, 3, 4] ∧
    c4es1.lceCalls = 4 ∧ c4es1.adjCalls = 5 ∧
    c4es1.pathCache.map PathCache.hit = some 0 ∧
    c4es1.pathCache.map PathCache.nItems = some 0 ∧
    (solve c4g hf0 c4es1 1 4 9).map Prod.snd = some [1, 2, 3, 4] ∧
    (solve c4g hf0 c4es1 1 4 9).map (fun r => r.1.lceCalls) = some 8 ∧
    (solve c4g hf0 c4es1 1 4 9).map (fun r => r.1.adjCalls) = some 9 ∧
    (solve c4g hf0 c4es1 1 4 9).map (fun r => r.1.pathCache.map PathCache.hit) =
      some (some 0) :=
  ⟨by decide, by decide, by decide, by decide, by decide, by decide, by decide, by decide,
   by decide⟩

/-- Concrete instantiation of the amended C4 theorem: after a first
`Solve(1, 4)` on the 4-chain with `allocate = 4` populated the cache
(`c4es4`), the repeat call replays `[1, 2, 3, 4]` from the cache, leaving the
engine unchanged except `hit + 1` — no callback runs. -/
theorem c4_cached_solve_replays_witness :
    c4es4.pathCache = some c4pc4 ∧
    (∀ i < ([1, 2, 3, 4] : List State).length - 1,
      pcFind hf0 c4pc4 (([1, 2, 3, 4] : List State).getD i 0) 4 =
        .found ⟨([1, 2, 3, 4] : List State).getD i 0, 4,
          ([1, 2, 3, 4] : List State).getD (i + 1) 0, ([1, 1, 1] : List ℚ).getD i 0⟩ ∧
        ([1, 1, 1] : List ℚ).getD i 0 ≠ fltMax) ∧
    solve c4g hf0 c4es4 1 4 9 =
      some ({ c4es4 with pathCache := some { c4pc4 with hit := c4pc4.hit + 1 } },
        [1, 2, 3, 4]) :=
  ⟨by decide, by decide,
   @c4_cached_solve_replays c4g hf0 c4es4 c4pc4 1 4 [1, 2, 3, 4] [1, 1, 1] 9
     (by decide) (by decide) (by decide) (by decide) (by decide) (by decide) (by decide)
     (by decide) (by decide) (by decide)⟩

/-! ### Pool and parent-chain lemmas for the search-driver proofs -/

theorem poolFind_poolSet_self : ∀ (pool : Pool) (s : State) (n : PathNode),
    poolFind (poolSet pool s n) s = some n
  | [], s, n => by simp [poolSet, poolFind]
  | (t, m) :: rest, s, n => by
    unfold poolSet
    split_ifs with h
    · show poolFind ((s, n) :: rest) s = some n
      unfold poolFind
      rw [if_pos rfl]
    · show poolFind ((t, m) :: poolSet rest s n) s = some n
      unfold poolFind
      rw [if_neg h]
      exact poolFind_poolSet_self rest s n

theorem poolFind_poolSet_ne : ∀ (pool : Pool) (s x : State) (n : PathNode), x ≠ s →
    poolFind (poolSet pool s n) x = poolFind pool x
  | [], s, x, n, h => by
    show poolFind [(s, n)] x = poolFind [] x
    unfold poolFind
    rw [if_neg fun hc => h hc.symm]
    rfl
  | (t, m) :: rest, s, x, n, h => by
    unfold poolSet
    split_ifs with ht
    · subst ht
      show poolFind ((t, n) :: rest) x = poolFind ((t, m) :: rest) x
      unfold poolFind
      rw [if_neg fun hc => h hc.symm, if_neg fun hc => h hc.symm]
    · show poolFind ((t, m) :: poolSet rest s n) x = poolFind ((t, m) :: rest) x
      unfold poolFind
      by_cases htx : t = x
      · rw [if_pos htx, if_pos htx]
      · rw [if_neg htx, if_neg htx]
        exact poolFind_poolSet_ne rest s x _ h

theorem poolFind_mem_keys : ∀ {pool : Pool} {x : State} {n : PathNode},
    poolFind pool x = some n → x ∈ pool.map Prod.fst
  | [], x, n, h => by simp [poolFind] at h
  | (t, m) :: rest, x, n, h => by
    unfold poolFind at h
    split_ifs at h with ht
    · subst ht
      simp
    · simp only [List.map_cons, List.mem_cons]
      exact Or.inr (poolFind_mem_keys h)

theorem nodup_found_length_le {pool : Pool} {l : List State}
    (hnd : l.Nodup) (hall : ∀ x ∈ l, ∃ n, poolFind pool x = some n) :
    l.length ≤ pool.length := by
  have hsub : l.toFinset ⊆ (pool.map Prod.fst).toFinset := by
    intro x hx
    rw [List.mem_toFinset] at hx ⊢
    obtain ⟨n, hn⟩ := hall x hx
    exact poolFind_mem_keys hn
  calc l.length = l.toFinset.card := (List.toFinset_card_of_nodup hnd).symm
    _ ≤ (pool.map Prod.fst).toFinset.card := Finset.card_le_card hsub
    _ ≤ (pool.map Prod.fst).length := List.toFinset_card_le _
    _ = pool.length := List.length_map _ _

theorem chain_last {B : ℚ} {g : Graph} {pool : Pool} {startNode s : State} {w : ℚ}
    {l : List State} (h : Chain B g pool startNode s w l) : l.getLast? = some s := by
  induction h with
  | base => rfl
  | step _ _ _ _ _ _ _ _ _ _ _ _ => exact List.getLast?_concat _

theorem chain_ne_nil {B : ℚ} {g : Graph} {pool : Pool} {startNode s : State} {w : ℚ}
    {l : List State} (h : Chain B g pool startNode s w l) : l ≠ [] := by
  intro hl
  have := chain_last h
  rw [hl] at this
  simp at this

theorem head?_append_singleton {α : Type} {l : List α} {a b : α} (h : l.head? = some a) :
    (l ++ [b]).head? = some a := by
  cases l with
  | nil => simp at h
  | cons x xs => simpa using h

theorem chain_head {B : ℚ} {g : Graph} {pool : Pool} {startNode s : State} {w : ℚ}
    {l : List State} (h : Chain B g pool startNode s w l) : l.head? = some startNode := by
  induction h with
  | base => rfl
  | step hch hm hmc hn hp hc hedge hcf hc0 hcB hnm ih => exact head?_append_singleton ih

theorem chain_nodup {B : ℚ} {g : Graph} {pool : Pool} {startNode s : State} {w : ℚ}
    {l : List State} (h : Chain B g pool startNode s w l) : l.Nodup := by
  induction h with
  | base => exact List.nodup_singleton _
  | step _ _ _ _ _ _ _ _ _ _ hnm ih =>
    simp only [List.nodup_append, List.nodup_singleton, List.disjoint_singleton]
    exact ⟨ih, trivial, hnm⟩

theorem chain_mem_found {B : ℚ} {g : Graph} {pool : Pool} {startNode s : State} {w : ℚ}
    {l : List State} (h : Chain B g pool startNode s w l) :
    ∀ x ∈ l, ∃ n, poolFind pool x = some n := by
  induction h with
  | base hf _ _ =>
    intro x hx
    obtain rfl := List.mem_singleton.mp hx
    exact ⟨_, hf⟩
  | step _ _ _ hn _ _ _ _ _ _ _ ih =>
    intro x hx
    rcases List.mem_append.mp hx with hx | hx
    · exact ih x hx
    · obtain rfl := List.mem_singleton.mp hx
      exact ⟨_, hn⟩

theorem chain_mem_closed_or_last {B : ℚ} {g : Graph} {pool : Pool}
    {startNode s : State} {w : ℚ} {l : List State} (h : Chain B g pool startNode s w l) :
    ∀ x ∈ l, x = s ∨ ∃ n, poolFind pool x = some n ∧ n.inClosed = true := by
  induction h with
  | base _ _ _ =>
    intro x hx
    obtain rfl := List.mem_singleton.mp hx
    exact Or.inl rfl
  | step _ hm hmc _ _ _ _ _ _ _ _ ih =>
    intro x hx
    rcases List.mem_append.mp hx with hx | hx
    · rcases ih x hx with rfl | hcl
      · exact Or.inr ⟨_, hm, hmc⟩
      · exact Or.inr hcl
    · obtain rfl := List.mem_singleton.mp hx
      exact Or.inl rfl

theorem chain_nonneg {B : ℚ} {g : Graph} {pool : Pool} {startNode s : State} {w : ℚ}
    {l : List State} (h : Chain B g pool startNode s w l) : 0 ≤ w := by
  induction h with
  | base _ _ _ => exact le_refl 0
  | step _ _ _ _ _ _ _ _ hc _ _ ih => exact add_nonneg ih hc

theorem chain_cost_le {B : ℚ} {g : Graph} {pool : Pool} {startNode s : State} {w : ℚ}
    {l : List State} (h : Chain B g pool startNode s w l) (hB : 0 ≤ B) :
    w ≤ B * ((l.length - 1 : ℕ) : ℚ) := by
  induction h with
  | base _ _ _ => simp
  | step hch hm hmc hn hp hc hedge hcf hc0 hcB hnm ih =>
    rename_i p s' w' c l' n m
    have h1 : 1 ≤ l'.length := List.length_pos.mpr (chain_ne_nil hch)
    have hcast : ((l'.length - 1 : ℕ) : ℚ) + 1 = (l'.length : ℚ) := by
      rw [Nat.cast_sub h1]
      push_cast
      ring
    have hlen : (((l' ++ [s']).length - 1 : ℕ) : ℚ) = (l'.length : ℚ) := by
      simp
    rw [hlen]
    calc w' + c ≤ B * ((l'.length - 1 : ℕ) : ℚ) + B := add_le_add ih hcB
      _ = B * (((l'.length - 1 : ℕ) : ℚ) + 1) := by ring
      _ = B * (l'.length : ℚ) := by rw [hcast]

theorem chain_pathTo {B : ℚ} {g : Graph} {pool : Pool} {startNode s : State} {w : ℚ}
    {l : List State} (h : Chain B g pool startNode s w l) : PathTo g startNode s w := by
  induction h with
  | base _ _ _ => exact PathTo.refl _
  | step _ _ _ _ _ _ hedge hcf _ _ _ ih => exact PathTo.tail ih hedge hcf

theorem listPath_concat {g : Graph} :
    ∀ {l : List State} {w : ℚ} {p s : State} {c : ℚ}, ListPath g l w →
      l.getLast? = some p → (s, c) ∈ g.adjacentCost p → c ≠ fltMax →
      ListPath g (l ++ [s]) (w + c)
  | _, _, p, s, c, .single a, hlast, hedge, hcf => by
    obtain rfl : a = p := by simpa using hlast
    have h0 : (c : ℚ) + 0 = 0 + c := by ring
    exact h0 ▸ ListPath.cons hedge hcf (ListPath.single s)
  | _, _, p, s, c, .cons hedge0 hcf0 htail, hlast, hedge, hcf => by
    rename_i a b rest c0 w0
    have hlast' : (b :: rest).getLast? = some p := by
      rw [← hlast]
      simp [List.getLast?]
    have hrec := listPath_concat htail hlast' hedge hcf
    have harr : c0 + (w0 + c) = c0 + w0 + c := by ring
    rw [List.cons_append]
    exact harr ▸ ListPath.cons hedge0 hcf0 hrec

theorem chain_listPath {B : ℚ} {g : Graph} {pool : Pool} {startNode s : State} {w : ℚ}
    {l : List State} (h : Chain B g pool startNode s w l) : ListPath g l w := by
  induction h with
  | base _ _ _ => exact ListPath.single _
  | step hch _ _ _ _ _ hedge hcf _ _ _ ih =>
    exact listPath_concat ih (chain_last hch) hedge hcf

/-- Chains only read the parent, cost and closed flag of their members: they
survive any pool update that preserves those fields on the chain. -/
theorem chain_congr {B : ℚ} {g : Graph} {pool pool' : Pool} {startNode s : State} {w : ℚ}
    {l : List State} (h : Chain B g pool startNode s w l)
    (hag : ∀ x ∈ l, ∀ n, poolFind pool x = some n → ∃ n', poolFind pool' x = some n' ∧
      n'.parent = n.parent ∧ n'.costFromStart = n.costFromStart ∧
      (n.inClosed = true → n'.inClosed = true)) :
    Chain B g pool' startNode s w l := by
  induction h with
  | base hf hp hc =>
    obtain ⟨n', hf', hp', hc', -⟩ := hag _ (by simp) _ hf
    exact Chain.base hf' (hp' ▸ hp) (hc' ▸ hc)
  | step hch hm hmc hn hp hc hedge hcf hc0 hcB hnm ih =>
    rename_i p s' w' c l' n m
    have hag' : ∀ x ∈ l', ∀ n, poolFind pool x = some n → ∃ n',
        poolFind pool' x = some n' ∧ n'.parent = n.parent ∧
        n'.costFromStart = n.costFromStart ∧ (n.inClosed = true → n'.inClosed = true) :=
      fun x hx => hag x (List.mem_append.mpr (Or.inl hx))
    obtain ⟨m', hm', -, -, hmc'⟩ := hag p (by
      have := chain_last hch
      exact List.mem_append.mpr (Or.inl (List.mem_of_mem_getLast? this))) _ hm
    obtain ⟨n', hn', hp', hc', -⟩ := hag s' (List.mem_append.mpr (Or.inr (by simp))) _ hn
    exact Chain.step (ih hag') hm' (hmc' hmc) hn' (hp' ▸ hp) (hc' ▸ hc) hedge hcf hc0 hcB hnm

theorem chain_all_closed {B : ℚ} {g : Graph} {pool : Pool} {startNode s : State} {w : ℚ}
    {l : List State} {ns : PathNode} (h : Chain B g pool startNode s w l)
    (hs : poolFind pool s = some ns) (hc : ns.inClosed = true) :
    ∀ x ∈ l, ∃ n, poolFind pool x = some n ∧ n.inClosed = true := by
  intro x hx
  rcases chain_mem_closed_or_last h x hx with rfl | hcl
  · exact ⟨ns, hs, hc⟩
  · exact hcl

/-- Walking the parent links (`MicroPather::GoalReached`'s loop) from the end
of a chain recovers exactly the reversed chain. -/
theorem parentChain_of_chain {B : ℚ} {g : Graph} {pool : Pool} {startNode s : State}
    {w : ℚ} {l : List State} (h : Chain B g pool startNode s w l) :
    ∀ fuel : ℕ, l.length ≤ fuel → parentChain pool s fuel = some l.reverse := by
  induction h with
  | base hf hp hc =>
    intro fuel hfuel
    cases fuel with
    | zero => simp at hfuel
    | succ f =>
      unfold parentChain
      rw [hf]
      simp only [hp]
      simp
  | step hch hm hmc hn hp hc hedge hcf hc0 hcB hnm ih =>
    intro fuel hfuel
    cases fuel with
    | zero => simp at hfuel
    | succ f =>
      unfold parentChain
      rw [hn]
      simp only [hp]
      rw [ih f (by simp only [List.length_append, List.length_singleton] at hfuel; omega)]
      simp

theorem nodup_lt_length_le {l : List ℕ} {N : ℕ} (hnd : l.Nodup) (hlt : ∀ x ∈ l, x < N) :
    l.length ≤ N := by
  have hsub : l.toFinset ⊆ Finset.range N := by
    intro x hx
    rw [List.mem_toFinset] at hx
    exact Finset.mem_range.mpr (hlt x hx)
  calc l.length = l.toFinset.card := (List.toFinset_card_of_nodup hnd).symm
    _ ≤ (Finset.range N).card := Finset.card_le_card hsub
    _ = N := Finset.card_range N

theorem chain_cost_bound {B : ℚ} {g : Graph} {pool : Pool} {startNode s : State} {w : ℚ}
    {l : List State} {N : ℕ} (h : Chain B g pool startNode s w l) (hB : 0 ≤ B)
    (hlt : ∀ x ∈ l, x < N) : w ≤ B * ((N - 1 : ℕ) : ℚ) := by
  have hlen : l.length ≤ N := nodup_lt_length_le (chain_nodup h) hlt
  have h1 : 1 ≤ l.length := List.length_pos.mpr (chain_ne_nil h)
  have hmono : ((l.length - 1 : ℕ) : ℚ) ≤ ((N - 1 : ℕ) : ℚ) := by
    exact_mod_cast Nat.sub_le_sub_right hlen 1
  exact le_trans (chain_cost_le h hB) (mul_le_mul_of_nonneg_left hmono hB)

theorem sigma_step_bound {N : ℕ} {B σ c hv : ℚ} (hB : 0 ≤ B) (hN : 1 ≤ N)
    (hσ : σ ≤ B * ((N - 1 : ℕ) : ℚ)) (hc0 : 0 ≤ c) (hc : c ≤ B) (hv0 : 0 ≤ hv) (hh : hv ≤ B)
    (hflt : B * N + B < fltMax) :
    σ + c < fltMax ∧ σ + c + hv < fltMax := by
  have hcast : ((N - 1 : ℕ) : ℚ) = (N : ℚ) - 1 := by
    rw [Nat.cast_sub hN]
    simp
  rw [hcast] at hσ
  have hexp : B * ((N : ℚ) - 1) = B * N - B := by ring
  rw [hexp] at hσ
  constructor <;> linarith

theorem AInvP_mono {g : Graph} {startNode endNode : State} {N : ℕ} {B : ℚ}
    {exc exc' : State → State × ℚ → Prop} {es : Engine} {opn : List State}
    (inv : AInvP g startNode endNode N B exc es opn)
    (himp : ∀ x e, exc x e → exc' x e) :
    AInvP g startNode endNode N B exc' es opn :=
  { inv with
    closedRelaxed := fun x n hf hc t c he hcf hne =>
      inv.closedRelaxed x n hf hc t c he hcf fun hx => hne (himp _ _ hx) }

/-- Transfer of the loop invariant across an engine step that preserves every
search field of existing records and only adds untouched records. -/
theorem AInvP_transfer {g : Graph} {startNode endNode : State} {N : ℕ} {B : ℚ}
    {exc : State → State × ℚ → Prop} {es es' : Engine} {opn : List State}
    (inv : AInvP g startNode endNode N B exc es opn)
    (hframe : es'.frame = es.frame)
    (hcache : es'.pathCache = es.pathCache)
    (fwd : ∀ x m0, poolFind es.pool x = some m0 → ∃ m, poolFind es'.pool x = some m ∧
      m.parent = m0.parent ∧ m.costFromStart = m0.costFromStart ∧
      m.estToGoal = m0.estToGoal ∧ m.totalCost = m0.totalCost ∧
      m.inOpen = m0.inOpen ∧ m.inClosed = m0.inClosed ∧ m.frame = m0.frame ∧
      (m0.inClosed = false → m.numAdjacent = m0.numAdjacent ∧ m.cacheIndex = m0.cacheIndex))
    (bwd : ∀ x m, poolFind es'.pool x = some m → (∃ m0, poolFind es.pool x = some m0) ∨
      (m.inOpen = false ∧ m.inClosed = false ∧ m.numAdjacent = none ∧
        m.cacheIndex = none ∧ m.frame = es.frame)) :
    AInvP g startNode endNode N B exc es' opn := by
  have key : ∀ x m, poolFind es'.pool x = some m →
      (∃ m0, poolFind es.pool x = some m0 ∧
        m.parent = m0.parent ∧ m.costFromStart = m0.costFromStart ∧
        m.estToGoal = m0.estToGoal ∧ m.totalCost = m0.totalCost ∧
        m.inOpen = m0.inOpen ∧ m.inClosed = m0.inClosed ∧ m.frame = m0.frame ∧
        (m0.inClosed = false → m.numAdjacent = m0.numAdjacent ∧
          m.cacheIndex = m0.cacheIndex)) ∨
      (m.inOpen = false ∧ m.inClosed = false ∧ m.numAdjacent = none ∧
        m.cacheIndex = none ∧ m.frame = es.frame) := by
    intro x m hm
    rcases bwd x m hm with ⟨m0, hm0⟩ | hnew
    · obtain ⟨m1, hm1, hfields⟩ := fwd x m0 hm0
      rw [hm] at hm1
      obtain rfl := Option.some_inj.mp hm1
      exact Or.inl ⟨m0, hm0, hfields⟩
    · exact Or.inr hnew
  have htc : ∀ x ∈ opn, tcOf es' x = tcOf es x := by
    intro x hx
    obtain ⟨n, hn, hno⟩ := (inv.openMem x).mp hx
    obtain ⟨m, hm, -, -, -, htot, -⟩ := fwd x n hn
    unfold tcOf
    rw [hn, hm]
    exact htot
  refine ⟨?_, ?_, ?_, ?_, inv.openNodup, ?_, ?_, ?_, ?_, ?_, ?_, ?_, ?_, ?_⟩
  · rw [hcache]
    exact inv.cacheNone
  · intro x n hn
    rw [hframe]
    rcases key x n hn with ⟨m0, hm0, -, -, -, -, -, -, hfr, -⟩ | ⟨-, -, -, -, hfr⟩
    · rw [hfr]
      exact inv.frameEq x m0 hm0
    · exact hfr
  · intro x n hn ho
    rcases key x n hn with ⟨m0, hm0, -, -, -, -, hopn, hcl, -, -⟩ | ⟨hopn, hcl, -⟩
    · rw [hcl]
      exact inv.notBoth x m0 hm0 (hopn ▸ ho)
    · rw [ho] at hopn
      simp at hopn
  · intro x
    rw [inv.openMem x]
    constructor
    · rintro ⟨n, hn, ho⟩
      obtain ⟨m, hm, -, -, -, -, hopn, -⟩ := fwd x n hn
      exact ⟨m, hm, hopn ▸ ho⟩
    · rintro ⟨m, hm, ho⟩
      rcases key x m hm with ⟨m0, hm0, -, -, -, -, hopn, -⟩ | ⟨hopn, -⟩
      · exact ⟨m0, hm0, hopn ▸ ho⟩
      · rw [ho] at hopn
        simp at hopn
  · refine sortedBy_congr ?_ inv.sorted
    intro x hx
    exact (htc x hx).symm
  · obtain ⟨n, hn, htch, hcfs⟩ := inv.startTouched
    obtain ⟨m, hm, -, hcfs', -, -, hopn, hcl, -⟩ := fwd _ n hn
    exact ⟨m, hm, by rw [hopn, hcl]; exact htch, hcfs' ▸ hcfs⟩
  · intro x n hn htch
    rcases key x n hn with ⟨m0, hm0, -, -, -, -, hopn, hcl, -⟩ | ⟨hopn, hcl, -⟩
    · exact inv.touchedLt x m0 hm0 (by rw [← hopn, ← hcl]; exact htch)
    · rw [hopn, hcl] at htch
      simp at htch
  · intro x n hn htch
    rcases key x n hn with ⟨m0, hm0, -, -, hest, -, hopn, hcl, -⟩ | ⟨hopn, hcl, -⟩
    · rw [hest]
      exact inv.est x m0 hm0 (by rw [← hopn, ← hcl]; exact htch)
    · rw [hopn, hcl] at htch
      simp at htch
  · intro x n hn htch
    rcases key x n hn with ⟨m0, hm0, -, hcfs, hest, htot, hopn, hcl, -⟩ | ⟨hopn, hcl, -⟩
    · rw [hest, htot, hcfs]
      exact inv.tct x m0 hm0 (by rw [← hopn, ← hcl]; exact htch)
    · rw [hopn, hcl] at htch
      simp at htch
  · intro x n hn htch
    rcases key x n hn with ⟨m0, hm0, -, hcfs, -, -, hopn, hcl, -⟩ | ⟨hopn, hcl, -⟩
    · obtain ⟨l, hchain⟩ := inv.chainEx x m0 hm0 (by rw [← hopn, ← hcl]; exact htch)
      refine ⟨l, hcfs ▸ chain_congr hchain ?_⟩
      intro y hy ny hny
      obtain ⟨my, hmy, hp, hcf, -, -, -, hclm, -, -⟩ := fwd y ny hny
      exact ⟨my, hmy, hp, hcf, fun hc => hclm ▸ hc⟩
    · rw [hopn, hcl] at htch
      simp at htch
  · intro x n hn hcl
    rcases key x n hn with ⟨m0, hm0, -, -, -, -, -, hclm, -, hmeta⟩ | ⟨-, -, hna, hci, -⟩
    · obtain ⟨hna, hci⟩ := hmeta (hclm ▸ hcl)
      rw [hna, hci]
      exact inv.cacheIdx x m0 hm0 (hclm ▸ hcl)
    · exact ⟨hna, hci⟩
  · intro x n hn hcl
    rcases key x n hn with ⟨m0, hm0, -, hcfs, -, -, -, hclm, -, -⟩ | ⟨-, hclm, -⟩
    · rw [hcfs]
      exact inv.closedMin x m0 hm0 (hclm ▸ hcl)
    · rw [hcl] at hclm
      simp at hclm
  · intro x n hn hcl t c he hcf hne
    rcases key x n hn with ⟨m0, hm0, -, hcfs, -, -, -, hclm, -, -⟩ | ⟨-, hclm, -⟩
    · obtain ⟨m, hm, htch, hle⟩ := inv.closedRelaxed x m0 hm0 (hclm ▸ hcl) t c he hcf hne
      obtain ⟨m', hm', -, hcfs', -, -, hopn', hcl', -⟩ := fwd t m hm
      refine ⟨m', hm', by rw [hopn', hcl']; exact htch, ?_⟩
      rw [hcfs', hcfs]
      exact hle
    · rw [hcl] at hclm
      simp at hclm

/-- Every client path is covered by the frontier: it meets an open record of
no larger f-value, or its endpoint is already touched at no larger cost. -/
theorem pathCover {g : Graph} {startNode endNode : State} {N : ℕ} {B : ℚ}
    {es : Engine} {opn : List State}
    (hg : GHyp g endNode N B) (inv : AInv g startNode endNode N B es opn) :
    ∀ v w, PathTo g startNode v w →
      (∃ x m, poolFind es.pool x = some m ∧ m.inOpen = true ∧
        m.costFromStart + g.leastCostEstimate x endNode ≤
          w + g.leastCostEstimate v endNode) ∨
      (∃ m, poolFind es.pool v = some m ∧ (m.inOpen = true ∨ m.inClosed = true) ∧
        m.costFromStart ≤ w) := by
  intro v w hpath
  induction hpath with
  | refl =>
    obtain ⟨n, hn, htch, hcfs⟩ := inv.startTouched
    exact Or.inr ⟨n, hn, htch, le_of_eq hcfs⟩
  | tail hp hedge hcf ih =>
    rename_i u v' w' c
    have hcons := hg.cons u v' c hedge hcf
    rcases ih with ⟨x, m, hx, ho, hle⟩ | ⟨m, hu, htch, hle⟩
    · exact Or.inl ⟨x, m, hx, ho, by linarith⟩
    · rcases htch with ho | hc
      · exact Or.inl ⟨u, m, hu, ho, by linarith⟩
      · obtain ⟨m', hm', htch', hle'⟩ :=
          inv.closedRelaxed u m hu hc v' c hedge hcf (fun h => h)
        exact Or.inr ⟨m', hm', htch', by linarith⟩

/-- Popping the head of the sorted open queue yields a node whose stored cost
is the exact minimum distance (the A* pop lemma, using consistency). -/
theorem popMin {g : Graph} {startNode endNode : State} {N : ℕ} {B : ℚ}
    {es : Engine} {s : State} {rest : List State} {ns : PathNode}
    (hg : GHyp g endNode N B) (inv : AInv g startNode endNode N B es (s :: rest))
    (hs : poolFind es.pool s = some ns) (hopen : ns.inOpen = true) :
    IsMinDist g startNode s ns.costFromStart := by
  constructor
  · obtain ⟨l, hch⟩ := inv.chainEx s ns hs (Or.inl hopen)
    exact chain_pathTo hch
  · intro w' hw'
    rcases pathCover hg inv s w' hw' with ⟨x, m, hx, hxo, hle⟩ | ⟨m, hv, htch, hle⟩
    · have hxmem : x ∈ s :: rest := (inv.openMem x).mpr ⟨m, hx, hxo⟩
      have hts : tcOf es s ≤ tcOf es x := by
        rcases List.mem_cons.mp hxmem with rfl | hxr
        · exact le_refl _
        · exact (List.pairwise_cons.mp inv.sorted).1 x hxr
      have hs' : tcOf es s = ns.costFromStart + g.leastCostEstimate s endNode := by
        have h1 : tcOf es s = ns.totalCost := by
          unfold tcOf
          rw [hs]
        rw [h1, (inv.tct s ns hs (Or.inl hopen)).1, inv.est s ns hs (Or.inl hopen)]
      have hx' : tcOf es x = m.costFromStart + g.leastCostEstimate x endNode := by
        have h1 : tcOf es x = m.totalCost := by
          unfold tcOf
          rw [hx]
        rw [h1, (inv.tct x m hx (Or.inl hxo)).1, inv.est x m hx (Or.inl hxo)]
      rw [hs', hx'] at hts
      linarith
    · rw [hs] at hv
      obtain rfl := Option.some_inj.mp hv
      exact hle

theorem getPathNode_present {es : Engine} {fr : ℕ} {s : State} {n : PathNode} {cfs est : ℚ}
    {par : Option State} (h : poolFind es.pool s = some n) (hf : n.frame = fr) :
    getPathNode es fr s cfs est par = (es, n) := by
  unfold getPathNode
  rw [h]
  simp [hf]

theorem getPathNode_absent {es : Engine} {fr : ℕ} {s : State} {cfs est : ℚ}
    {par : Option State} (h : poolFind es.pool s = none) :
    getPathNode es fr s cfs est par =
      ({ es with pool := poolSet es.pool s (pathNodeInit (pathNodeClear s) fr s cfs est par) },
        pathNodeInit (pathNodeClear s) fr s cfs est par) := by
  unfold getPathNode
  rw [h]

/-- Effect of the neighbor-creation pass of `GetNodeNeighbors`: existing
current-frame records are untouched and absent neighbor states get fresh
untouched records. -/
theorem createNeighbors_spec :
    ∀ (edges : List (State × ℚ)) (es : Engine),
      (∀ x n, poolFind es.pool x = some n → n.frame = es.frame) →
      (createNeighbors es edges).frame = es.frame ∧
      (createNeighbors es edges).pathCache = es.pathCache ∧
      (createNeighbors es edges).poolCache = es.poolCache ∧
      (createNeighbors es edges).cacheCap = es.cacheCap ∧
      (∀ x n, poolFind es.pool x = some n →
        poolFind (createNeighbors es edges).pool x = some n) ∧
      (∀ x n', poolFind es.pool x = none →
        poolFind (createNeighbors es edges).pool x = some n' →
        n' = untouchedNode es.frame x) ∧
      (∀ e ∈ edges, ∃ n, poolFind (createNeighbors es edges).pool e.1 = some n) ∧
      (∀ x n, poolFind (createNeighbors es edges).pool x = some n → n.frame = es.frame)
  | [], es, hfr => by
    refine ⟨rfl, rfl, rfl, rfl, fun x n h => h, ?_, ?_, hfr⟩
    · intro x n' h1 h2
      have h2' : poolFind es.pool x = some n' := h2
      rw [h1] at h2'
      exact Option.noConfusion h2'
    · intro e he
      simp at he
  | (t, c) :: rest, es, hfr => by
    have hcn : createNeighbors es ((t, c) :: rest) =
        createNeighbors (getPathNode es es.frame t fltMax fltMax none).1 rest := rfl
    rcases hft : poolFind es.pool t with _ | n
    · -- absent: a fresh untouched record is inserted
      have hgp : (getPathNode es es.frame t fltMax fltMax none).1 =
          { es with pool := poolSet es.pool t (untouchedNode es.frame t) } := by
        rw [getPathNode_absent hft]
        rfl
      rw [hcn, hgp]
      have hrec := createNeighbors_spec rest
        { es with pool := poolSet es.pool t (untouchedNode es.frame t) } (by
          intro x n h
          by_cases hxt : x = t
          · subst hxt
            rw [show poolFind (poolSet es.pool x (untouchedNode es.frame x)) x =
              some (untouchedNode es.frame x) from poolFind_poolSet_self _ _ _] at h
            obtain rfl := Option.some_inj.mp h
            rfl
          · rw [show poolFind (poolSet es.pool t (untouchedNode es.frame t)) x =
              poolFind es.pool x from poolFind_poolSet_ne _ _ _ _ hxt] at h
            exact hfr x n h)
      obtain ⟨h1, h2, h3, h4, h5, h6, h7, h8⟩ := hrec
      refine ⟨h1, h2, h3, h4, ?_, ?_, ?_, h8⟩
      · intro x n h
        have hxt : x ≠ t := by
          intro hc
          subst hc
          rw [hft] at h
          exact Option.noConfusion h
        exact h5 x n (by
          show poolFind (poolSet es.pool t (untouchedNode es.frame t)) x = some n
          rw [poolFind_poolSet_ne _ _ _ _ hxt]
          exact h)
      · intro x n' hnone hsome
        by_cases hxt : x = t
        · subst hxt
          have := h5 x _ (poolFind_poolSet_self es.pool x (untouchedNode es.frame x))
          rw [hsome] at this
          exact Option.some_inj.mp this
        · exact h6 x n' (by
            show poolFind (poolSet es.pool t (untouchedNode es.frame t)) x = none
            rw [poolFind_poolSet_ne _ _ _ _ hxt]
            exact hnone) hsome
      · intro e he
        rcases List.mem_cons.mp he with heq | he'
        · subst heq
          exact ⟨_, h5 t _ (poolFind_poolSet_self es.pool t (untouchedNode es.frame t))⟩
        · exact h7 e he'
    · -- present at the current frame: nothing changes
      have hgp : (getPathNode es es.frame t fltMax fltMax none).1 = es := by
        rw [getPathNode_present hft (hfr t n hft)]
      rw [hcn, hgp]
      have hrec := createNeighbors_spec rest es hfr
      obtain ⟨h1, h2, h3, h4, h5, h6, h7, h8⟩ := hrec
      refine ⟨h1, h2, h3, h4, h5, h6, ?_, h8⟩
      intro e he
      rcases List.mem_cons.mp he with heq | he'
      · subst heq
        exact ⟨n, h5 t n hft⟩
      · exact h7 e he'

/-- The client branch of `MicroPather::GetNodeNeighbors`: for a record with no
memoized adjacency, the client's edge list is returned, every neighbour gets a
record, and all search fields of existing records survive (only `numAdjacent`
and `cacheIndex` of the queried node change). -/
theorem getNodeNeighbors_client {g : Graph} {es : Engine} {s : State} {n : PathNode}
    (hs : poolFind es.pool s = some n) (hci : n.cacheIndex = none)
    (hna : n.numAdjacent = none)
    (hfr : ∀ x m, poolFind es.pool x = some m → m.frame = es.frame) :
    ∃ es', getNodeNeighbors g es s = (es', g.adjacentCost s) ∧
      es'.frame = es.frame ∧ es'.pathCache = es.pathCache ∧
      (∀ x m0, poolFind es.pool x = some m0 → ∃ m, poolFind es'.pool x = some m ∧
        m.parent = m0.parent ∧ m.costFromStart = m0.costFromStart ∧
        m.estToGoal = m0.estToGoal ∧ m.totalCost = m0.totalCost ∧
        m.inOpen = m0.inOpen ∧ m.inClosed = m0.inClosed ∧ m.frame = m0.frame ∧
        (x ≠ s → m.numAdjacent = m0.numAdjacent ∧ m.cacheIndex = m0.cacheIndex)) ∧
      (∀ x m, poolFind es'.pool x = some m → (∃ m0, poolFind es.pool x = some m0) ∨
        (m.inOpen = false ∧ m.inClosed = false ∧ m.numAdjacent = none ∧
          m.cacheIndex = none ∧ m.frame = es.frame)) ∧
      (∀ e ∈ g.adjacentCost s, ∃ m, poolFind es'.pool e.1 = some m) ∧
      (∀ x m, poolFind es'.pool x = some m → m.frame = es.frame) := by
  simp only [getNodeNeighbors, hs]
  rw [if_neg (show ¬n.numAdjacent = some 0 by rw [hna]; simp)]
  simp only [hci]
  have hes1fr : ∀ x m, poolFind (poolSet es.pool s
      { n with numAdjacent := some (g.adjacentCost s).length, cacheIndex := none }) x = some m →
      m.frame = es.frame := by
    intro x m h
    by_cases hxs : x = s
    · subst hxs
      rw [poolFind_poolSet_self] at h
      obtain rfl := Option.some_inj.mp h
      exact hfr x n hs
    · rw [poolFind_poolSet_ne _ _ _ _ hxs] at h
      exact hfr x m h
  obtain ⟨hc1, hc2, hc3, hc4, hc5, hc6, hc7, hc8⟩ := createNeighbors_spec (g.adjacentCost s)
    { es with adjCalls := es.adjCalls + 1,
              pool := poolSet es.pool s
                { n with numAdjacent := some (g.adjacentCost s).length, cacheIndex := none } }
    hes1fr
  set es2 := createNeighbors
    { es with adjCalls := es.adjCalls + 1,
              pool := poolSet es.pool s
                { n with numAdjacent := some (g.adjacentCost s).length, cacheIndex := none } }
    (g.adjacentCost s) with hes2
  have hfwd0 : ∀ x m0, poolFind es.pool x = some m0 → ∃ m, poolFind es2.pool x = some m ∧
      m.parent = m0.parent ∧ m.costFromStart = m0.costFromStart ∧
      m.estToGoal = m0.estToGoal ∧ m.totalCost = m0.totalCost ∧
      m.inOpen = m0.inOpen ∧ m.inClosed = m0.inClosed ∧ m.frame = m0.frame ∧
      (x ≠ s → m.numAdjacent = m0.numAdjacent ∧ m.cacheIndex = m0.cacheIndex) := by
    intro x m0 h
    by_cases hxs : x = s
    · subst hxs
      rw [hs] at h
      obtain rfl : n = m0 := Option.some_inj.mp h
      refine ⟨{ n with numAdjacent := some (g.adjacentCost x).length, cacheIndex := none },
        ?_, rfl, rfl, rfl, rfl, rfl, rfl, rfl, fun hc => absurd rfl hc⟩
      exact hc5 x _ (poolFind_poolSet_self _ _ _)
    · refine ⟨m0, ?_, rfl, rfl, rfl, rfl, rfl, rfl, rfl, fun _ => ⟨rfl, rfl⟩⟩
      exact hc5 x m0 (by
        rw [poolFind_poolSet_ne _ _ _ _ hxs]
        exact h)
  have hbwd0 : ∀ x m, poolFind es2.pool x = some m →
      (∃ m0, poolFind es.pool x = some m0) ∨
      (m.inOpen = false ∧ m.inClosed = false ∧ m.numAdjacent = none ∧
        m.cacheIndex = none ∧ m.frame = es.frame) := by
    intro x m h
    rcases hfx : poolFind es.pool x with _ | m0
    · right
      have hnone : poolFind (poolSet es.pool s
          { n with numAdjacent := some (g.adjacentCost s).length, cacheIndex := none }) x = none := by
        have hxs : x ≠ s := by
          intro hc
          subst hc
          rw [hs] at hfx
          exact Option.noConfusion hfx
        rw [poolFind_poolSet_ne _ _ _ _ hxs]
        exact hfx
      have := hc6 x m hnone h
      subst this
      simp [untouchedNode, pathNodeInit, pathNodeClear]
    · exact Or.inl ⟨m0, rfl⟩
  have hs2 : ∃ n2, poolFind es2.pool s = some n2 := by
    obtain ⟨m, hm, -⟩ := hfwd0 s n hs
    exact ⟨m, hm⟩
  obtain ⟨n2, hn2⟩ := hs2
  obtain ⟨n2', hn2', hf1, hf2, hf3, hf4, hf5, hf6, hf7, -⟩ := hfwd0 s n hs
  rw [hn2] at hn2'
  obtain rfl := Option.some_inj.mp hn2'
  split_ifs with hcap
  · rw [hn2]
    refine ⟨_, rfl, hc1, hc2, ?_, ?_, ?_, ?_⟩
    · intro x m0 h
      by_cases hxs : x = s
      · subst hxs
        rw [hs] at h
        obtain rfl := Option.some_inj.mp h
        refine ⟨{ n2 with cacheIndex := some es2.poolCache.length }, ?_, ?_⟩
        · show poolFind (poolSet es2.pool x _) x = _
          exact poolFind_poolSet_self _ _ _
        · exact ⟨hf1, hf2, hf3, hf4, hf5, hf6, hf7, fun hc => absurd rfl hc⟩
      · obtain ⟨m, hm, hrest⟩ := hfwd0 x m0 h
        refine ⟨m, ?_, hrest⟩
        show poolFind (poolSet es2.pool s _) x = some m
        rw [poolFind_poolSet_ne _ _ _ _ hxs]
        exact hm
    · intro x m h
      by_cases hxs : x = s
      · subst hxs
        exact Or.inl ⟨n, hs⟩
      · rw [show poolFind (poolSet es2.pool s
          { n2 with cacheIndex := some es2.poolCache.length }) x = poolFind es2.pool x from
          poolFind_poolSet_ne _ _ _ _ hxs] at h
        exact hbwd0 x m h
    · intro e he
      obtain ⟨m, hm⟩ := hc7 e he
      by_cases hes : e.1 = s
      · rw [hes]
        exact ⟨_, poolFind_poolSet_self _ _ _⟩
      · refine ⟨m, ?_⟩
        show poolFind (poolSet es2.pool s _) e.1 = some m
        rw [poolFind_poolSet_ne _ _ _ _ hes]
        exact hm
    · intro x m h
      by_cases hxs : x = s
      · subst hxs
        rw [show poolFind (poolSet es2.pool x
          { n2 with cacheIndex := some es2.poolCache.length }) x =
          some { n2 with cacheIndex := some es2.poolCache.length } from
          poolFind_poolSet_self _ _ _] at h
        obtain rfl := Option.some_inj.mp h
        show n2.frame = es.frame
        exact hc8 x n2 hn2
      · rw [show poolFind (poolSet es2.pool s
          { n2 with cacheIndex := some es2.poolCache.length }) x = poolFind es2.pool x from
          poolFind_poolSet_ne _ _ _ _ hxs] at h
        exact hc8 x m h
  · exact ⟨es2, rfl, hc1, hc2, hfwd0, hbwd0, hc7, hc8⟩

theorem nodup_middle_split {pre post : List State} {t : State}
    (h : (pre ++ t :: post).Nodup) : t ∉ pre ∧ t ∉ post ∧ (pre ++ post).Nodup := by
  rw [List.nodup_append] at h
  obtain ⟨hpre, hcons, hdisj⟩ := h
  rw [List.nodup_cons] at hcons
  refine ⟨fun hc => hdisj hc (List.mem_cons_self t post), hcons.1, ?_⟩
  rw [List.nodup_append]
  exact ⟨hpre, hcons.2, fun a ha hpost => hdisj ha (List.mem_cons_of_mem t hpost)⟩

/-- Re-assembly of the loop invariant after one relaxation write: the target
`t` gets a fresh open record `child'` whose fields satisfy the invariant, and
every closed requirement is re-justified by `hcov`. -/
theorem AInvP_update {g : Graph} {startNode endNode : State} {N : ℕ} {B : ℚ}
    {exc exc' : State → State × ℚ → Prop} {es es' : Engine} {opn opn' : List State}
    {t : State} {child child' : PathNode}
    (inv : AInvP g startNode endNode N B exc es opn)
    (hchildf : poolFind es.pool t = some child)
    (hpool_t : poolFind es'.pool t = some child')
    (hpool_ne : ∀ x, x ≠ t → poolFind es'.pool x = poolFind es.pool x)
    (hfr' : es'.frame = es.frame)
    (hpc' : es'.pathCache = es.pathCache)
    (hop' : child'.inOpen = true) (hncl' : child'.inClosed = false)
    (hframe' : child'.frame = child.frame)
    (hmeta' : child'.numAdjacent = child.numAdjacent ∧ child'.cacheIndex = child.cacheIndex)
    (hest' : child'.estToGoal = g.leastCostEstimate t endNode)
    (htct' : child'.totalCost = child'.costFromStart + child'.estToGoal ∧
      child'.costFromStart + child'.estToGoal < fltMax)
    (htlt : t < N) (htstart : t ≠ startNode)
    (hchaint : ∃ l, Chain B g es'.pool startNode t child'.costFromStart l)
    (hchildncl : child.inClosed = false)
    (hcov : ∀ x n, poolFind es.pool x = some n → n.inClosed = true →
      ∀ t' c', (t', c') ∈ g.adjacentCost x → c' ≠ fltMax → ¬exc' x (t', c') →
        (t' = t ∧ child'.costFromStart ≤ n.costFromStart + c') ∨
        (t' ≠ t ∧ ∃ m, poolFind es.pool t' = some m ∧
          (m.inOpen = true ∨ m.inClosed = true) ∧ m.costFromStart ≤ n.costFromStart + c'))
    (hqmem : ∀ x, x ∈ opn' ↔ (x = t ∨ x ∈ opn))
    (hqnodup : opn'.Nodup)
    (hqsorted : SortedBy (tcOf es') opn') :
    AInvP g startNode endNode N B exc' es' opn' := by
  refine ⟨?_, ?_, ?_, ?_, hqnodup, hqsorted, ?_, ?_, ?_, ?_, ?_, ?_, ?_, ?_⟩
  · rw [hpc']
    exact inv.cacheNone
  · intro x n hn
    rw [hfr']
    by_cases hxt : x = t
    · subst hxt
      rw [hpool_t] at hn
      obtain rfl := Option.some_inj.mp hn
      rw [hframe']
      exact inv.frameEq x child hchildf
    · rw [hpool_ne x hxt] at hn
      exact inv.frameEq x n hn
  · intro x n hn ho
    by_cases hxt : x = t
    · subst hxt
      rw [hpool_t] at hn
      obtain rfl := Option.some_inj.mp hn
      exact hncl'
    · rw [hpool_ne x hxt] at hn
      exact inv.notBoth x n hn ho
  · intro x
    rw [hqmem x]
    constructor
    · rintro (rfl | hx)
      · exact ⟨child', hpool_t, hop'⟩
      · obtain ⟨n, hn, ho⟩ := (inv.openMem x).mp hx
        by_cases hxt : x = t
        · subst hxt
          exact ⟨child', hpool_t, hop'⟩
        · exact ⟨n, by rw [hpool_ne x hxt]; exact hn, ho⟩
    · rintro ⟨n, hn, ho⟩
      by_cases hxt : x = t
      · exact Or.inl hxt
      · rw [hpool_ne x hxt] at hn
        exact Or.inr ((inv.openMem x).mpr ⟨n, hn, ho⟩)
  · obtain ⟨n, hn, htch, hcfs⟩ := inv.startTouched
    exact ⟨n, by rw [hpool_ne startNode (fun hc => htstart hc.symm)]; exact hn, htch, hcfs⟩
  · intro x n hn htch
    by_cases hxt : x = t
    · subst hxt
      exact htlt
    · rw [hpool_ne x hxt] at hn
      exact inv.touchedLt x n hn htch
  · intro x n hn htch
    by_cases hxt : x = t
    · subst hxt
      rw [hpool_t] at hn
      obtain rfl := Option.some_inj.mp hn
      exact hest'
    · rw [hpool_ne x hxt] at hn
      exact inv.est x n hn htch
  · intro x n hn htch
    by_cases hxt : x = t
    · subst hxt
      rw [hpool_t] at hn
      obtain rfl := Option.some_inj.mp hn
      exact htct'
    · rw [hpool_ne x hxt] at hn
      exact inv.tct x n hn htch
  · intro x n hn htch
    by_cases hxt : x = t
    · subst hxt
      rw [hpool_t] at hn
      obtain rfl := Option.some_inj.mp hn
      exact hchaint
    · rw [hpool_ne x hxt] at hn
      obtain ⟨l, hch⟩ := inv.chainEx x n hn htch
      have htnl : t ∉ l := by
        intro hmem
        rcases chain_mem_closed_or_last hch t hmem with rfl | ⟨nt, hnt, hntc⟩
        · exact hxt rfl
        · rw [hchildf] at hnt
          obtain rfl := Option.some_inj.mp hnt
          rw [hchildncl] at hntc
          exact Bool.noConfusion hntc
      refine ⟨l, chain_congr hch ?_⟩
      intro y hy ny hny
      have hyt : y ≠ t := fun hc => htnl (hc ▸ hy)
      exact ⟨ny, by rw [hpool_ne y hyt]; exact hny, rfl, rfl, fun hc => hc⟩
  · intro x n hn hncl
    by_cases hxt : x = t
    · subst hxt
      rw [hpool_t] at hn
      obtain rfl := Option.some_inj.mp hn
      rw [hmeta'.1, hmeta'.2]
      exact inv.cacheIdx x child hchildf hchildncl
    · rw [hpool_ne x hxt] at hn
      exact inv.cacheIdx x n hn hncl
  · intro x n hn hcl
    by_cases hxt : x = t
    · subst hxt
      rw [hpool_t] at hn
      obtain rfl := Option.some_inj.mp hn
      rw [hcl] at hncl'
      exact Bool.noConfusion hncl'
    · rw [hpool_ne x hxt] at hn
      exact inv.closedMin x n hn hcl
  · intro x n hn hcl t' c' he' hcf' hne'
    by_cases hxt : x = t
    · subst hxt
      rw [hpool_t] at hn
      obtain rfl := Option.some_inj.mp hn
      rw [hcl] at hncl'
      exact Bool.noConfusion hncl'
    · rw [hpool_ne x hxt] at hn
      rcases hcov x n hn hcl t' c' he' hcf' hne' with ⟨rfl, hle⟩ | ⟨htne, m, hm, htch, hle⟩
      · exact ⟨child', hpool_t, Or.inl hop', hle⟩
      · exact ⟨m, by rw [hpool_ne t' htne]; exact hm, htch, hle⟩

/-- Effect of one full relaxation pass of `MicroPather::Solve` over the
pending edge list of the just-closed node `s`: no assertion fires, and the
loop invariant holds again with all of `s`'s edges relaxed.  The closed flags
of all records are untouched. -/
theorem solveRelax_spec {g : Graph} {startNode endNode : State} {N : ℕ} {B : ℚ}
    (hg : GHyp g endNode N B) (s : State) :
    ∀ (pend : List (State × ℚ)) (es : Engine) (opn : List State),
      AInvP g startNode endNode N B (fun x e => x = s ∧ e ∈ pend) es opn →
      (∀ e ∈ pend, e ∈ g.adjacentCost s) →
      (∀ e ∈ pend, ∃ m, poolFind es.pool e.1 = some m) →
      (∀ ns : PathNode, poolFind es.pool s = some ns → ns.inClosed = true) →
      (∃ ns : PathNode, poolFind es.pool s = some ns) →
      ∃ es' opn', solveRelax g es endNode s pend opn = some (es', opn') ∧
        AInv g startNode endNode N B es' opn' ∧
        (∀ x, closedFlag es' x = closedFlag es x)
  | [], es, opn, inv, _, _, _, _ => by
    refine ⟨es, opn, rfl, AInvP_mono inv ?_, fun x => rfl⟩
    rintro x e ⟨hx, he⟩
    simp at he
  | (t, c) :: rest, es, opn, inv, hsub, hpres, hnscl', hns => by
    obtain ⟨ns, hnsf⟩ := hns
    have hnscl : ns.inClosed = true := hnscl' ns hnsf
    by_cases hcf : c = fltMax
    · -- infinite edge: filtered before relaxation
      have hinv' : AInvP g startNode endNode N B (fun x e => x = s ∧ e ∈ rest) es opn :=
        { inv with
          closedRelaxed := fun x n hf hcl t' c' he' hcf' hne' =>
            inv.closedRelaxed x n hf hcl t' c' he' hcf' (by
              rintro ⟨hx, hmem⟩
              rcases List.mem_cons.mp hmem with heq2 | hmem'
              · injection heq2 with h1 h2
                exact hcf' (h2.trans hcf)
              · exact hne' ⟨hx, hmem'⟩) }
      obtain ⟨es', opn', heq, hA, hC⟩ := solveRelax_spec hg s rest es opn hinv'
        (fun e he => hsub e (List.mem_cons_of_mem _ he))
        (fun e he => hpres e (List.mem_cons_of_mem _ he)) hnscl' ⟨ns, hnsf⟩
      refine ⟨es', opn', ?_, hA, hC⟩
      simp only [solveRelax]
      rw [if_pos hcf]
      exact heq
    · -- traversable edge
      obtain ⟨child, hchildf⟩ := hpres (t, c) (List.mem_cons_self _ _)
      have hedge : (t, c) ∈ g.adjacentCost s := hsub (t, c) (List.mem_cons_self _ _)
      have hts : t ≠ s := by
        intro hc
        subst hc
        exact hcf (hg.self t c hedge)
      have h0c : 0 ≤ c := by
        rcases hg.cost s t c hedge with h | ⟨h1, -⟩
        · exact absurd h hcf
        · exact h1
      have hcB : c ≤ B := by
        rcases hg.cost s t c hedge with h | ⟨-, h2⟩
        · exact absurd h hcf
        · exact h2
      have hg1 : ¬((child.inOpen || child.inClosed) = true ∧ t = s) := fun h => hts h.2
      have hg2 : ¬(child.inOpen = true ∧ child.inClosed = true) := by
        rintro ⟨h1, h2⟩
        rw [inv.notBoth t child hchildf h1] at h2
        exact Bool.noConfusion h2
      have hNs : s < N := inv.touchedLt s ns hnsf (Or.inr hnscl)
      have hN1 : 1 ≤ N := lt_of_le_of_lt (Nat.zero_le s) hNs
      obtain ⟨ls, hchs⟩ := inv.chainEx s ns hnsf (Or.inr hnscl)
      have hσb : ns.costFromStart ≤ B * ((N - 1 : ℕ) : ℚ) := by
        refine chain_cost_bound hchs hg.hB ?_
        intro x hx
        obtain ⟨nx, hnx, hnxc⟩ := chain_all_closed hchs hnsf hnscl x hx
        exact inv.touchedLt x nx hnx (Or.inr hnxc)
      obtain ⟨hb1, hb2⟩ := sigma_step_bound hg.hB hN1 hσb h0c hcB (hg.hle t).1
        (hg.hle t).2 hg.flt
      have hBlt : B < fltMax := by
        have h1 : (0 : ℚ) ≤ B * N := mul_nonneg hg.hB (Nat.cast_nonneg N)
        have := hg.flt
        linarith
      have htot' : calcTotalCost (ns.costFromStart + c) (g.leastCostEstimate t endNode) =
          (ns.costFromStart + c) + g.leastCostEstimate t endNode := by
        unfold calcTotalCost
        rw [if_pos ⟨hb1, lt_of_le_of_lt (hg.hle t).2 hBlt⟩]
      have hσ0 : 0 ≤ ns.costFromStart := chain_nonneg hchs
      have hchainT : ∀ (pool' : Pool) (ch : PathNode), poolFind pool' t = some ch →
          (∀ x, x ≠ t → poolFind pool' x = poolFind es.pool x) →
          ch.parent = some s → ch.costFromStart = ns.costFromStart + c →
          child.inClosed = false →
          ∃ l, Chain B g pool' startNode t ch.costFromStart l := by
        intro pool' ch hpt hpne hpar hcfs hclf
        have htnl : t ∉ ls := by
          intro hmem
          obtain ⟨nt, hnt, hntc⟩ := chain_all_closed hchs hnsf hnscl t hmem
          rw [hchildf] at hnt
          obtain rfl : child = nt := Option.some_inj.mp hnt
          rw [hclf] at hntc
          exact Bool.noConfusion hntc
        have hchs' : Chain B g pool' startNode s ns.costFromStart ls := by
          refine chain_congr hchs ?_
          intro x hx nx hnx
          have hxt : x ≠ t := fun hc => htnl (hc ▸ hx)
          exact ⟨nx, by rw [hpne x hxt]; exact hnx, rfl, rfl, fun hcc => hcc⟩
        refine ⟨ls ++ [t], ?_⟩
        rw [hcfs]
        exact Chain.step hchs' (by rw [hpne s fun hc => hts hc.symm]; exact hnsf) hnscl
          hpt hpar hcfs hedge hcf h0c hcB htnl
      by_cases htch : child.inOpen = true ∨ child.inClosed = true
      · by_cases himp : ns.costFromStart + c < child.costFromStart
        · -- improvement: the target must be open (a closed record cannot improve)
          have hchopen : child.inOpen = true := by
            rcases htch with h | h
            · exact h
            · exfalso
              have hmins := inv.closedMin s ns hnsf hnscl
              have hpatht : PathTo g startNode t (ns.costFromStart + c) :=
                PathTo.tail hmins.1 hedge hcf
              have := (inv.closedMin t child hchildf h).2 _ hpatht
              linarith
          have hchncl : child.inClosed = false := inv.notBoth t child hchildf hchopen
          have htstart : t ≠ startNode := by
            intro hc
            subst hc
            obtain ⟨n0, hn0, -, hcfs0⟩ := inv.startTouched
            rw [hchildf] at hn0
            obtain rfl : child = n0 := Option.some_inj.mp hn0
            rw [hcfs0] at himp
            linarith
          set RN : PathNode :=
            { child with parent := some s, costFromStart := ns.costFromStart + c,
                         estToGoal := g.leastCostEstimate t endNode,
                         totalCost := calcTotalCost (ns.costFromStart + c)
                           (g.leastCostEstimate t endNode) } with hRN
          set ES1 : Engine :=
            { es with pool := poolSet es.pool t RN, lceCalls := es.lceCalls + 1 } with hES1
          have hfind_t : poolFind ES1.pool t = some RN := poolFind_poolSet_self _ _ _
          have hfind_ne : ∀ x, x ≠ t → poolFind ES1.pool x = poolFind es.pool x :=
            fun x hx => poolFind_poolSet_ne _ _ _ _ hx
          have htc_ne : ∀ x, x ≠ t → tcOf ES1 x = tcOf es x := by
            intro x hx
            unfold tcOf
            rw [hfind_ne x hx]
          have htin : t ∈ opn := (inv.openMem t).mpr ⟨child, hchildf, hchopen⟩
          obtain ⟨pre, post, hsp⟩ := splitAtElem_of_mem htin
          obtain ⟨hop_eq, hpre_nt⟩ := splitAtElem_spec hsp
          obtain ⟨hnt_pre, hnt_post, hnd_pp⟩ := nodup_middle_split (hop_eq ▸ inv.openNodup)
          set OPN1 : List State := openUpdate (tcOf ES1) t opn with hOPN1
          have hsorted_pp : SortedBy (tcOf es) (pre ++ post) := by
            refine List.Pairwise.sublist ?_ inv.sorted
            rw [hop_eq]
            exact (List.sublist_cons_self t post).append_left pre
          have hsorted_pp' : SortedBy (tcOf ES1) (pre ++ post) := by
            refine sortedBy_congr ?_ hsorted_pp
            intro x hx
            have hxt : x ≠ t := by
              rcases List.mem_append.mp hx with h | h
              · exact fun hc => hnt_pre (hc ▸ h)
              · exact fun hc => hnt_post (hc ▸ h)
            exact (htc_ne x hxt).symm
          have hq_sorted : SortedBy (tcOf ES1) OPN1 := sortedBy_openUpdate hsp hsorted_pp'
          have hq_perm : OPN1.Perm opn := @openUpdate_perm (tcOf ES1) t opn pre post hsp
          have hq_mem : ∀ x, x ∈ OPN1 ↔ (x = t ∨ x ∈ opn) := by
            intro x
            rw [hq_perm.mem_iff]
            constructor
            · exact Or.inr
            · rintro (rfl | hx)
              · exact htin
              · exact hx
          have hq_nodup : OPN1.Nodup := hq_perm.nodup_iff.mpr inv.openNodup
          have hcov : ∀ x n, poolFind es.pool x = some n → n.inClosed = true →
              ∀ t' c', (t', c') ∈ g.adjacentCost x → c' ≠ fltMax →
              ¬(x = s ∧ (t', c') ∈ rest) →
              (t' = t ∧ RN.costFromStart ≤ n.costFromStart + c') ∨
              (t' ≠ t ∧ ∃ m, poolFind es.pool t' = some m ∧
                (m.inOpen = true ∨ m.inClosed = true) ∧
                m.costFromStart ≤ n.costFromStart + c') := by
            intro x n hn hcl t' c' he' hcf' hne'
            have hwit : (x = s ∧ (t', c') = (t, c)) ∨
                (∃ m, poolFind es.pool t' = some m ∧
                  (m.inOpen = true ∨ m.inClosed = true) ∧
                  m.costFromStart ≤ n.costFromStart + c') := by
              by_cases hxs : x = s
              · by_cases hec : (t', c') = (t, c)
                · exact Or.inl ⟨hxs, hec⟩
                · rw [hxs] at hn he'
                  refine Or.inr (inv.closedRelaxed s n hn hcl t' c' he' hcf' ?_)
                  rintro ⟨-, hmem⟩
                  rcases List.mem_cons.mp hmem with h | h
                  · exact hec h
                  · exact hne' ⟨hxs, h⟩
              · refine Or.inr (inv.closedRelaxed x n hn hcl t' c' he' hcf' ?_)
                rintro ⟨h, -⟩
                exact hxs h
            rcases hwit with ⟨hxs, hec⟩ | ⟨m, hm, htchm, hlem⟩
            · injection hec with h1 h2
              subst h1
              subst h2
              left
              refine ⟨rfl, ?_⟩
              rw [hxs, hnsf] at hn
              obtain rfl : ns = n := Option.some_inj.mp hn
              exact le_refl _
            · by_cases ht't : t' = t
              · subst ht't
                rw [hchildf] at hm
                obtain rfl : child = m := Option.some_inj.mp hm
                left
                exact ⟨rfl, le_trans (le_of_lt himp) hlem⟩
              · exact Or.inr ⟨ht't, m, hm, htchm, hlem⟩
          have hinv1 : AInvP g startNode endNode N B (fun x e => x = s ∧ e ∈ rest) ES1 OPN1 := by
            refine AInvP_update inv hchildf hfind_t hfind_ne rfl rfl hchopen hchncl rfl
              ⟨rfl, rfl⟩ rfl ⟨htot', hb2⟩ (hg.target s t c hedge) htstart ?_ hchncl hcov
              hq_mem hq_nodup hq_sorted
            exact hchainT ES1.pool RN hfind_t hfind_ne rfl rfl hchncl
          have hflag : ∀ x, closedFlag ES1 x = closedFlag es x := by
            intro x
            unfold closedFlag
            by_cases hxt : x = t
            · subst hxt
              rw [hfind_t, hchildf]
              rfl
            · rw [hfind_ne x hxt]
          obtain ⟨esF, opnF, heqF, hAF, hCF⟩ := solveRelax_spec hg s rest ES1 OPN1 hinv1
            (fun e he => hsub e (List.mem_cons_of_mem _ he))
            (by
              intro e he
              by_cases het : e.1 = t
              · rw [het]
                exact ⟨RN, hfind_t⟩
              · obtain ⟨m, hm⟩ := hpres e (List.mem_cons_of_mem _ he)
                exact ⟨m, by rw [hfind_ne e.1 het]; exact hm⟩)
            (by
              intro ns1 hns1
              rw [hfind_ne s fun hc => hts hc.symm, hnsf] at hns1
              obtain rfl : ns = ns1 := Option.some_inj.mp hns1
              exact hnscl)
            ⟨ns, by rw [hfind_ne s fun hc => hts hc.symm]; exact hnsf⟩
          refine ⟨esF, opnF, ?_, hAF, fun x => (hCF x).trans (hflag x)⟩
          simp only [solveRelax]
          rw [if_neg hcf, hnsf, hchildf]
          simp only [if_neg hg1, if_neg hg2, if_pos htch, if_pos himp, if_pos hchopen]
          exact heqF
        · -- touched but no improvement: nothing to do, the edge is already relaxed
          have hinv' : AInvP g startNode endNode N B (fun x e => x = s ∧ e ∈ rest) es opn :=
            { inv with
              closedRelaxed := fun x n hf hcl t' c' he' hcf' hne' => by
                by_cases hxs : x = s
                · rw [hxs] at hf he'
                  by_cases hec : (t', c') = (t, c)
                  · injection hec with h1 h2
                    subst h1
                    subst h2
                    rw [hnsf] at hf
                    obtain rfl : ns = n := Option.some_inj.mp hf
                    exact ⟨child, hchildf, htch, not_lt.mp himp⟩
                  · refine inv.closedRelaxed s n hf hcl t' c' he' hcf' ?_
                    rintro ⟨-, hmem⟩
                    rcases List.mem_cons.mp hmem with h | h
                    · exact hec h
                    · exact hne' ⟨hxs, h⟩
                · refine inv.closedRelaxed x n hf hcl t' c' he' hcf' ?_
                  rintro ⟨h, -⟩
                  exact hxs h }
          obtain ⟨es', opn', heq, hA, hC⟩ := solveRelax_spec hg s rest es opn hinv'
            (fun e he => hsub e (List.mem_cons_of_mem _ he))
            (fun e he => hpres e (List.mem_cons_of_mem _ he)) hnscl' ⟨ns, hnsf⟩
          refine ⟨es', opn', ?_, hA, hC⟩
          simp only [solveRelax]
          rw [if_neg hcf, hnsf, hchildf]
          simp only [if_neg hg1, if_neg hg2, if_pos htch, if_neg himp]
          exact heq
      · -- untouched target: fresh record, pushed onto the open queue
        have hcho : child.inOpen = false := by
          cases ho : child.inOpen with
          | false => rfl
          | true => exact absurd (Or.inl ho) htch
        have hccl : child.inClosed = false := by
          cases hc2 : child.inClosed with
          | false => rfl
          | true => exact absurd (Or.inr hc2) htch
        have htstart : t ≠ startNode := by
          intro hc
          subst hc
          obtain ⟨n0, hn0, htch0, -⟩ := inv.startTouched
          rw [hchildf] at hn0
          obtain rfl : child = n0 := Option.some_inj.mp hn0
          exact htch htch0
        set RN : PathNode :=
          { child with parent := some s, costFromStart := ns.costFromStart + c,
                       estToGoal := g.leastCostEstimate t endNode,
                       totalCost := calcTotalCost (ns.costFromStart + c)
                         (g.leastCostEstimate t endNode) } with hRN
        set RN2 : PathNode := { RN with inOpen := true } with hRN2
        set ES2 : Engine :=
          { es with pool := poolSet (poolSet es.pool t RN) t RN2,
                    lceCalls := es.lceCalls + 1 } with hES2
        have hfind_t : poolFind ES2.pool t = some RN2 := poolFind_poolSet_self _ _ _
        have hfind_ne : ∀ x, x ≠ t → poolFind ES2.pool x = poolFind es.pool x := by
          intro x hx
          show poolFind (poolSet (poolSet es.pool t RN) t RN2) x = poolFind es.pool x
          rw [poolFind_poolSet_ne _ _ _ _ hx, poolFind_poolSet_ne _ _ _ _ hx]
        have htc_ne : ∀ x, x ≠ t → tcOf ES2 x = tcOf es x := by
          intro x hx
          unfold tcOf
          rw [hfind_ne x hx]
        have htno : t ∉ opn := by
          intro hmem
          obtain ⟨m, hm, hmo⟩ := (inv.openMem t).mp hmem
          rw [hchildf] at hm
          obtain rfl : child = m := Option.some_inj.mp hm
          rw [hcho] at hmo
          exact Bool.noConfusion hmo
        set OPN2 : List State := openInsertList (tcOf ES2) t opn with hOPN2
        have hq_mem : ∀ x, x ∈ OPN2 ↔ (x = t ∨ x ∈ opn) := fun x => mem_openInsertList
        have hq_nodup : OPN2.Nodup :=
          (openInsertList_perm (tcOf ES2) t opn).nodup_iff.mpr
            (List.nodup_cons.mpr ⟨htno, inv.openNodup⟩)
        have hq_sorted : SortedBy (tcOf ES2) OPN2 := by
          refine sortedBy_openInsertList (sortedBy_congr ?_ inv.sorted)
          intro x hx
          have hxt : x ≠ t := fun hc => htno (hc ▸ hx)
          exact (htc_ne x hxt).symm
        have hcov : ∀ x n, poolFind es.pool x = some n → n.inClosed = true →
            ∀ t' c', (t', c') ∈ g.adjacentCost x → c' ≠ fltMax →
            ¬(x = s ∧ (t', c') ∈ rest) →
            (t' = t ∧ RN2.costFromStart ≤ n.costFromStart + c') ∨
            (t' ≠ t ∧ ∃ m, poolFind es.pool t' = some m ∧
              (m.inOpen = true ∨ m.inClosed = true) ∧
              m.costFromStart ≤ n.costFromStart + c') := by
          intro x n hn hcl t' c' he' hcf' hne'
          have hwit : (x = s ∧ (t', c') = (t, c)) ∨
              (∃ m, poolFind es.pool t' = some m ∧
                (m.inOpen = true ∨ m.inClosed = true) ∧
                m.costFromStart ≤ n.costFromStart + c') := by
            by_cases hxs : x = s
            · by_cases hec : (t', c') = (t, c)
              · exact Or.inl ⟨hxs, hec⟩
              · rw [hxs] at hn he'
                refine Or.inr (inv.closedRelaxed s n hn hcl t' c' he' hcf' ?_)
                rintro ⟨-, hmem⟩
                rcases List.mem_cons.mp hmem with h | h
                · exact hec h
                · exact hne' ⟨hxs, h⟩
            · refine Or.inr (inv.closedRelaxed x n hn hcl t' c' he' hcf' ?_)
              rintro ⟨h, -⟩
              exact hxs h
          rcases hwit with ⟨hxs, hec⟩ | ⟨m, hm, htchm, hlem⟩
          · injection hec with h1 h2
            subst h1
            subst h2
            left
            refine ⟨rfl, ?_⟩
            rw [hxs, hnsf] at hn
            obtain rfl : ns = n := Option.some_inj.mp hn
            exact le_refl _
          · by_cases ht't : t' = t
            · subst ht't
              rw [hchildf] at hm
              obtain rfl : child = m := Option.some_inj.mp hm
              exact absurd htchm htch
            · exact Or.inr ⟨ht't, m, hm, htchm, hlem⟩
        have hinv1 : AInvP g startNode endNode N B (fun x e => x = s ∧ e ∈ rest) ES2 OPN2 := by
          refine AInvP_update inv hchildf hfind_t hfind_ne rfl rfl rfl hccl rfl
            ⟨rfl, rfl⟩ rfl ⟨htot', hb2⟩ (hg.target s t c hedge) htstart ?_ hccl hcov
            hq_mem hq_nodup hq_sorted
          exact hchainT ES2.pool RN2 hfind_t hfind_ne rfl rfl hccl
        have hflag : ∀ x, closedFlag ES2 x = closedFlag es x := by
          intro x
          unfold closedFlag
          by_cases hxt : x = t
          · subst hxt
            rw [hfind_t, hchildf]
            rfl
          · rw [hfind_ne x hxt]
        obtain ⟨esF, opnF, heqF, hAF, hCF⟩ := solveRelax_spec hg s rest ES2 OPN2 hinv1
          (fun e he => hsub e (List.mem_cons_of_mem _ he))
          (by
            intro e he
            by_cases het : e.1 = t
            · rw [het]
              exact ⟨RN2, hfind_t⟩
            · obtain ⟨m, hm⟩ := hpres e (List.mem_cons_of_mem _ he)
              exact ⟨m, by rw [hfind_ne e.1 het]; exact hm⟩)
          (by
            intro ns1 hns1
            rw [hfind_ne s fun hc => hts hc.symm, hnsf] at hns1
            obtain rfl : ns = ns1 := Option.some_inj.mp hns1
            exact hnscl)
          ⟨ns, by rw [hfind_ne s fun hc => hts hc.symm]; exact hnsf⟩
        refine ⟨esF, opnF, ?_, hAF, fun x => (hCF x).trans (hflag x)⟩
        have hposflt : calcTotalCost (ns.costFromStart + c)
            (g.leastCostEstimate t endNode) < fltMax := by
          rw [htot']
          exact hb2
        simp only [solveRelax]
        rw [if_neg hcf, hnsf, hchildf]
        simp only [if_neg hg1, if_neg hg2, if_neg htch, if_pos hposflt]
        exact heqF

theorem closedCount_le (es : Engine) (N : ℕ) : closedCount es N ≤ N := by
  unfold closedCount
  calc ((List.range N).filter (closedFlag es)).length ≤ (List.range N).length :=
        List.length_filter_le _ _
    _ = N := List.length_range N

theorem closedCount_congr {es es' : Engine} {N : ℕ}
    (h : ∀ x, closedFlag es' x = closedFlag es x) :
    closedCount es' N = closedCount es N := by
  unfold closedCount
  rw [List.filter_congr (fun x _ => h x)]

theorem filter_flip {f f' : ℕ → Bool} {s : ℕ} :
    ∀ {l : List ℕ}, l.Nodup → s ∈ l → f s = false → f' s = true →
      (∀ x, x ≠ s → f' x = f x) →
      (l.filter f').length = (l.filter f).length + 1
  | [], _, hm, _, _, _ => absurd hm (List.not_mem_nil s)
  | a :: l, hnd, hm, hfs, hfs', hother => by
    rw [List.nodup_cons] at hnd
    rcases List.mem_cons.mp hm with rfl | hm'
    · have heq : l.filter f' = l.filter f := by
        refine List.filter_congr ?_
        intro x hx
        exact hother x (fun hc => hnd.1 (hc ▸ hx))
      rw [List.filter_cons, List.filter_cons, hfs, hfs', heq]
      simp
    · have has : a ≠ s := fun hc => hnd.1 (hc ▸ hm')
      have hrec := filter_flip hnd.2 hm' hfs hfs' hother
      rw [List.filter_cons, List.filter_cons, hother a has]
      rcases Bool.eq_false_or_eq_true (f a) with hfa | hfa
      · rw [hfa]
        simpa using hrec
      · rw [hfa]
        simpa using hrec

theorem closedCount_flip {es es' : Engine} {N : ℕ} {s : State} (hs : s < N)
    (hother : ∀ x, x ≠ s → closedFlag es' x = closedFlag es x)
    (hfs : closedFlag es s = false) (hfs' : closedFlag es' s = true) :
    closedCount es' N = closedCount es N + 1 := by
  unfold closedCount
  exact filter_flip (List.nodup_range N) (List.mem_range.mpr hs) hfs hfs' hother

theorem getLast?_cons_of_ne_nil {α : Type} {l : List α} {a : α} (h : l ≠ []) :
    (a :: l).getLast? = l.getLast? := by
  cases l with
  | nil => exact absurd rfl h
  | cons b t => simp [List.getLast?]

/-- The path-rebuilding expression of `MicroPather::GoalReached`, applied to
the reversed parent chain, recovers exactly the chain. -/
theorem reconstruct_eq {l : List State} {a b : State} (hh : l.head? = some a)
    (hl : l.getLast? = some b) (h2 : 2 ≤ l.length) :
    (if l.reverse.length < 3 then [a, b]
     else a :: ((l.reverse.drop 1).dropLast).reverse ++ [b]) = l := by
  rcases l with _ | ⟨a0, l2⟩
  · simp at h2
  · obtain rfl : a0 = a := by simpa using hh
    have hne2 : l2 ≠ [] := by
      intro hc
      rw [hc] at h2
      simp at h2
    have hlast2 : l2.getLast? = some b := by
      rw [← getLast?_cons_of_ne_nil hne2]
      exact hl
    have hl2 : l2 = l2.dropLast ++ [b] := by
      have h3 := List.dropLast_append_getLast hne2
      have h4 : l2.getLast hne2 = b := by
        have h5 := List.getLast?_eq_getLast l2 hne2
        rw [hlast2] at h5
        exact (Option.some_inj.mp h5).symm
      rw [← h4]
      exact h3.symm
    rcases hmid : l2.dropLast with _ | ⟨m0, mid'⟩
    · rw [hmid] at hl2
      simp only [List.nil_append] at hl2
      subst hl2
      rw [if_pos (by simp)]
    · rw [hmid] at hl2
      subst hl2
      rw [if_neg (by simp)]
      have hrev : (a0 :: ((m0 :: mid') ++ [b])).reverse =
          b :: ((m0 :: mid').reverse ++ [a0]) := by
        simp
      rw [hrev]
      simp only [List.drop_one, List.tail_cons]
      rw [List.dropLast_concat, List.reverse_reverse]
      simp

theorem closedFlag_true {es : Engine} {x : State} :
    closedFlag es x = true ↔ ∃ n, poolFind es.pool x = some n ∧ n.inClosed = true := by
  unfold closedFlag
  cases h : poolFind es.pool x with
  | none => simp
  | some n => simp [h]

theorem closedFlag_transfer {es es' : Engine}
    (fwd : ∀ x m0, poolFind es.pool x = some m0 →
      ∃ m, poolFind es'.pool x = some m ∧ m.inClosed = m0.inClosed)
    (bwd : ∀ x m, poolFind es'.pool x = some m →
      (∃ m0, poolFind es.pool x = some m0) ∨ m.inClosed = false) :
    ∀ x, closedFlag es' x = closedFlag es x := by
  intro x
  cases h : poolFind es.pool x with
  | some m0 =>
    obtain ⟨m, hm, hc⟩ := fwd x m0 h
    unfold closedFlag
    rw [h, hm]
    simp [hc]
  | none =>
    cases h' : poolFind es'.pool x with
    | none =>
      unfold closedFlag
      rw [h, h']
    | some m =>
      rcases bwd x m h' with ⟨m0, hm0⟩ | hmf
      · rw [h] at hm0
        exact Option.noConfusion hm0
      · unfold closedFlag
        rw [h, h']
        simp [hmf]

/-- `MicroPather::GoalReached` with caching disabled: the rebuilt path is
exactly the parent chain and the engine is returned untouched. -/
theorem goalReached_cacheless {g : Graph} {hashFn : State → ℕ} {es : Engine}
    {node startNode endNode : State} {l : List State}
    (hpc : es.pathCache = none)
    (hparent : parentChain es.pool node (es.pool.length + 1) = some l.reverse)
    (hh : l.head? = some startNode) (hl : l.getLast? = some endNode)
    (h2 : 2 ≤ l.length) :
    goalReached g hashFn es node startNode endNode = some (es, l) := by
  unfold goalReached
  rw [hparent]
  simp only []
  rw [hpc]
  simp only []
  rw [reconstruct_eq hh hl h2]

/-- Closing the popped head of the open queue re-establishes the loop
invariant, with all its pending edges excluded from the closed-relaxation
requirement. -/
theorem AInvP_close {g : Graph} {startNode endNode : State} {N : ℕ} {B : ℚ}
    {es es' : Engine} {s : State} {rest : List State} {ns : PathNode}
    (inv : AInv g startNode endNode N B es (s :: rest))
    (hs : poolFind es.pool s = some ns) (hopen : ns.inOpen = true)
    (hmin : IsMinDist g startNode s ns.costFromStart)
    (hp_s : poolFind es'.pool s = some { ns with inOpen := false, inClosed := true })
    (hp_ne : ∀ x, x ≠ s → poolFind es'.pool x = poolFind es.pool x)
    (hfr : es'.frame = es.frame) (hpc : es'.pathCache = es.pathCache) :
    AInvP g startNode endNode N B (fun x e => x = s ∧ e ∈ g.adjacentCost s) es' rest := by
  have hncl : ns.inClosed = false := inv.notBoth s ns hs hopen
  have hsrest : s ∉ rest := (List.nodup_cons.mp inv.openNodup).1
  refine ⟨?_, ?_, ?_, ?_, ?_, ?_, ?_, ?_, ?_, ?_, ?_, ?_, ?_, ?_⟩
  · rw [hpc]
    exact inv.cacheNone
  · intro x n hn
    rw [hfr]
    by_cases hxs : x = s
    · subst hxs
      rw [hp_s] at hn
      obtain rfl := Option.some_inj.mp hn
      exact inv.frameEq x ns hs
    · rw [hp_ne x hxs] at hn
      exact inv.frameEq x n hn
  · intro x n hn ho
    by_cases hxs : x = s
    · subst hxs
      rw [hp_s] at hn
      obtain rfl := Option.some_inj.mp hn
      exact Bool.noConfusion ho
    · rw [hp_ne x hxs] at hn
      exact inv.notBoth x n hn ho
  · intro x
    constructor
    · intro hx
      have hxs : x ≠ s := fun hc => hsrest (hc ▸ hx)
      obtain ⟨n, hn, ho⟩ := (inv.openMem x).mp (List.mem_cons_of_mem s hx)
      exact ⟨n, by rw [hp_ne x hxs]; exact hn, ho⟩
    · rintro ⟨n, hn, ho⟩
      by_cases hxs : x = s
      · subst hxs
        rw [hp_s] at hn
        obtain rfl := Option.some_inj.mp hn
        exact Bool.noConfusion ho
      · rw [hp_ne x hxs] at hn
        rcases List.mem_cons.mp ((inv.openMem x).mpr ⟨n, hn, ho⟩) with hc | hx
        · exact absurd hc hxs
        · exact hx
  · exact (List.nodup_cons.mp inv.openNodup).2
  · refine sortedBy_congr ?_ (List.pairwise_cons.mp inv.sorted).2
    intro x hx
    have hxs : x ≠ s := fun hc => hsrest (hc ▸ hx)
    unfold tcOf
    rw [hp_ne x hxs]
  · obtain ⟨n, hn, htch, hc0⟩ := inv.startTouched
    by_cases hss : startNode = s
    · rw [hss, hs] at hn
      obtain rfl := Option.some_inj.mp hn
      exact ⟨{ ns with inOpen := false, inClosed := true }, by rw [hss]; exact hp_s,
        Or.inr rfl, hc0⟩
    · exact ⟨n, by rw [hp_ne startNode hss]; exact hn, htch, hc0⟩
  · intro x n hn htch
    by_cases hxs : x = s
    · subst hxs
      exact inv.touchedLt x ns hs (Or.inl hopen)
    · rw [hp_ne x hxs] at hn
      exact inv.touchedLt x n hn htch
  · intro x n hn htch
    by_cases hxs : x = s
    · subst hxs
      rw [hp_s] at hn
      obtain rfl := Option.some_inj.mp hn
      exact inv.est x ns hs (Or.inl hopen)
    · rw [hp_ne x hxs] at hn
      exact inv.est x n hn htch
  · intro x n hn htch
    by_cases hxs : x = s
    · subst hxs
      rw [hp_s] at hn
      obtain rfl := Option.some_inj.mp hn
      exact inv.tct x ns hs (Or.inl hopen)
    · rw [hp_ne x hxs] at hn
      exact inv.tct x n hn htch
  · intro x n hn htch
    have htrans : ∀ y (hy : Chain B g es.pool startNode y
        ((poolFind es.pool y).elim 0 PathNode.costFromStart) [] → True), True := fun _ _ => trivial
    clear htrans
    by_cases hxs : x = s
    · subst hxs
      rw [hp_s] at hn
      obtain rfl := Option.some_inj.mp hn
      obtain ⟨l, hch⟩ := inv.chainEx x ns hs (Or.inl hopen)
      refine ⟨l, chain_congr hch ?_⟩
      intro y hy ny hny
      by_cases hys : y = x
      · subst hys
        rw [hs] at hny
        obtain rfl := Option.some_inj.mp hny
        exact ⟨{ ns with inOpen := false, inClosed := true }, hp_s, rfl, rfl, fun _ => rfl⟩
      · exact ⟨ny, by rw [hp_ne y hys]; exact hny, rfl, rfl, fun hcc => hcc⟩
    · rw [hp_ne x hxs] at hn
      obtain ⟨l, hch⟩ := inv.chainEx x n hn htch
      refine ⟨l, chain_congr hch ?_⟩
      intro y hy ny hny
      by_cases hys : y = s
      · exfalso
        subst hys
        rcases chain_mem_closed_or_last hch y hy with hc | ⟨nt, hnt, hntc⟩
        · exact hxs hc.symm
        · rw [hs] at hnt
          obtain rfl := Option.some_inj.mp hnt
          rw [hncl] at hntc
          exact Bool.noConfusion hntc
      · exact ⟨ny, by rw [hp_ne y hys]; exact hny, rfl, rfl, fun hcc => hcc⟩
  · intro x n hn hncl'
    by_cases hxs : x = s
    · subst hxs
      rw [hp_s] at hn
      obtain rfl := Option.some_inj.mp hn
      exact Bool.noConfusion hncl'
    · rw [hp_ne x hxs] at hn
      exact inv.cacheIdx x n hn hncl'
  · intro x n hn hcl
    by_cases hxs : x = s
    · subst hxs
      rw [hp_s] at hn
      obtain rfl := Option.some_inj.mp hn
      exact hmin
    · rw [hp_ne x hxs] at hn
      exact inv.closedMin x n hn hcl
  · intro x n hn hcl t c he hcf hne
    by_cases hxs : x = s
    · exact absurd ⟨hxs, hxs ▸ he⟩ hne
    · rw [hp_ne x hxs] at hn
      obtain ⟨m, hm, htch, hle⟩ := inv.closedRelaxed x n hn hcl t c he hcf (fun h => h)
      by_cases hts : t = s
      · subst hts
        rw [hs] at hm
        obtain rfl := Option.some_inj.mp hm
        exact ⟨{ ns with inOpen := false, inClosed := true }, hp_s, Or.inr rfl, hle⟩
      · exact ⟨m, by rw [hp_ne t hts]; exact hm, htch, hle⟩

/-- The main loop of `MicroPather::Solve`, run from any state satisfying the
loop invariant with enough fuel, reaches the goal and returns a minimum-cost
path (the A* exactness argument under a consistent heuristic). -/
theorem solveLoop_spec {g : Graph} {startNode endNode : State} {N : ℕ} {B : ℚ}
    {hashFn : State → ℕ} (hg : GHyp g endNode N B) (hse : startNode ≠ endNode)
    (hreach : ∃ w, PathTo g startNode endNode w) :
    ∀ (fuel : ℕ) (es : Engine) (opn : List State),
      AInv g startNode endNode N B es opn →
      closedFlag es endNode = false →
      N + 1 ≤ closedCount es N + fuel →
      ∃ es' p w, solveLoop g hashFn startNode endNode es opn fuel = some (es', p) ∧
        ListPath g p w ∧ p.head? = some startNode ∧ p.getLast? = some endNode ∧
        IsMinDist g startNode endNode w := by
  intro fuel
  induction fuel with
  | zero =>
    intro es opn inv hend hfc
    have hcc := closedCount_le es N
    omega
  | succ f ih =>
    intro es opn inv hend hfc
    rcases opn with _ | ⟨s, rest⟩
    · exfalso
      obtain ⟨w, hw⟩ := hreach
      rcases pathCover hg inv endNode w hw with ⟨x, m, hx, ho, -⟩ | ⟨m, hv, htch, -⟩
      · exact absurd ((inv.openMem x).mpr ⟨m, hx, ho⟩) (List.not_mem_nil x)
      · rcases htch with ho | hc
        · exact absurd ((inv.openMem endNode).mpr ⟨m, hv, ho⟩) (List.not_mem_nil endNode)
        · rw [closedFlag_true.mpr ⟨m, hv, hc⟩] at hend
          exact Bool.noConfusion hend
    · obtain ⟨ns, hnsf, hopen⟩ : ∃ n, poolFind es.pool s = some n ∧ n.inOpen = true :=
        (inv.openMem s).mp (List.mem_cons_self s rest)
      have hncl : ns.inClosed = false := inv.notBoth s ns hnsf hopen
      have hcond : ¬(ns.inClosed = true ∨ ¬ns.inOpen = true) := by
        rintro (h | h)
        · rw [hncl] at h
          exact Bool.noConfusion h
        · exact h hopen
      have hmin := popMin hg inv hnsf hopen
      by_cases hsend : s = endNode
      · -- the goal was popped: reconstruct the path
        obtain ⟨l, hch⟩ := inv.chainEx s ns hnsf (Or.inl hopen)
        have hch1 : Chain B g (poolSet es.pool s { ns with inOpen := false })
            startNode s ns.costFromStart l := by
          refine chain_congr hch ?_
          intro y hy ny hny
          by_cases hys : y = s
          · subst hys
            rw [hnsf] at hny
            obtain rfl := Option.some_inj.mp hny
            exact ⟨{ ns with inOpen := false }, poolFind_poolSet_self _ _ _, rfl, rfl,
              fun hcc => hcc⟩
          · exact ⟨ny, by rw [poolFind_poolSet_ne _ _ _ _ hys]; exact hny, rfl, rfl,
              fun hcc => hcc⟩
        have hh : l.head? = some startNode := chain_head hch
        have hlast : l.getLast? = some s := chain_last hch
        have hlaste : l.getLast? = some endNode := hsend ▸ hlast
        have hmine : IsMinDist g startNode endNode ns.costFromStart := hsend ▸ hmin
        have h2 : 2 ≤ l.length := by
          rcases l with _ | ⟨a, l'⟩
          · exact absurd rfl (chain_ne_nil hch)
          · rcases l' with _ | ⟨b, l''⟩
            · exfalso
              have h1 : a = startNode := by simpa using hh
              have h1' : a = s := by simpa using hlast
              exact hse (h1 ▸ (h1'.trans hsend))
            · simp only [List.length_cons]
              omega
        have hlen : l.length ≤ (poolSet es.pool s { ns with inOpen := false }).length + 1 := by
          have := nodup_found_length_le (chain_nodup hch1) (chain_mem_found hch1)
          omega
        have hparent := parentChain_of_chain hch1
          ((poolSet es.pool s { ns with inOpen := false }).length + 1) hlen
        refine ⟨{ es with pool := poolSet es.pool s { ns with inOpen := false } }, l,
          ns.costFromStart, ?_, chain_listPath hch, hh, hlaste, hmine⟩
        simp only [solveLoop]
        rw [hnsf]
        simp only []
        rw [if_neg hcond, if_pos hsend]
        exact goalReached_cacheless inv.cacheNone hparent hh hlaste h2
      · -- expand s: close it, create its neighbors, relax its edges, recurse
        have hslt : s < N := inv.touchedLt s ns hnsf (Or.inl hopen)
        obtain ⟨es3, hgn_eq, hfr3, hpc3, hfwd, hbwd, hpresent, hfr3all⟩ :=
          @getNodeNeighbors_client g { es with pool := poolSet (poolSet es.pool s { ns with inOpen := false }) s { ns with inOpen := false, inClosed := true } } s { ns with inOpen := false, inClosed := true }
            (poolFind_poolSet_self _ _ _)
            (inv.cacheIdx s ns hnsf hncl).2 (inv.cacheIdx s ns hnsf hncl).1
            (by
              intro x m h
              by_cases hxs : x = s
              · subst hxs
                rw [poolFind_poolSet_self] at h
                obtain rfl := Option.some_inj.mp h
                exact inv.frameEq x ns hnsf
              · rw [poolFind_poolSet_ne _ _ _ _ hxs,
                  poolFind_poolSet_ne _ _ _ _ hxs] at h
                exact inv.frameEq x m h)
        have hinv2 : AInvP g startNode endNode N B
            (fun x e => x = s ∧ e ∈ g.adjacentCost s)
            { es with pool := poolSet (poolSet es.pool s { ns with inOpen := false }) s { ns with inOpen := false, inClosed := true } } rest :=
          AInvP_close inv hnsf hopen hmin (poolFind_poolSet_self _ _ _)
            (fun x hxs => by
              rw [poolFind_poolSet_ne _ _ _ _ hxs, poolFind_poolSet_ne _ _ _ _ hxs])
            rfl rfl
        have hinv3 : AInvP g startNode endNode N B
            (fun x e => x = s ∧ e ∈ g.adjacentCost s) es3 rest := by
          refine AInvP_transfer hinv2 hfr3 hpc3 ?_ ?_
          · intro x m0 h
            obtain ⟨m, hm, h1, h2, h3, h4, h5, h6, h7, hmeta⟩ := hfwd x m0 h
            refine ⟨m, hm, h1, h2, h3, h4, h5, h6, h7, ?_⟩
            intro hncl0
            by_cases hxs : x = s
            · exfalso
              subst hxs
              rw [poolFind_poolSet_self] at h
              obtain rfl := Option.some_inj.mp h
              exact Bool.noConfusion hncl0
            · exact hmeta hxs
          · exact hbwd
        have hclose3 : ∀ ns' : PathNode, poolFind es3.pool s = some ns' →
            ns'.inClosed = true := by
          intro ns' hns'
          obtain ⟨m, hm, -, -, -, -, -, hcl, -⟩ :=
            hfwd s { ns with inOpen := false, inClosed := true }
              (poolFind_poolSet_self _ _ _)
          rw [hns'] at hm
          obtain rfl := Option.some_inj.mp hm
          exact hcl
        have hsome3 : ∃ ns' : PathNode, poolFind es3.pool s = some ns' := by
          obtain ⟨m, hm, -⟩ := hfwd s { ns with inOpen := false, inClosed := true }
            (poolFind_poolSet_self _ _ _)
          exact ⟨m, hm⟩
        obtain ⟨es4, opn4, hrelax, hA4, hC4⟩ :=
          solveRelax_spec hg s (g.adjacentCost s) es3 rest hinv3
            (fun e he => he) hpresent hclose3 hsome3
        -- closed-set bookkeeping for the fuel measure
        have hflag_es : closedFlag es s = false := by
          unfold closedFlag
          rw [hnsf]
          simp [hncl]
        have hflag2 : closedFlag { es with pool := poolSet (poolSet es.pool s { ns with inOpen := false }) s { ns with inOpen := false, inClosed := true } } s = true := by
          unfold closedFlag
          rw [poolFind_poolSet_self]
          simp
        have hother2 : ∀ x, x ≠ s → closedFlag { es with pool := poolSet (poolSet es.pool s { ns with inOpen := false }) s { ns with inOpen := false, inClosed := true } } x = closedFlag es x := by
          intro x hxs
          unfold closedFlag
          rw [poolFind_poolSet_ne _ _ _ _ hxs, poolFind_poolSet_ne _ _ _ _ hxs]
        have hflags3 : ∀ x, closedFlag es3 x = closedFlag { es with pool := poolSet (poolSet es.pool s { ns with inOpen := false }) s { ns with inOpen := false, inClosed := true } } x := by
          refine closedFlag_transfer ?_ ?_
          · intro x m0 h
            obtain ⟨m, hm, -, -, -, -, -, hcl, -⟩ := hfwd x m0 h
            exact ⟨m, hm, hcl⟩
          · intro x m h
            rcases hbwd x m h with h' | h'
            · exact Or.inl h'
            · exact Or.inr h'.2.1
        have hcnt2 : closedCount { es with pool := poolSet (poolSet es.pool s { ns with inOpen := false }) s { ns with inOpen := false, inClosed := true } } N = closedCount es N + 1 :=
          closedCount_flip hslt hother2 hflag_es hflag2
        have hcnt4 : closedCount es4 N = closedCount es N + 1 := by
          rw [closedCount_congr hC4, closedCount_congr hflags3, hcnt2]
        have hend4 : closedFlag es4 endNode = false := by
          rw [hC4, hflags3, hother2 endNode (fun hc => hsend hc.symm), hend]
        obtain ⟨es5, p, w, heq5, hlp, hhd, hlst, hmd⟩ := ih es4 opn4 hA4 hend4 (by omega)
        refine ⟨es5, p, w, ?_, hlp, hhd, hlst, hmd⟩
        simp only [solveLoop]
        rw [hnsf]
        simp only []
        rw [if_neg hcond, if_neg hsend]
        rw [hgn_eq]
        simp only []
        rw [hrelax]
        simp only []
        exact heq5

/-- The loop invariant at entry: a single freshly seeded open start record. -/
theorem AInv_init {g : Graph} {startNode endNode : State} {N : ℕ} {B : ℚ}
    {es2 : Engine} {n0 : PathNode}
    (hpool2 : es2.pool = [(startNode, n0)]) (hpc2 : es2.pathCache = none)
    (hfrm : n0.frame = es2.frame)
    (hopen : n0.inOpen = true) (hncl : n0.inClosed = false)
    (hcfs : n0.costFromStart = 0)
    (hest : n0.estToGoal = g.leastCostEstimate startNode endNode)
    (htot : n0.totalCost = g.leastCostEstimate startNode endNode)
    (hflt : g.leastCostEstimate startNode endNode < fltMax)
    (hpar : n0.parent = none)
    (hna : n0.numAdjacent = none) (hcix : n0.cacheIndex = none)
    (hstart : startNode < N) :
    AInv g startNode endNode N B es2 [startNode] := by
  have hfind : ∀ x, poolFind es2.pool x = if startNode = x then some n0 else none := by
    intro x
    rw [hpool2]
    rfl
  have hfs : poolFind es2.pool startNode = some n0 := by
    rw [hfind startNode, if_pos rfl]
  refine ⟨hpc2, ?_, ?_, ?_, ?_, ?_, ?_, ?_, ?_, ?_, ?_, ?_, ?_, ?_⟩
  · intro x n hn
    rw [hfind x] at hn
    by_cases hx : startNode = x
    · rw [if_pos hx] at hn
      obtain rfl := Option.some_inj.mp hn
      exact hfrm
    · rw [if_neg hx] at hn
      exact Option.noConfusion hn
  · intro x n hn ho
    rw [hfind x] at hn
    by_cases hx : startNode = x
    · rw [if_pos hx] at hn
      obtain rfl := Option.some_inj.mp hn
      exact hncl
    · rw [if_neg hx] at hn
      exact Option.noConfusion hn
  · intro x
    constructor
    · intro hx
      obtain rfl := List.mem_singleton.mp hx
      exact ⟨n0, hfs, hopen⟩
    · rintro ⟨n, hn, ho⟩
      rw [hfind x] at hn
      by_cases hx : startNode = x
      · rw [hx]
        exact List.mem_singleton.mpr rfl
      · rw [if_neg hx] at hn
        exact Option.noConfusion hn
  · exact List.nodup_singleton startNode
  · exact List.pairwise_singleton _ startNode
  · exact ⟨n0, hfs, Or.inl hopen, hcfs⟩
  · intro x n hn htch
    rw [hfind x] at hn
    by_cases hx : startNode = x
    · rw [← hx]
      exact hstart
    · rw [if_neg hx] at hn
      exact Option.noConfusion hn
  · intro x n hn htch
    rw [hfind x] at hn
    by_cases hx : startNode = x
    · rw [if_pos hx] at hn
      obtain rfl := Option.some_inj.mp hn
      rw [hest, hx]
    · rw [if_neg hx] at hn
      exact Option.noConfusion hn
  · intro x n hn htch
    rw [hfind x] at hn
    by_cases hx : startNode = x
    · rw [if_pos hx] at hn
      obtain rfl := Option.some_inj.mp hn
      rw [htot, hcfs, hest]
      constructor
      · ring
      · simpa using hflt
    · rw [if_neg hx] at hn
      exact Option.noConfusion hn
  · intro x n hn htch
    rw [hfind x] at hn
    by_cases hx : startNode = x
    · rw [if_pos hx] at hn
      obtain rfl := Option.some_inj.mp hn
      rw [← hx, hcfs]
      exact ⟨[startNode], Chain.base hfs hpar hcfs⟩
    · rw [if_neg hx] at hn
      exact Option.noConfusion hn
  · intro x n hn hnc
    rw [hfind x] at hn
    by_cases hx : startNode = x
    · rw [if_pos hx] at hn
      obtain rfl := Option.some_inj.mp hn
      exact ⟨hna, hcix⟩
    · rw [if_neg hx] at hn
      exact Option.noConfusion hn
  · intro x n hn hcl
    rw [hfind x] at hn
    by_cases hx : startNode = x
    · rw [if_pos hx] at hn
      obtain rfl := Option.some_inj.mp hn
      rw [hcl] at hncl
      exact Bool.noConfusion hncl
    · rw [if_neg hx] at hn
      exact Option.noConfusion hn
  · intro x n hn hcl
    rw [hfind x] at hn
    by_cases hx : startNode = x
    · rw [if_pos hx] at hn
      obtain rfl := Option.some_inj.mp hn
      rw [hcl] at hncl
      exact Bool.noConfusion hncl
    · rw [if_neg hx] at hn
      exact Option.noConfusion hn

/-- The search phase of `MicroPather::Solve` on a fresh cacheless engine
finds a minimum-cost path (A* exactness under a consistent heuristic). -/
theorem solveSearch_spec {g : Graph} {startNode endNode : State} {N : ℕ} {B : ℚ}
    {hashFn : State → ℕ} {es : Engine} {fuel : ℕ}
    (hg : GHyp g endNode N B) (hse : startNode ≠ endNode)
    (hreach : ∃ w, PathTo g startNode endNode w) (hstart : startNode < N)
    (hpool : es.pool = []) (hpc : es.pathCache = none) (hfuel : N + 1 ≤ fuel) :
    ∃ es' p w, solveSearch g hashFn es startNode endNode fuel = some (es', p) ∧
      ListPath g p w ∧ p.head? = some startNode ∧ p.getLast? = some endNode ∧
      IsMinDist g startNode endNode w := by
  have h0nn : 0 ≤ g.leastCostEstimate startNode endNode := (hg.hle startNode).1
  have hh0flt : g.leastCostEstimate startNode endNode < fltMax := by
    have h1 := (hg.hle startNode).2
    have h2 : 0 ≤ B * (N : ℚ) := mul_nonneg hg.hB (by positivity)
    have h3 := hg.flt
    linarith
  have h0pos : (0 : ℚ) < fltMax := by norm_num [fltMax]
  have hctc : calcTotalCost 0 (g.leastCostEstimate startNode endNode) =
      g.leastCostEstimate startNode endNode := by
    unfold calcTotalCost
    rw [if_pos ⟨h0pos, hh0flt⟩]
    ring
  have hAinit : AInv g startNode endNode N B
      { es with pool := [(startNode, { pathNodeInit (pathNodeClear startNode) (es.frame + 1) startNode 0 (g.leastCostEstimate startNode endNode) none with inOpen := true })], frame := es.frame + 1, lceCalls := es.lceCalls + 1 }
      [startNode] := by
    refine AInv_init rfl hpc rfl rfl rfl rfl rfl ?_ hh0flt rfl ?_ ?_ hstart
    · show calcTotalCost 0 (g.leastCostEstimate startNode endNode) =
        g.leastCostEstimate startNode endNode
      exact hctc
    · show (pathNodeClear startNode).numAdjacent = none
      rfl
    · show (pathNodeClear startNode).cacheIndex = none
      rfl
  have hend2 : closedFlag { es with pool := [(startNode, { pathNodeInit (pathNodeClear startNode) (es.frame + 1) startNode 0 (g.leastCostEstimate startNode endNode) none with inOpen := true })], frame := es.frame + 1, lceCalls := es.lceCalls + 1 } endNode = false := by
    unfold closedFlag
    have : poolFind [(startNode, { pathNodeInit (pathNodeClear startNode) (es.frame + 1) startNode 0 (g.leastCostEstimate startNode endNode) none with inOpen := true })] endNode = none := by
      show (if startNode = endNode then _ else (none : Option PathNode)) = none
      rw [if_neg hse]
    rw [this]
    rfl
  have hcnt2 : N + 1 ≤ closedCount { es with pool := [(startNode, { pathNodeInit (pathNodeClear startNode) (es.frame + 1) startNode 0 (g.leastCostEstimate startNode endNode) none with inOpen := true })], frame := es.frame + 1, lceCalls := es.lceCalls + 1 } N + fuel := by
    omega
  obtain ⟨es', p, w, heq, hlp, hhd, hlst, hmd⟩ :=
    solveLoop_spec hg hse hreach fuel _ [startNode] hAinit hend2 hcnt2
  refine ⟨es', p, w, ?_, hlp, hhd, hlst, hmd⟩
  unfold solveSearch
  simp only []
  have hnone' : poolFind ({ es with frame := es.frame + 1, lceCalls := es.lceCalls + 1 } : Engine).pool startNode = none := by
    show poolFind es.pool startNode = none
    rw [hpool]
    rfl
  rw [getPathNode_absent hnone']
  simp only []
  have hseedtot : (pathNodeInit (pathNodeClear startNode) (es.frame + 1) startNode 0 (g.leastCostEstimate startNode endNode) none).totalCost < fltMax := by
    show calcTotalCost 0 (g.leastCostEstimate startNode endNode) < fltMax
    rw [hctc]
    exact hh0flt
  split_ifs with h1 h2
  · exfalso
    rcases h1 with h1 | h1
    · exact Bool.noConfusion h1
    · exact Bool.noConfusion h1
  · rw [hpool]
    have hps : poolSet (poolSet ([] : Pool) startNode (pathNodeInit (pathNodeClear startNode) (es.frame + 1) startNode 0 (g.leastCostEstimate startNode endNode) none)) startNode { pathNodeInit (pathNodeClear startNode) (es.frame + 1) startNode 0 (g.leastCostEstimate startNode endNode) none with inOpen := true } = [(startNode, { pathNodeInit (pathNodeClear startNode) (es.frame + 1) startNode 0 (g.leastCostEstimate startNode endNode) none with inOpen := true })] := by
      simp [poolSet]
    rw [hps]
    exact heq

/-- C2 (amended): on a fresh cacheless engine, for a client graph with
nonnegative bounded costs, no finite self-edges, and an admissible AND
consistent heuristic, with the end reachable and enough fuel,
`MicroPather::Solve` returns a start-to-end path of exactly the minimum
cost.  (The unamended claim, consistency not required, is refuted by
`c2_admissible_heuristic_suboptimal_path`.) -/
theorem c2_consistent_heuristic_optimal {g : Graph} {startNode endNode : State}
    {N : ℕ} {B : ℚ} {hashFn : State → ℕ} {es : Engine} {fuel : ℕ}
    (hg : GHyp g endNode N B) (hse : startNode ≠ endNode)
    (hreach : ∃ w, PathTo g startNode endNode w) (hstart : startNode < N)
    (hpool : es.pool = []) (hpc : es.pathCache = none) (hfuel : N + 1 ≤ fuel) :
    ∃ es' p w, solve g hashFn es startNode endNode fuel = some (es', p) ∧
      ListPath g p w ∧ p.head? = some startNode ∧ p.getLast? = some endNode ∧
      IsMinDist g startNode endNode w := by
  obtain ⟨es', p, w, heq, h1, h2, h3, h4⟩ :=
    solveSearch_spec hg hse hreach hstart hpool hpc hfuel
  refine ⟨es', p, w, ?_, h1, h2, h3, h4⟩
  unfold solve
  rw [if_neg hse, hpc]
  exact heq

/-- Witness: on the 4-chain graph with the zero (hence consistent) heuristic,
the amended optimality theorem applies with concrete bounds. -/
theorem c2_consistent_heuristic_optimal_witness :
    (1 : State) ≠ 4 ∧ (1 : State) < 5 ∧ (mkEngine 4 1 false).pool = [] ∧
    (∃ es' p w, solve c4g hf0 (mkEngine 4 1 false) 1 4 6 = some (es', p) ∧
      ListPath c4g p w ∧ p.head? = some 1 ∧ p.getLast? = some 4 ∧
      IsMinDist c4g 1 4 w) := by
  have hedge : ∀ s t c, (t, c) ∈ c4g.adjacentCost s → c = 1 ∧ t < 5 := by
    intro s t c h
    simp only [c4g] at h
    unfold c4adj at h
    split_ifs at h <;> simp at h
    · exact ⟨h.2, by rw [h.1]; norm_num⟩
    · exact ⟨h.2, by rw [h.1]; norm_num⟩
    · exact ⟨h.2, by rw [h.1]; norm_num⟩
  have hG : GHyp c4g 4 5 1 := by
    refine ⟨by norm_num, ?_, ?_, ?_, ?_, ?_, ?_⟩
    · intro s t c h
      right
      constructor
      · rw [(hedge s t c h).1]
        norm_num
      · rw [(hedge s t c h).1]
    · intro s
      constructor
      · show (0 : ℚ) ≤ 0
        norm_num
      · show (0 : ℚ) ≤ 1
        norm_num
    · intro s t c h hcf
      show (0 : ℚ) ≤ c + 0
      rw [(hedge s t c h).1]
      norm_num
    · intro s c h
      simp only [c4g] at h
      unfold c4adj at h
      split_ifs at h with h1 h2 h3
      · subst h1
        simp at h
      · subst h2
        simp at h
      · subst h3
        simp at h
      · simp at h
    · exact fun s t c h => (hedge s t c h).2
    · show (1 : ℚ) * ((5 : ℕ) : ℚ) + 1 < fltMax
      norm_num [fltMax]
  have hne1 : (1 : ℚ) ≠ fltMax := by norm_num [fltMax]
  have e1 : ((2 : State), (1 : ℚ)) ∈ c4g.adjacentCost 1 := by simp [c4g, c4adj]
  have e2 : ((3 : State), (1 : ℚ)) ∈ c4g.adjacentCost 2 := by simp [c4g, c4adj]
  have e3 : ((4 : State), (1 : ℚ)) ∈ c4g.adjacentCost 3 := by simp [c4g, c4adj]
  have hreach : ∃ w, PathTo c4g 1 4 w :=
    ⟨((0 + 1) + 1) + 1,
      PathTo.tail (PathTo.tail (PathTo.tail (PathTo.refl 1) e1 hne1) e2 hne1) e3 hne1⟩
  refine ⟨by decide, by decide, rfl, ?_⟩
  exact @c2_consistent_heuristic_optimal c4g 1 4 5 1 hf0 (mkEngine 4 1 false) 6
    hG (by decide) hreach (by decide) rfl rfl (by decide)

/-- Budgeted path cover: every client path meets an open record of no larger
stored cost, or its endpoint is touched at no larger stored cost, or the path
already exceeds the budget. -/
theorem nPathCover {g : Graph} {startState : State} {N : ℕ} {B maxCost : ℚ}
    {es : Engine} {opn closedL : List State}
    (hg : NHyp g N B) (inv : NInv g startState N B maxCost es opn closedL) :
    ∀ v w, PathTo g startState v w →
      (∃ x m, poolFind es.pool x = some m ∧ m.inOpen = true ∧ m.costFromStart ≤ w) ∨
      (∃ m, poolFind es.pool v = some m ∧ (m.inOpen = true ∨ m.inClosed = true) ∧
        m.costFromStart ≤ w) ∨
      maxCost < w := by
  intro v w hpath
  induction hpath with
  | refl =>
    obtain ⟨n, hn, htch, hcfs⟩ := inv.startTouched
    exact Or.inr (Or.inl ⟨n, hn, htch, le_of_eq hcfs⟩)
  | tail hp hedge hcf ih =>
    rename_i u v' w' c
    have hc0 := (hg.cost u v' c hedge).1
    rcases ih with ⟨x, m, hx, ho, hle⟩ | ⟨m, hu, htch, hle⟩ | hgt
    · exact Or.inl ⟨x, m, hx, ho, by linarith⟩
    · rcases htch with ho | hcl
      · exact Or.inl ⟨u, m, hu, ho, by linarith⟩
      · by_cases hbud : m.costFromStart ≤ maxCost
        · obtain ⟨m', hm', htch', hle'⟩ :=
            inv.closedRelaxed u m hu hcl hbud v' c hedge (fun h => h)
          exact Or.inr (Or.inl ⟨m', hm', htch', by linarith⟩)
        · push_neg at hbud
          right
          right
          linarith
    · right
      right
      linarith

theorem NInvP_mono {g : Graph} {startState : State} {N : ℕ} {B maxCost : ℚ}
    {exc exc' : State → State × ℚ → Prop} {es : Engine} {opn closedL : List State}
    (inv : NInvP g startState N B maxCost exc es opn closedL)
    (himp : ∀ x e, exc x e → exc' x e) :
    NInvP g startState N B maxCost exc' es opn closedL :=
  { inv with
    closedRelaxed := fun x n hf hc hb t c he hne =>
      inv.closedRelaxed x n hf hc hb t c he fun hx => hne (himp _ _ hx) }

/-- Transfer of the budgeted-loop invariant across an engine step that
preserves every search field of existing records and only adds untouched
records. -/
theorem NInvP_transfer {g : Graph} {startState : State} {N : ℕ} {B maxCost : ℚ}
    {exc : State → State × ℚ → Prop} {es es' : Engine} {opn closedL : List State}
    (inv : NInvP g startState N B maxCost exc es opn closedL)
    (hframe : es'.frame = es.frame)
    (fwd : ∀ x m0, poolFind es.pool x = some m0 → ∃ m, poolFind es'.pool x = some m ∧
      m.costFromStart = m0.costFromStart ∧ m.totalCost = m0.totalCost ∧
      m.inOpen = m0.inOpen ∧ m.inClosed = m0.inClosed ∧ m.frame = m0.frame ∧
      (m0.inClosed = false → m.numAdjacent = m0.numAdjacent ∧ m.cacheIndex = m0.cacheIndex))
    (bwd : ∀ x m, poolFind es'.pool x = some m → (∃ m0, poolFind es.pool x = some m0) ∨
      (m.inOpen = false ∧ m.inClosed = false ∧ m.numAdjacent = none ∧
        m.cacheIndex = none ∧ m.frame = es.frame)) :
    NInvP g startState N B maxCost exc es' opn closedL := by
  have key : ∀ x m, poolFind es'.pool x = some m →
      (∃ m0, poolFind es.pool x = some m0 ∧
        m.costFromStart = m0.costFromStart ∧ m.totalCost = m0.totalCost ∧
        m.inOpen = m0.inOpen ∧ m.inClosed = m0.inClosed ∧ m.frame = m0.frame ∧
        (m0.inClosed = false → m.numAdjacent = m0.numAdjacent ∧
          m.cacheIndex = m0.cacheIndex)) ∨
      (m.inOpen = false ∧ m.inClosed = false ∧ m.numAdjacent = none ∧
        m.cacheIndex = none ∧ m.frame = es.frame) := by
    intro x m hm
    rcases bwd x m hm with ⟨m0, hm0⟩ | hnew
    · obtain ⟨m1, hm1, hfields⟩ := fwd x m0 hm0
      rw [hm] at hm1
      obtain rfl := Option.some_inj.mp hm1
      exact Or.inl ⟨m0, hm0, hfields⟩
    · exact Or.inr hnew
  have htc : ∀ x ∈ opn, tcOf es' x = tcOf es x := by
    intro x hx
    obtain ⟨n, hn, hno⟩ := (inv.openMem x).mp hx
    obtain ⟨m, hm, -, htot, -⟩ := fwd x n hn
    unfold tcOf
    rw [hn, hm]
    exact htot
  refine ⟨?_, ?_, ?_, inv.openNodup, ?_, ?_, ?_, ?_, ?_, ?_, ?_, inv.closedNodup, ?_, ?_⟩
  · intro x n hn
    rw [hframe]
    rcases key x n hn with ⟨m0, hm0, -, -, -, -, hf, -⟩ | ⟨-, -, -, -, hf⟩
    · rw [hf]
      exact inv.frameEq x m0 hm0
    · exact hf
  · intro x n hn ho
    rcases key x n hn with ⟨m0, hm0, -, -, hop, hcl, -⟩ | ⟨hop, hcl, -⟩
    · rw [hcl]
      exact inv.notBoth x m0 hm0 (hop ▸ ho)
    · rw [hop] at ho
      exact Bool.noConfusion ho
  · intro x
    rw [inv.openMem x]
    constructor
    · rintro ⟨n, hn, ho⟩
      obtain ⟨m, hm, -, -, hop, -⟩ := fwd x n hn
      exact ⟨m, hm, hop.trans ho⟩
    · rintro ⟨m, hm, ho⟩
      rcases key x m hm with ⟨m0, hm0, -, -, hop, -⟩ | ⟨hop, -⟩
      · exact ⟨m0, hm0, hop ▸ ho⟩
      · rw [hop] at ho
        exact Bool.noConfusion ho
  · exact sortedBy_congr (fun x hx => (htc x hx).symm) inv.sorted
  · obtain ⟨n, hn, htch, hcfs⟩ := inv.startTouched
    obtain ⟨m, hm, hcfs', -, hop, hcl, -⟩ := fwd startState n hn
    refine ⟨m, hm, ?_, hcfs' ▸ hcfs⟩
    rcases htch with h | h
    · exact Or.inl (hop ▸ h)
    · exact Or.inr (hcl ▸ h)
  · intro x n hn htch
    rcases key x n hn with ⟨m0, hm0, -, -, hop, hcl, -⟩ | ⟨hop, hcl, -⟩
    · refine inv.touchedLt x m0 hm0 ?_
      rcases htch with h | h
      · exact Or.inl (hop ▸ h)
      · exact Or.inr (hcl ▸ h)
    · rcases htch with h | h
      · rw [hop] at h
        exact Bool.noConfusion h
      · rw [hcl] at h
        exact Bool.noConfusion h
  · intro x n hn htch
    rcases key x n hn with ⟨m0, hm0, hcfs, htot, hop, hcl, -⟩ | ⟨hop, hcl, -⟩
    · obtain ⟨h1, h2, h3⟩ := inv.tct x m0 hm0 (by
        rcases htch with h | h
        · exact Or.inl (hop ▸ h)
        · exact Or.inr (hcl ▸ h))
      exact ⟨by rw [htot, hcfs, h1], by rw [hcfs]; exact h2, by rw [hcfs]; exact h3⟩
    · rcases htch with h | h
      · rw [hop] at h
        exact Bool.noConfusion h
      · rw [hcl] at h
        exact Bool.noConfusion h
  · intro x n hn htch
    rcases key x n hn with ⟨m0, hm0, hcfs, -, hop, hcl, -⟩ | ⟨hop, hcl, -⟩
    · obtain ⟨w, hpw, hwle⟩ := inv.pathLe x m0 hm0 (by
        rcases htch with h | h
        · exact Or.inl (hop ▸ h)
        · exact Or.inr (hcl ▸ h))
      exact ⟨w, hpw, by rw [hcfs]; exact hwle⟩
    · rcases htch with h | h
      · rw [hop] at h
        exact Bool.noConfusion h
      · rw [hcl] at h
        exact Bool.noConfusion h
  · intro x n hn hncl
    rcases key x n hn with ⟨m0, hm0, -, -, -, hcl, -, hmeta⟩ | ⟨-, -, hna, hci, -⟩
    · obtain ⟨h1, h2⟩ := hmeta (hcl ▸ hncl)
      rw [h1, h2]
      exact inv.cacheIdx x m0 hm0 (hcl ▸ hncl)
    · exact ⟨hna, hci⟩
  · intro x
    rw [inv.closedIff x]
    constructor
    · rintro ⟨n, hn, hc⟩
      obtain ⟨m, hm, -, -, -, hcl, -⟩ := fwd x n hn
      exact ⟨m, hm, hcl.trans hc⟩
    · rintro ⟨m, hm, hc⟩
      rcases key x m hm with ⟨m0, hm0, -, -, -, hcl, -⟩ | ⟨-, hcl, -⟩
      · exact ⟨m0, hm0, hcl ▸ hc⟩
      · rw [hcl] at hc
        exact Bool.noConfusion hc
  · intro x n hn hc y m hm ho
    rcases key x n hn with ⟨n0, hn0, hncfs, -, -, hncl, -⟩ | ⟨-, hncl, -⟩
    · rcases key y m hm with ⟨m0, hm0, hmcfs, -, hmo, -⟩ | ⟨hmo, -⟩
      · rw [hncfs, hmcfs]
        exact inv.closedLB x n0 hn0 (hncl ▸ hc) y m0 hm0 (hmo ▸ ho)
      · rw [hmo] at ho
        exact Bool.noConfusion ho
    · rw [hncl] at hc
      exact Bool.noConfusion hc
  · intro x n hn hc hb t c he hne
    rcases key x n hn with ⟨n0, hn0, hncfs, -, -, hncl, -⟩ | ⟨-, hncl, -⟩
    · obtain ⟨m, hm, htchm, hlem⟩ := inv.closedRelaxed x n0 hn0 (hncl ▸ hc)
        (by rw [hncfs] at hb; exact hb) t c he hne
      obtain ⟨m', hm', hmcfs, -, hmo, hmc, -⟩ := fwd t m hm
      refine ⟨m', hm', ?_, ?_⟩
      · rcases htchm with h | h
        · exact Or.inl (hmo ▸ h)
        · exact Or.inr (hmc ▸ h)
      · rw [hmcfs, hncfs]
        exact hlem
    · rw [hncl] at hc
      exact Bool.noConfusion hc

/-- Re-assembly of the budgeted-loop invariant after one relaxation write. -/
theorem NInvP_update {g : Graph} {startState : State} {N : ℕ} {B maxCost : ℚ}
    {exc exc' : State → State × ℚ → Prop} {es es' : Engine} {opn opn' : List State}
    {closedL : List State} {t : State} {child child' : PathNode}
    (inv : NInvP g startState N B maxCost exc es opn closedL)
    (hchildf : poolFind es.pool t = some child)
    (hpool_t : poolFind es'.pool t = some child')
    (hpool_ne : ∀ x, x ≠ t → poolFind es'.pool x = poolFind es.pool x)
    (hfr' : es'.frame = es.frame)
    (hop' : child'.inOpen = true) (hncl' : child'.inClosed = false)
    (hchildncl : child.inClosed = false)
    (hmeta' : child'.numAdjacent = child.numAdjacent ∧ child'.cacheIndex = child.cacheIndex)
    (hframe' : child'.frame = child.frame)
    (htct' : child'.totalCost = child'.costFromStart ∧ child'.costFromStart < fltMax ∧
      0 ≤ child'.costFromStart)
    (hpath' : ∃ w, PathTo g startState t w ∧ w ≤ child'.costFromStart)
    (htlt : t < N) (htstart : t ≠ startState)
    (hLB' : ∀ x n, poolFind es.pool x = some n → n.inClosed = true →
      n.costFromStart ≤ child'.costFromStart)
    (hcov : ∀ x n, poolFind es.pool x = some n → n.inClosed = true →
      n.costFromStart ≤ maxCost →
      ∀ t' c', (t', c') ∈ g.adjacentCost x → ¬exc' x (t', c') →
        (t' = t ∧ child'.costFromStart ≤ n.costFromStart + c') ∨
        (t' ≠ t ∧ ∃ m, poolFind es.pool t' = some m ∧
          (m.inOpen = true ∨ m.inClosed = true) ∧ m.costFromStart ≤ n.costFromStart + c'))
    (hqmem : ∀ x, x ∈ opn' ↔ (x = t ∨ x ∈ opn))
    (hqnodup : opn'.Nodup)
    (hqsorted : SortedBy (tcOf es') opn') :
    NInvP g startState N B maxCost exc' es' opn' closedL := by
  refine ⟨?_, ?_, ?_, hqnodup, hqsorted, ?_, ?_, ?_, ?_, ?_, ?_, inv.closedNodup, ?_, ?_⟩
  · intro x n hn
    rw [hfr']
    by_cases hxt : x = t
    · subst hxt
      rw [hpool_t] at hn
      obtain rfl := Option.some_inj.mp hn
      rw [hframe']
      exact inv.frameEq x child hchildf
    · rw [hpool_ne x hxt] at hn
      exact inv.frameEq x n hn
  · intro x n hn ho
    by_cases hxt : x = t
    · subst hxt
      rw [hpool_t] at hn
      obtain rfl := Option.some_inj.mp hn
      exact hncl'
    · rw [hpool_ne x hxt] at hn
      exact inv.notBoth x n hn ho
  · intro x
    rw [hqmem x]
    constructor
    · rintro (rfl | hx)
      · exact ⟨child', hpool_t, hop'⟩
      · obtain ⟨n, hn, ho⟩ := (inv.openMem x).mp hx
        by_cases hxt : x = t
        · subst hxt
          exact ⟨child', hpool_t, hop'⟩
        · exact ⟨n, by rw [hpool_ne x hxt]; exact hn, ho⟩
    · rintro ⟨n, hn, ho⟩
      by_cases hxt : x = t
      · exact Or.inl hxt
      · rw [hpool_ne x hxt] at hn
        exact Or.inr ((inv.openMem x).mpr ⟨n, hn, ho⟩)
  · obtain ⟨n, hn, htch, hcfs⟩ := inv.startTouched
    exact ⟨n, by rw [hpool_ne startState (fun hc => htstart hc.symm)]; exact hn, htch, hcfs⟩
  · intro x n hn htch
    by_cases hxt : x = t
    · subst hxt
      exact htlt
    · rw [hpool_ne x hxt] at hn
      exact inv.touchedLt x n hn htch
  · intro x n hn htch
    by_cases hxt : x = t
    · subst hxt
      rw [hpool_t] at hn
      obtain rfl := Option.some_inj.mp hn
      exact htct'
    · rw [hpool_ne x hxt] at hn
      exact inv.tct x n hn htch
  · intro x n hn htch
    by_cases hxt : x = t
    · subst hxt
      rw [hpool_t] at hn
      obtain rfl := Option.some_inj.mp hn
      exact hpath'
    · rw [hpool_ne x hxt] at hn
      exact inv.pathLe x n hn htch
  · intro x n hn hncl
    by_cases hxt : x = t
    · subst hxt
      rw [hpool_t] at hn
      obtain rfl := Option.some_inj.mp hn
      rw [hmeta'.1, hmeta'.2]
      exact inv.cacheIdx x child hchildf hchildncl
    · rw [hpool_ne x hxt] at hn
      exact inv.cacheIdx x n hn hncl
  · intro x
    rw [inv.closedIff x]
    by_cases hxt : x = t
    · subst hxt
      constructor
      · rintro ⟨n, hn, hc⟩
        rw [hchildf] at hn
        obtain rfl := Option.some_inj.mp hn
        rw [hchildncl] at hc
        exact Bool.noConfusion hc
      · rintro ⟨m, hm, hc⟩
        rw [hpool_t] at hm
        obtain rfl := Option.some_inj.mp hm
        rw [hncl'] at hc
        exact Bool.noConfusion hc
    · rw [hpool_ne x hxt]
  · intro x n hn hc y m hm ho
    by_cases hxt : x = t
    · subst hxt
      rw [hpool_t] at hn
      obtain rfl := Option.some_inj.mp hn
      rw [hc] at hncl'
      exact Bool.noConfusion hncl'
    · rw [hpool_ne x hxt] at hn
      by_cases hyt : y = t
      · subst hyt
        rw [hpool_t] at hm
        obtain rfl := Option.some_inj.mp hm
        exact hLB' x n hn hc
      · rw [hpool_ne y hyt] at hm
        exact inv.closedLB x n hn hc y m hm ho
  · intro x n hn hc hb t' c' he' hne'
    by_cases hxt : x = t
    · subst hxt
      rw [hpool_t] at hn
      obtain rfl := Option.some_inj.mp hn
      rw [hc] at hncl'
      exact Bool.noConfusion hncl'
    · rw [hpool_ne x hxt] at hn
      rcases hcov x n hn hc hb t' c' he' hne' with ⟨rfl, hle⟩ | ⟨htne, m, hm, htch, hle⟩
      · exact ⟨child', hpool_t, Or.inl hop', hle⟩
      · exact ⟨m, by rw [hpool_ne t' htne]; exact hm, htch, hle⟩

/-- Closing the popped head of the budgeted open queue re-establishes the
loop invariant (with its pending edges excluded) and appends it to the
closed-sentinel list. -/
theorem NInvP_close {g : Graph} {startState : State} {N : ℕ} {B maxCost : ℚ}
    {es es' : Engine} {s : State} {rest closedL : List State} {ns : PathNode}
    (inv : NInv g startState N B maxCost es (s :: rest) closedL)
    (hs : poolFind es.pool s = some ns) (hopen : ns.inOpen = true)
    (hp_s : poolFind es'.pool s = some { ns with inOpen := false, inClosed := true })
    (hp_ne : ∀ x, x ≠ s → poolFind es'.pool x = poolFind es.pool x)
    (hfr : es'.frame = es.frame) :
    NInvP g startState N B maxCost (fun x e => x = s ∧ e ∈ g.adjacentCost s)
      es' rest (closedL ++ [s]) := by
  have hncl : ns.inClosed = false := inv.notBoth s ns hs hopen
  have hsrest : s ∉ rest := (List.nodup_cons.mp inv.openNodup).1
  have hsnotin : s ∉ closedL := by
    intro hc
    obtain ⟨n, hn, hcl⟩ := (inv.closedIff s).mp hc
    rw [hs] at hn
    obtain rfl := Option.some_inj.mp hn
    rw [hncl] at hcl
    exact Bool.noConfusion hcl
  refine ⟨?_, ?_, ?_, (List.nodup_cons.mp inv.openNodup).2, ?_, ?_, ?_, ?_, ?_, ?_, ?_,
    ?_, ?_, ?_⟩
  · intro x n hn
    rw [hfr]
    by_cases hxs : x = s
    · subst hxs
      rw [hp_s] at hn
      obtain rfl := Option.some_inj.mp hn
      exact inv.frameEq x ns hs
    · rw [hp_ne x hxs] at hn
      exact inv.frameEq x n hn
  · intro x n hn ho
    by_cases hxs : x = s
    · subst hxs
      rw [hp_s] at hn
      obtain rfl := Option.some_inj.mp hn
      exact Bool.noConfusion ho
    · rw [hp_ne x hxs] at hn
      exact inv.notBoth x n hn ho
  · intro x
    constructor
    · intro hx
      have hxs : x ≠ s := fun hc => hsrest (hc ▸ hx)
      obtain ⟨n, hn, ho⟩ := (inv.openMem x).mp (List.mem_cons_of_mem s hx)
      exact ⟨n, by rw [hp_ne x hxs]; exact hn, ho⟩
    · rintro ⟨n, hn, ho⟩
      by_cases hxs : x = s
      · subst hxs
        rw [hp_s] at hn
        obtain rfl := Option.some_inj.mp hn
        exact Bool.noConfusion ho
      · rw [hp_ne x hxs] at hn
        rcases List.mem_cons.mp ((inv.openMem x).mpr ⟨n, hn, ho⟩) with hc | hx
        · exact absurd hc hxs
        · exact hx
  · refine sortedBy_congr ?_ (List.pairwise_cons.mp inv.sorted).2
    intro x hx
    have hxs : x ≠ s := fun hc => hsrest (hc ▸ hx)
    unfold tcOf
    rw [hp_ne x hxs]
  · obtain ⟨n, hn, htch, hc0⟩ := inv.startTouched
    by_cases hss : startState = s
    · rw [hss, hs] at hn
      obtain rfl := Option.some_inj.mp hn
      exact ⟨{ ns with inOpen := false, inClosed := true }, by rw [hss]; exact hp_s,
        Or.inr rfl, hc0⟩
    · exact ⟨n, by rw [hp_ne startState hss]; exact hn, htch, hc0⟩
  · intro x n hn htch
    by_cases hxs : x = s
    · subst hxs
      exact inv.touchedLt x ns hs (Or.inl hopen)
    · rw [hp_ne x hxs] at hn
      exact inv.touchedLt x n hn htch
  · intro x n hn htch
    by_cases hxs : x = s
    · subst hxs
      rw [hp_s] at hn
      obtain rfl := Option.some_inj.mp hn
      exact inv.tct x ns hs (Or.inl hopen)
    · rw [hp_ne x hxs] at hn
      exact inv.tct x n hn htch
  · intro x n hn htch
    by_cases hxs : x = s
    · subst hxs
      rw [hp_s] at hn
      obtain rfl := Option.some_inj.mp hn
      exact inv.pathLe x ns hs (Or.inl hopen)
    · rw [hp_ne x hxs] at hn
      exact inv.pathLe x n hn htch
  · intro x n hn hncl'
    by_cases hxs : x = s
    · subst hxs
      rw [hp_s] at hn
      obtain rfl := Option.some_inj.mp hn
      exact Bool.noConfusion hncl'
    · rw [hp_ne x hxs] at hn
      exact inv.cacheIdx x n hn hncl'
  · intro x
    constructor
    · intro hx
      rcases List.mem_append.mp hx with hx | hx
      · obtain ⟨n, hn, hcl⟩ := (inv.closedIff x).mp hx
        have hxs : x ≠ s := by
          intro hc
          subst hc
          rw [hs] at hn
          obtain rfl := Option.some_inj.mp hn
          rw [hncl] at hcl
          exact Bool.noConfusion hcl
        exact ⟨n, by rw [hp_ne x hxs]; exact hn, hcl⟩
      · obtain rfl := List.mem_singleton.mp hx
        exact ⟨{ ns with inOpen := false, inClosed := true }, hp_s, rfl⟩
    · rintro ⟨n, hn, hcl⟩
      by_cases hxs : x = s
      · subst hxs
        exact List.mem_append.mpr (Or.inr (List.mem_singleton.mpr rfl))
      · rw [hp_ne x hxs] at hn
        exact List.mem_append.mpr (Or.inl ((inv.closedIff x).mpr ⟨n, hn, hcl⟩))
  · rw [List.nodup_append]
    refine ⟨inv.closedNodup, List.nodup_singleton s, ?_⟩
    intro a ha hb
    obtain rfl := List.mem_singleton.mp hb
    exact hsnotin ha
  · intro x n hn hc y m hm ho
    have hys : y ≠ s := by
      intro hc'
      subst hc'
      rw [hp_s] at hm
      obtain rfl := Option.some_inj.mp hm
      exact Bool.noConfusion ho
    rw [hp_ne y hys] at hm
    have hym : y ∈ s :: rest := (inv.openMem y).mpr ⟨m, hm, ho⟩
    by_cases hxs : x = s
    · subst hxs
      rw [hp_s] at hn
      obtain rfl := Option.some_inj.mp hn
      show ns.costFromStart ≤ m.costFromStart
      have hts : tcOf es x ≤ tcOf es y := by
        rcases List.mem_cons.mp hym with rfl | hyr
        · exact absurd rfl hys
        · exact (List.pairwise_cons.mp inv.sorted).1 y hyr
      have h1 : tcOf es x = ns.costFromStart := by
        unfold tcOf
        rw [hs]
        exact (inv.tct x ns hs (Or.inl hopen)).1
      have h2 : tcOf es y = m.costFromStart := by
        unfold tcOf
        rw [hm]
        exact (inv.tct y m hm (Or.inl ho)).1
      rw [h1, h2] at hts
      exact hts
    · rw [hp_ne x hxs] at hn
      exact inv.closedLB x n hn hc y m hm ho
  · intro x n hn hc hb t c he hne
    by_cases hxs : x = s
    · exact absurd ⟨hxs, hxs ▸ he⟩ hne
    · rw [hp_ne x hxs] at hn
      obtain ⟨m, hm, htch, hle⟩ := inv.closedRelaxed x n hn hc hb t c he (fun h => h)
      by_cases hts : t = s
      · subst hts
        rw [hs] at hm
        obtain rfl := Option.some_inj.mp hm
        exact ⟨{ ns with inOpen := false, inClosed := true }, hp_s, Or.inr rfl, hle⟩
      · exact ⟨m, by rw [hp_ne t hts]; exact hm, htch, hle⟩

/-- If the just-closed node is over budget, its unrelaxed edges are exempt
and the plain between-iterations invariant already holds. -/
theorem NInvP_debudget {g : Graph} {startState : State} {N : ℕ} {B maxCost : ℚ}
    {es : Engine} {opn closedL : List State} {s : State} {ns : PathNode}
    (inv : NInvP g startState N B maxCost (fun x e => x = s ∧ e ∈ g.adjacentCost s)
      es opn closedL)
    (hfind : poolFind es.pool s = some ns) (hover : maxCost < ns.costFromStart) :
    NInv g startState N B maxCost es opn closedL :=
  { inv with
    closedRelaxed := fun x n hf hcl hb t c he _ => by
      by_cases hxs : x = s
      · subst hxs
        rw [hfind] at hf
        obtain rfl := Option.some_inj.mp hf
        exact absurd hb (not_le.mpr hover)
      · exact inv.closedRelaxed x n hf hcl hb t c he (fun hx => hxs hx.1) }

/-- Effect of one full relaxation pass of `MicroPather::SolveForNearStates`
over the pending edge list of the just-closed, within-budget node `s`: no
assertion fires (in particular the in-place update of a closed record is
unreachable, because a closed record never stores more than the head of the
sorted queue), and the budgeted loop invariant holds again with all of `s`'s
edges relaxed.  The closed flags of all records are untouched. -/
theorem sfnsRelax_spec {g : Graph} {startState : State} {N : ℕ} {B maxCost : ℚ}
    (hg : NHyp g N B) (hmax0 : 0 ≤ maxCost) (hflt : maxCost + B < fltMax) (s : State) :
    ∀ (pend : List (State × ℚ)) (es : Engine) (opn closedL : List State),
      NInvP g startState N B maxCost (fun x e => x = s ∧ e ∈ pend) es opn closedL →
      (∀ e ∈ pend, e ∈ g.adjacentCost s) →
      (∀ e ∈ pend, ∃ m, poolFind es.pool e.1 = some m) →
      (∀ ns : PathNode, poolFind es.pool s = some ns → ns.inClosed = true ∧
        ns.costFromStart ≤ maxCost ∧
        (∀ x m, poolFind es.pool x = some m → m.inClosed = true →
          m.costFromStart ≤ ns.costFromStart)) →
      (∃ ns : PathNode, poolFind es.pool s = some ns) →
      ∃ es' opn', sfnsRelax g es startState s pend opn = some (es', opn') ∧
        NInv g startState N B maxCost es' opn' closedL ∧
        (∀ x, closedFlag es' x = closedFlag es x)
  | [], es, opn, closedL, inv, _, _, _, _ => by
    refine ⟨es, opn, rfl, NInvP_mono inv ?_, fun x => rfl⟩
    rintro x e ⟨hx, he⟩
    simp at he
  | (t, c) :: rest, es, opn, closedL, inv, hsub, hpres, hsfacts', hns => by
    obtain ⟨ns, hnsf⟩ := hns
    obtain ⟨hnscl, hbud, hLB⟩ := hsfacts' ns hnsf
    have hlt : ns.costFromStart < fltMax := (inv.tct s ns hnsf (Or.inr hnscl)).2.1
    have hns0 : 0 ≤ ns.costFromStart := (inv.tct s ns hnsf (Or.inr hnscl)).2.2
    obtain ⟨child, hchildf⟩ := hpres (t, c) (List.mem_cons_self _ _)
    have hedge : (t, c) ∈ g.adjacentCost s := hsub (t, c) (List.mem_cons_self _ _)
    have hts : t ≠ s := by
      intro hc
      subst hc
      exact hg.self t c hedge
    obtain ⟨h0c, hcB⟩ := hg.cost s t c hedge
    have hBpos : B < fltMax := by linarith
    have hcne : c ≠ fltMax := ne_of_lt (lt_of_le_of_lt hcB hBpos)
    have hnewflt : ns.costFromStart + c < fltMax := by linarith
    have hnew0 : 0 ≤ ns.costFromStart + c := add_nonneg hns0 h0c
    have hg2 : ¬(child.inOpen = true ∧ child.inClosed = true) := by
      rintro ⟨h1, h2⟩
      rw [inv.notBoth t child hchildf h1] at h2
      exact Bool.noConfusion h2
    have hg1 : ¬((child.inOpen = true ∨ child.inClosed = true) ∧ t = s) := fun h => hts h.2
    have hg0 : ¬¬(ns.costFromStart < fltMax) := not_not_intro hlt
    by_cases hskip : (child.inOpen = true ∨ child.inClosed = true) ∧
        child.costFromStart ≤ ns.costFromStart + c
    · -- the edge is already relaxed: nothing to do
      have hinv' : NInvP g startState N B maxCost (fun x e => x = s ∧ e ∈ rest)
          es opn closedL :=
        { inv with
          closedRelaxed := fun x n hf hcl hb t' c' he' hne' => by
            by_cases hxs : x = s
            · rw [hxs] at hf he'
              by_cases hec : (t', c') = (t, c)
              · injection hec with h1 h2
                subst h1
                subst h2
                rw [hnsf] at hf
                obtain rfl : ns = n := Option.some_inj.mp hf
                exact ⟨child, hchildf, hskip.1, hskip.2⟩
              · refine inv.closedRelaxed s n hf hcl hb t' c' he' ?_
                rintro ⟨-, hmem⟩
                rcases List.mem_cons.mp hmem with h | h
                · exact hec h
                · exact hne' ⟨hxs, h⟩
            · refine inv.closedRelaxed x n hf hcl hb t' c' he' ?_
              rintro ⟨h, -⟩
              exact hxs h }
      obtain ⟨es', opn', heq, hA, hC⟩ := sfnsRelax_spec hg hmax0 hflt s rest es opn closedL
        hinv' (fun e he => hsub e (List.mem_cons_of_mem _ he))
        (fun e he => hpres e (List.mem_cons_of_mem _ he)) hsfacts' ⟨ns, hnsf⟩
      refine ⟨es', opn', ?_, hA, hC⟩
      simp only [sfnsRelax]
      rw [hnsf, hchildf]
      simp only [if_neg hg0, if_neg hg2, if_neg hg1, if_pos hskip]
      exact heq
    · -- a genuine improvement: the target cannot be closed
      have hchncl : child.inClosed = false := by
        cases hc2 : child.inClosed with
        | false => rfl
        | true =>
          exfalso
          refine hskip ⟨Or.inr hc2, ?_⟩
          have := hLB t child hchildf hc2
          linarith
      have htstart : t ≠ startState := by
        intro hc
        subst hc
        obtain ⟨n0, hn0, htch0, hcfs0⟩ := inv.startTouched
        rw [hchildf] at hn0
        obtain rfl : child = n0 := Option.some_inj.mp hn0
        refine hskip ⟨htch0, ?_⟩
        rw [hcfs0]
        exact hnew0
      have hpath' : ∃ w, PathTo g startState t w ∧ w ≤ ns.costFromStart + c := by
        obtain ⟨w', hpw', hw'le⟩ := inv.pathLe s ns hnsf (Or.inr hnscl)
        exact ⟨w' + c, PathTo.tail hpw' hedge hcne, by linarith⟩
      have hsfacts_pres : ∀ (es1 : Engine),
          (poolFind es1.pool s = poolFind es.pool s) →
          (∀ x, x ≠ t → poolFind es1.pool x = poolFind es.pool x) →
          (∀ m', poolFind es1.pool t = some m' → m'.inClosed = false) →
          ∀ ns1 : PathNode, poolFind es1.pool s = some ns1 → ns1.inClosed = true ∧
            ns1.costFromStart ≤ maxCost ∧
            (∀ x m, poolFind es1.pool x = some m → m.inClosed = true →
              m.costFromStart ≤ ns1.costFromStart) := by
        intro es1 hss hne hnotcl ns1 hns1
        rw [hss, hnsf] at hns1
        obtain rfl : ns = ns1 := Option.some_inj.mp hns1
        refine ⟨hnscl, hbud, ?_⟩
        intro x m hm hmcl
        by_cases hxt : x = t
        · subst hxt
          rw [hnotcl m hm] at hmcl
          exact Bool.noConfusion hmcl
        · rw [hne x hxt] at hm
          exact hLB x m hm hmcl
      by_cases hcho : child.inOpen = true
      · -- the target is open: update in place and re-sort the queue
        have himp' : ¬child.costFromStart ≤ ns.costFromStart + c :=
          fun h => hskip ⟨Or.inl hcho, h⟩
        have hgt : ns.costFromStart + c < child.costFromStart := not_le.mp himp'
        set RN : PathNode :=
          { child with parent := some s, costFromStart := ns.costFromStart + c,
                       estToGoal := 0, totalCost := ns.costFromStart + c } with hRN
        set ES1 : Engine := { es with pool := poolSet es.pool t RN } with hES1
        have hfind_t : poolFind ES1.pool t = some RN := poolFind_poolSet_self _ _ _
        have hfind_ne : ∀ x, x ≠ t → poolFind ES1.pool x = poolFind es.pool x :=
          fun x hx => poolFind_poolSet_ne _ _ _ _ hx
        have htc_ne : ∀ x, x ≠ t → tcOf ES1 x = tcOf es x := by
          intro x hx
          unfold tcOf
          rw [hfind_ne x hx]
        have htin : t ∈ opn := (inv.openMem t).mpr ⟨child, hchildf, hcho⟩
        obtain ⟨pre, post, hsp⟩ := splitAtElem_of_mem htin
        obtain ⟨hop_eq, hpre_nt⟩ := splitAtElem_spec hsp
        obtain ⟨hnt_pre, hnt_post, hnd_pp⟩ := nodup_middle_split (hop_eq ▸ inv.openNodup)
        set OPN1 : List State := openUpdate (tcOf ES1) t opn with hOPN1
        have hsorted_pp : SortedBy (tcOf es) (pre ++ post) := by
          refine List.Pairwise.sublist ?_ inv.sorted
          rw [hop_eq]
          exact (List.sublist_cons_self t post).append_left pre
        have hsorted_pp' : SortedBy (tcOf ES1) (pre ++ post) := by
          refine sortedBy_congr ?_ hsorted_pp
          intro x hx
          have hxt : x ≠ t := by
            rcases List.mem_append.mp hx with h | h
            · exact fun hc => hnt_pre (hc ▸ h)
            · exact fun hc => hnt_post (hc ▸ h)
          exact (htc_ne x hxt).symm
        have hq_sorted : SortedBy (tcOf ES1) OPN1 := sortedBy_openUpdate hsp hsorted_pp'
        have hq_perm : OPN1.Perm opn := @openUpdate_perm (tcOf ES1) t opn pre post hsp
        have hq_mem : ∀ x, x ∈ OPN1 ↔ (x = t ∨ x ∈ opn) := by
          intro x
          rw [hq_perm.mem_iff]
          constructor
          · exact Or.inr
          · rintro (rfl | hx)
            · exact htin
            · exact hx
        have hq_nodup : OPN1.Nodup := hq_perm.nodup_iff.mpr inv.openNodup
        have hcov : ∀ x n, poolFind es.pool x = some n → n.inClosed = true →
            n.costFromStart ≤ maxCost →
            ∀ t' c', (t', c') ∈ g.adjacentCost x →
            ¬(x = s ∧ (t', c') ∈ rest) →
            (t' = t ∧ RN.costFromStart ≤ n.costFromStart + c') ∨
            (t' ≠ t ∧ ∃ m, poolFind es.pool t' = some m ∧
              (m.inOpen = true ∨ m.inClosed = true) ∧
              m.costFromStart ≤ n.costFromStart + c') := by
          intro x n hn hcl hb t' c' he' hne'
          have hwit : (x = s ∧ (t', c') = (t, c)) ∨
              (∃ m, poolFind es.pool t' = some m ∧
                (m.inOpen = true ∨ m.inClosed = true) ∧
                m.costFromStart ≤ n.costFromStart + c') := by
            by_cases hxs : x = s
            · by_cases hec : (t', c') = (t, c)
              · exact Or.inl ⟨hxs, hec⟩
              · rw [hxs] at hn he'
                refine Or.inr (inv.closedRelaxed s n hn hcl hb t' c' he' ?_)
                rintro ⟨-, hmem⟩
                rcases List.mem_cons.mp hmem with h | h
                · exact hec h
                · exact hne' ⟨hxs, h⟩
            · refine Or.inr (inv.closedRelaxed x n hn hcl hb t' c' he' ?_)
              rintro ⟨h, -⟩
              exact hxs h
          rcases hwit with ⟨hxs, hec⟩ | ⟨m, hm, htchm, hlem⟩
          · injection hec with h1 h2
            subst h1
            subst h2
            left
            refine ⟨rfl, ?_⟩
            rw [hxs, hnsf] at hn
            obtain rfl : ns = n := Option.some_inj.mp hn
            exact le_refl _
          · by_cases ht't : t' = t
            · subst ht't
              rw [hchildf] at hm
              obtain rfl : child = m := Option.some_inj.mp hm
              left
              exact ⟨rfl, le_trans (le_of_lt hgt) hlem⟩
            · exact Or.inr ⟨ht't, m, hm, htchm, hlem⟩
        have hinv1 : NInvP g startState N B maxCost (fun x e => x = s ∧ e ∈ rest)
            ES1 OPN1 closedL := by
          refine NInvP_update inv hchildf hfind_t hfind_ne rfl hcho hchncl hchncl
            ⟨rfl, rfl⟩ rfl ⟨rfl, hnewflt, hnew0⟩ hpath' (hg.target s t c hedge) htstart
            ?_ hcov hq_mem hq_nodup hq_sorted
          intro x n hn hncl2
          have h1 := hLB x n hn hncl2
          show n.costFromStart ≤ ns.costFromStart + c
          linarith
        have hflag : ∀ x, closedFlag ES1 x = closedFlag es x := by
          intro x
          unfold closedFlag
          by_cases hxt : x = t
          · subst hxt
            rw [hfind_t, hchildf]
            rfl
          · rw [hfind_ne x hxt]
        obtain ⟨esF, opnF, heqF, hAF, hCF⟩ := sfnsRelax_spec hg hmax0 hflt s rest ES1 OPN1
          closedL hinv1
          (fun e he => hsub e (List.mem_cons_of_mem _ he))
          (by
            intro e he
            by_cases het : e.1 = t
            · rw [het]
              exact ⟨RN, hfind_t⟩
            · obtain ⟨m, hm⟩ := hpres e (List.mem_cons_of_mem _ he)
              exact ⟨m, by rw [hfind_ne e.1 het]; exact hm⟩)
          (hsfacts_pres ES1 (hfind_ne s fun hc => hts hc.symm) hfind_ne
            (by
              intro m' hm'
              rw [hfind_t] at hm'
              obtain rfl := Option.some_inj.mp hm'
              exact hchncl))
          ⟨ns, by rw [hfind_ne s fun hc => hts hc.symm]; exact hnsf⟩
        refine ⟨esF, opnF, ?_, hAF, fun x => (hCF x).trans (hflag x)⟩
        simp only [sfnsRelax]
        rw [hnsf, hchildf]
        simp only [if_neg hg0, if_neg hg2, if_neg hg1, if_neg hskip, if_neg htstart,
          if_pos hcho]
        exact heqF
      · -- the target is untouched: fresh record, pushed onto the open queue
        have hcho' : child.inOpen = false := by
          cases ho : child.inOpen with
          | false => rfl
          | true => exact absurd ho hcho
        set RN : PathNode :=
          { child with parent := some s, costFromStart := ns.costFromStart + c,
                       estToGoal := 0, totalCost := ns.costFromStart + c } with hRN
        set RN2 : PathNode := { RN with inOpen := true } with hRN2
        set ES2 : Engine := { es with pool := poolSet (poolSet es.pool t RN) t RN2 } with hES2
        have hfind_t : poolFind ES2.pool t = some RN2 := poolFind_poolSet_self _ _ _
        have hfind_ne : ∀ x, x ≠ t → poolFind ES2.pool x = poolFind es.pool x := by
          intro x hx
          show poolFind (poolSet (poolSet es.pool t RN) t RN2) x = poolFind es.pool x
          rw [poolFind_poolSet_ne _ _ _ _ hx, poolFind_poolSet_ne _ _ _ _ hx]
        have htc_ne : ∀ x, x ≠ t → tcOf ES2 x = tcOf es x := by
          intro x hx
          unfold tcOf
          rw [hfind_ne x hx]
        have htno : t ∉ opn := by
          intro hmem
          obtain ⟨m, hm, hmo⟩ := (inv.openMem t).mp hmem
          rw [hchildf] at hm
          obtain rfl : child = m := Option.some_inj.mp hm
          rw [hcho'] at hmo
          exact Bool.noConfusion hmo
        set OPN2 : List State := openInsertList (tcOf ES2) t opn with hOPN2
        have hq_mem : ∀ x, x ∈ OPN2 ↔ (x = t ∨ x ∈ opn) := fun x => mem_openInsertList
        have hq_nodup : OPN2.Nodup :=
          (openInsertList_perm (tcOf ES2) t opn).nodup_iff.mpr
            (List.nodup_cons.mpr ⟨htno, inv.openNodup⟩)
        have hq_sorted : SortedBy (tcOf ES2) OPN2 := by
          refine sortedBy_openInsertList (sortedBy_congr ?_ inv.sorted)
          intro x hx
          have hxt : x ≠ t := fun hc => htno (hc ▸ hx)
          exact (htc_ne x hxt).symm
        have htstart2 : t ≠ startState := by
          intro hc
          subst hc
          obtain ⟨n0, hn0, htch0, -⟩ := inv.startTouched
          rw [hchildf] at hn0
          obtain rfl : child = n0 := Option.some_inj.mp hn0
          rcases htch0 with h | h
          · exact hcho h
          · rw [hchncl] at h
            exact Bool.noConfusion h
        have hcov : ∀ x n, poolFind es.pool x = some n → n.inClosed = true →
            n.costFromStart ≤ maxCost →
            ∀ t' c', (t', c') ∈ g.adjacentCost x →
            ¬(x = s ∧ (t', c') ∈ rest) →
            (t' = t ∧ RN2.costFromStart ≤ n.costFromStart + c') ∨
            (t' ≠ t ∧ ∃ m, poolFind es.pool t' = some m ∧
              (m.inOpen = true ∨ m.inClosed = true) ∧
              m.costFromStart ≤ n.costFromStart + c') := by
          intro x n hn hcl hb t' c' he' hne'
          have hwit : (x = s ∧ (t', c') = (t, c)) ∨
              (∃ m, poolFind es.pool t' = some m ∧
                (m.inOpen = true ∨ m.inClosed = true) ∧
                m.costFromStart ≤ n.costFromStart + c') := by
            by_cases hxs : x = s
            · by_cases hec : (t', c') = (t, c)
              · exact Or.inl ⟨hxs, hec⟩
              · rw [hxs] at hn he'
                refine Or.inr (inv.closedRelaxed s n hn hcl hb t' c' he' ?_)
                rintro ⟨-, hmem⟩
                rcases List.mem_cons.mp hmem with h | h
                · exact hec h
                · exact hne' ⟨hxs, h⟩
            · refine Or.inr (inv.closedRelaxed x n hn hcl hb t' c' he' ?_)
              rintro ⟨h, -⟩
              exact hxs h
          rcases hwit with ⟨hxs, hec⟩ | ⟨m, hm, htchm, hlem⟩
          · injection hec with h1 h2
            subst h1
            subst h2
            left
            refine ⟨rfl, ?_⟩
            rw [hxs, hnsf] at hn
            obtain rfl : ns = n := Option.some_inj.mp hn
            exact le_refl _
          · by_cases ht't : t' = t
            · subst ht't
              rw [hchildf] at hm
              obtain rfl : child = m := Option.some_inj.mp hm
              rcases htchm with h | h
              · exact absurd h hcho
              · rw [hchncl] at h
                exact absurd h Bool.noConfusion
            · exact Or.inr ⟨ht't, m, hm, htchm, hlem⟩
        have hinv1 : NInvP g startState N B maxCost (fun x e => x = s ∧ e ∈ rest)
            ES2 OPN2 closedL := by
          refine NInvP_update inv hchildf hfind_t hfind_ne rfl rfl hchncl hchncl
            ⟨rfl, rfl⟩ rfl ⟨rfl, hnewflt, hnew0⟩ hpath' (hg.target s t c hedge) htstart2
            ?_ hcov hq_mem hq_nodup hq_sorted
          intro x n hn hncl2
          have h1 := hLB x n hn hncl2
          show n.costFromStart ≤ ns.costFromStart + c
          linarith
        have hflag : ∀ x, closedFlag ES2 x = closedFlag es x := by
          intro x
          unfold closedFlag
          by_cases hxt : x = t
          · subst hxt
            rw [hfind_t, hchildf]
            rfl
          · rw [hfind_ne x hxt]
        obtain ⟨esF, opnF, heqF, hAF, hCF⟩ := sfnsRelax_spec hg hmax0 hflt s rest ES2 OPN2
          closedL hinv1
          (fun e he => hsub e (List.mem_cons_of_mem _ he))
          (by
            intro e he
            by_cases het : e.1 = t
            · rw [het]
              exact ⟨RN2, hfind_t⟩
            · obtain ⟨m, hm⟩ := hpres e (List.mem_cons_of_mem _ he)
              exact ⟨m, by rw [hfind_ne e.1 het]; exact hm⟩)
          (hsfacts_pres ES2 (hfind_ne s fun hc => hts hc.symm) hfind_ne
            (by
              intro m' hm'
              rw [hfind_t] at hm'
              obtain rfl := Option.some_inj.mp hm'
              exact hchncl))
          ⟨ns, by rw [hfind_ne s fun hc => hts hc.symm]; exact hnsf⟩
        refine ⟨esF, opnF, ?_, hAF, fun x => (hCF x).trans (hflag x)⟩
        simp only [sfnsRelax]
        rw [hnsf, hchildf]
        have hnotcl : ¬child.inClosed = true := by
          rw [hchncl]
          exact Bool.noConfusion
        simp only [if_neg hg0, if_neg hg2, if_neg hg1, if_neg hskip, if_neg htstart2,
          if_neg hcho, if_pos hnotcl, if_pos hnewflt]
        exact heqF

/-- The main loop of `MicroPather::SolveForNearStates`, run from any state
satisfying the budgeted-loop invariant with enough fuel: it terminates
cleanly (no assertion fires) and returns the closed-sentinel list with the
invariant holding at an empty open queue. -/
theorem sfnsLoop_spec {g : Graph} {startState : State} {N : ℕ} {B maxCost : ℚ}
    (hg : NHyp g N B) (hmax0 : 0 ≤ maxCost) (hflt : maxCost + B < fltMax) :
    ∀ (fuel : ℕ) (es : Engine) (opn closedL : List State),
      NInv g startState N B maxCost es opn closedL →
      N + 1 ≤ closedCount es N + fuel →
      ∃ es' cl', sfnsLoop g startState maxCost es opn closedL fuel = some (es', cl') ∧
        NInv g startState N B maxCost es' [] cl' := by
  intro fuel
  induction fuel with
  | zero =>
    intro es opn closedL inv hfc
    have hcc := closedCount_le es N
    omega
  | succ f ih =>
    intro es opn closedL inv hfc
    rcases opn with _ | ⟨s, rest⟩
    · exact ⟨es, closedL, rfl, inv⟩
    · obtain ⟨ns, hnsf, hopen⟩ : ∃ n, poolFind es.pool s = some n ∧ n.inOpen = true :=
        (inv.openMem s).mp (List.mem_cons_self s rest)
      have hncl : ns.inClosed = false := inv.notBoth s ns hnsf hopen
      have hcond : ¬(ns.inClosed = true ∨ ¬ns.inOpen = true) := by
        rintro (h | h)
        · rw [hncl] at h
          exact Bool.noConfusion h
        · exact h hopen
      have hslt : s < N := inv.touchedLt s ns hnsf (Or.inl hopen)
      have htots : ns.totalCost = ns.costFromStart := (inv.tct s ns hnsf (Or.inl hopen)).1
      have hinv2 : NInvP g startState N B maxCost
          (fun x e => x = s ∧ e ∈ g.adjacentCost s)
          { es with pool := poolSet es.pool s { ns with inOpen := false, inClosed := true } }
          rest (closedL ++ [s]) :=
        NInvP_close inv hnsf hopen (poolFind_poolSet_self _ _ _)
          (fun x hxs => poolFind_poolSet_ne _ _ _ _ hxs) rfl
      have hflag_es : closedFlag es s = false := by
        unfold closedFlag
        rw [hnsf]
        simp [hncl]
      have hflag1 : closedFlag { es with pool := poolSet es.pool s { ns with inOpen := false, inClosed := true } } s = true := by
        unfold closedFlag
        rw [poolFind_poolSet_self]
        simp
      have hother1 : ∀ x, x ≠ s → closedFlag { es with pool := poolSet es.pool s { ns with inOpen := false, inClosed := true } } x = closedFlag es x := by
        intro x hxs
        unfold closedFlag
        rw [poolFind_poolSet_ne _ _ _ _ hxs]
      have hcnt1 : closedCount { es with pool := poolSet es.pool s { ns with inOpen := false, inClosed := true } } N = closedCount es N + 1 :=
        closedCount_flip hslt hother1 hflag_es hflag1
      by_cases hover : ns.totalCost > maxCost
      · -- over budget: close without expanding
        have hover' : maxCost < ns.costFromStart := by
          rw [htots] at hover
          exact hover
        have hplain : NInv g startState N B maxCost
            { es with pool := poolSet es.pool s { ns with inOpen := false, inClosed := true } }
            rest (closedL ++ [s]) :=
          NInvP_debudget hinv2 (poolFind_poolSet_self _ _ _) hover'
        obtain ⟨es', cl', heq', hinv'⟩ := ih _ rest (closedL ++ [s]) hplain (by omega)
        refine ⟨es', cl', ?_, hinv'⟩
        simp only [sfnsLoop]
        rw [hnsf]
        simp only []
        rw [if_neg hcond, if_pos hover]
        exact heq'
      · -- within budget: expand
        obtain ⟨es3, hgn_eq, hfr3, hpc3, hfwd, hbwd, hpresent, hfr3all⟩ :=
          @getNodeNeighbors_client g { es with pool := poolSet es.pool s { ns with inOpen := false, inClosed := true } } s { ns with inOpen := false, inClosed := true }
            (poolFind_poolSet_self _ _ _)
            (inv.cacheIdx s ns hnsf hncl).2 (inv.cacheIdx s ns hnsf hncl).1
            (by
              intro x m h
              by_cases hxs : x = s
              · subst hxs
                rw [poolFind_poolSet_self] at h
                obtain rfl := Option.some_inj.mp h
                exact inv.frameEq x ns hnsf
              · rw [poolFind_poolSet_ne _ _ _ _ hxs] at h
                exact inv.frameEq x m h)
        have hinv3 : NInvP g startState N B maxCost
            (fun x e => x = s ∧ e ∈ g.adjacentCost s) es3 rest (closedL ++ [s]) := by
          refine NInvP_transfer hinv2 hfr3 ?_ hbwd
          intro x m0 h
          obtain ⟨m, hm, h1, h2, h3, h4, h5, h6, h7, hmeta⟩ := hfwd x m0 h
          refine ⟨m, hm, h2, h4, h5, h6, h7, ?_⟩
          intro hncl0
          by_cases hxs : x = s
          · exfalso
            subst hxs
            rw [poolFind_poolSet_self] at h
            obtain rfl := Option.some_inj.mp h
            exact Bool.noConfusion hncl0
          · exact hmeta hxs
        have hsfacts : ∀ ns1 : PathNode, poolFind es3.pool s = some ns1 →
            ns1.inClosed = true ∧ ns1.costFromStart ≤ maxCost ∧
            (∀ x m, poolFind es3.pool x = some m → m.inClosed = true →
              m.costFromStart ≤ ns1.costFromStart) := by
          intro ns1 hns1
          obtain ⟨m, hm, -, hcfs, -, -, -, hcl, -⟩ :=
            hfwd s { ns with inOpen := false, inClosed := true }
              (poolFind_poolSet_self _ _ _)
          rw [hns1] at hm
          obtain rfl := Option.some_inj.mp hm
          refine ⟨hcl, ?_, ?_⟩
          · rw [hcfs]
            show ns.costFromStart ≤ maxCost
            rw [← htots]
            exact not_lt.mp hover
          · intro x m hmx hmcl
            rcases hbwd x m hmx with ⟨m0, hm0⟩ | ⟨-, hmncl, -⟩
            · obtain ⟨m2, hm2, -, hcfs2, -, -, -, hcl2, -⟩ := hfwd x m0 hm0
              rw [hmx] at hm2
              obtain rfl := Option.some_inj.mp hm2
              rw [hcfs, hcfs2]
              show m0.costFromStart ≤ ns.costFromStart
              by_cases hxs : x = s
              · subst hxs
                rw [poolFind_poolSet_self] at hm0
                obtain rfl := Option.some_inj.mp hm0
                exact le_refl _
              · rw [poolFind_poolSet_ne _ _ _ _ hxs] at hm0
                refine inv.closedLB x m0 hm0 ?_ s ns hnsf hopen
                rw [← hcl2]
                exact hmcl
            · rw [hmncl] at hmcl
              exact Bool.noConfusion hmcl
        have hsome3 : ∃ ns1 : PathNode, poolFind es3.pool s = some ns1 := by
          obtain ⟨m, hm, -⟩ := hfwd s { ns with inOpen := false, inClosed := true }
            (poolFind_poolSet_self _ _ _)
          exact ⟨m, hm⟩
        obtain ⟨es4, opn4, hrelax, hA4, hC4⟩ :=
          sfnsRelax_spec hg hmax0 hflt s (g.adjacentCost s) es3 rest (closedL ++ [s])
            hinv3 (fun e he => he) hpresent hsfacts hsome3
        have hflags3 : ∀ x, closedFlag es3 x = closedFlag { es with pool := poolSet es.pool s { ns with inOpen := false, inClosed := true } } x := by
          refine closedFlag_transfer ?_ ?_
          · intro x m0 h
            obtain ⟨m, hm, -, -, -, -, -, hcl, -⟩ := hfwd x m0 h
            exact ⟨m, hm, hcl⟩
          · intro x m h
            rcases hbwd x m h with h' | h'
            · exact Or.inl h'
            · exact Or.inr h'.2.1
        have hcnt4 : closedCount es4 N = closedCount es N + 1 := by
          rw [closedCount_congr hC4, closedCount_congr hflags3, hcnt1]
        obtain ⟨es', cl', heq', hinv'⟩ := ih _ opn4 (closedL ++ [s]) hA4 (by omega)
        refine ⟨es', cl', ?_, hinv'⟩
        simp only [sfnsLoop]
        rw [hnsf]
        simp only []
        rw [if_neg hcond, if_neg hover]
        rw [hgn_eq]
        simp only []
        rw [hrelax]
        simp only []
        exact heq'

/-- The budgeted-loop invariant at entry: a single freshly seeded open start
record and an empty closed-sentinel list. -/
theorem NInv_init {g : Graph} {startState : State} {N : ℕ} {B maxCost : ℚ}
    {es2 : Engine} {n0 : PathNode}
    (hpool2 : es2.pool = [(startState, n0)])
    (hfrm : n0.frame = es2.frame)
    (hopen : n0.inOpen = true) (hncl : n0.inClosed = false)
    (hcfs : n0.costFromStart = 0) (htot : n0.totalCost = 0)
    (hna : n0.numAdjacent = none) (hcix : n0.cacheIndex = none)
    (hstart : startState < N) :
    NInv g startState N B maxCost es2 [startState] [] := by
  have hfind : ∀ x, poolFind es2.pool x = if startState = x then some n0 else none := by
    intro x
    rw [hpool2]
    rfl
  have hfs : poolFind es2.pool startState = some n0 := by
    rw [hfind startState, if_pos rfl]
  have h0pos : (0 : ℚ) < fltMax := by norm_num [fltMax]
  refine ⟨?_, ?_, ?_, List.nodup_singleton startState, List.pairwise_singleton _ startState,
    ⟨n0, hfs, Or.inl hopen, hcfs⟩, ?_, ?_, ?_, ?_, ?_, List.nodup_nil, ?_, ?_⟩
  · intro x n hn
    rw [hfind x] at hn
    by_cases hx : startState = x
    · rw [if_pos hx] at hn
      obtain rfl := Option.some_inj.mp hn
      exact hfrm
    · rw [if_neg hx] at hn
      exact Option.noConfusion hn
  · intro x n hn ho
    rw [hfind x] at hn
    by_cases hx : startState = x
    · rw [if_pos hx] at hn
      obtain rfl := Option.some_inj.mp hn
      exact hncl
    · rw [if_neg hx] at hn
      exact Option.noConfusion hn
  · intro x
    constructor
    · intro hx
      obtain rfl := List.mem_singleton.mp hx
      exact ⟨n0, hfs, hopen⟩
    · rintro ⟨n, hn, ho⟩
      rw [hfind x] at hn
      by_cases hx : startState = x
      · rw [hx]
        exact List.mem_singleton.mpr rfl
      · rw [if_neg hx] at hn
        exact Option.noConfusion hn
  · intro x n hn htch
    rw [hfind x] at hn
    by_cases hx : startState = x
    · rw [← hx]
      exact hstart
    · rw [if_neg hx] at hn
      exact Option.noConfusion hn
  · intro x n hn htch
    rw [hfind x] at hn
    by_cases hx : startState = x
    · rw [if_pos hx] at hn
      obtain rfl := Option.some_inj.mp hn
      rw [htot, hcfs]
      exact ⟨rfl, h0pos, le_refl 0⟩
    · rw [if_neg hx] at hn
      exact Option.noConfusion hn
  · intro x n hn htch
    rw [hfind x] at hn
    by_cases hx : startState = x
    · rw [if_pos hx] at hn
      obtain rfl := Option.some_inj.mp hn
      rw [← hx, hcfs]
      exact ⟨0, PathTo.refl startState, le_refl 0⟩
    · rw [if_neg hx] at hn
      exact Option.noConfusion hn
  · intro x n hn hnc
    rw [hfind x] at hn
    by_cases hx : startState = x
    · rw [if_pos hx] at hn
      obtain rfl := Option.some_inj.mp hn
      exact ⟨hna, hcix⟩
    · rw [if_neg hx] at hn
      exact Option.noConfusion hn
  · intro x
    constructor
    · intro hx
      exact absurd hx (List.not_mem_nil x)
    · rintro ⟨n, hn, hcl⟩
      rw [hfind x] at hn
      by_cases hx : startState = x
      · rw [if_pos hx] at hn
        obtain rfl := Option.some_inj.mp hn
        rw [hncl] at hcl
        exact Bool.noConfusion hcl
      · rw [if_neg hx] at hn
        exact Option.noConfusion hn
  · intro x n hn hcl
    rw [hfind x] at hn
    by_cases hx : startState = x
    · rw [if_pos hx] at hn
      obtain rfl := Option.some_inj.mp hn
      rw [hncl] at hcl
      exact Bool.noConfusion hcl
    · rw [if_neg hx] at hn
      exact Option.noConfusion hn
  · intro x n hn hcl
    rw [hfind x] at hn
    by_cases hx : startState = x
    · rw [if_pos hx] at hn
      obtain rfl := Option.some_inj.mp hn
      rw [hncl] at hcl
      exact Bool.noConfusion hcl
    · rw [if_neg hx] at hn
      exact Option.noConfusion hn

theorem filterMap_keys_sublist {α β : Type} (f : α → Option (α × β))
    (hkey : ∀ t p, f t = some p → p.1 = t) :
    ∀ l : List α, ((l.filterMap f).map Prod.fst).Sublist l
  | [] => by simp
  | a :: l => by
    cases hfa : f a with
    | none =>
      rw [List.filterMap_cons, hfa]
      simp only []
      exact List.Sublist.cons a (filterMap_keys_sublist f hkey l)
    | some p =>
      rw [List.filterMap_cons, hfa]
      simp only [List.map_cons]
      rw [hkey a p hfa]
      exact List.Sublist.cons₂ a (filterMap_keys_sublist f hkey l)

/-- C6 (amended): for a client graph whose every enumerated edge has a
nonnegative bounded cost, with no self-edges, a nonnegative budget that
keeps all relaxations below `FLT_MAX`, and a fresh engine with enough fuel,
`MicroPather::SolveForNearStates` fills `near` with exactly the states whose
true shortest distance from the start is at most the budget, each paired
with exactly that distance, with no duplicates, and the start itself is
included at cost 0.  (The unamended claim, with no condition on the budget,
is refuted by `c6_negative_budget_excludes_start`.) -/
theorem c6_budgeted_search_exact {g : Graph} {startState : State} {N : ℕ}
    {B maxCost : ℚ} {es : Engine} {fuel : ℕ}
    (hg : NHyp g N B) (hmax0 : 0 ≤ maxCost) (hflt : maxCost + B < fltMax)
    (hstart : startState < N) (hpool : es.pool = []) (hfuel : N + 1 ≤ fuel) :
    ∃ es' near, solveForNearStates g es startState maxCost fuel = some (es', near) ∧
      (∀ t w, (t, w) ∈ near ↔ (IsMinDist g startState t w ∧ w ≤ maxCost)) ∧
      (near.map Prod.fst).Nodup ∧
      (startState, 0) ∈ near := by
  have h0pos : (0 : ℚ) < fltMax := by norm_num [fltMax]
  have hctc : calcTotalCost 0 0 = 0 := by
    unfold calcTotalCost
    rw [if_pos ⟨h0pos, h0pos⟩]
    ring
  have hAinit : NInv g startState N B maxCost
      { es with pool := [(startState, { pathNodeInit (pathNodeClear startState) (es.frame + 1) startState 0 0 none with inOpen := true })], frame := es.frame + 1 }
      [startState] [] := by
    refine NInv_init rfl rfl rfl rfl rfl ?_ ?_ ?_ hstart
    · show calcTotalCost 0 0 = 0
      exact hctc
    · show (pathNodeClear startState).numAdjacent = none
      rfl
    · show (pathNodeClear startState).cacheIndex = none
      rfl
  have hcnt : N + 1 ≤ closedCount { es with pool := [(startState, { pathNodeInit (pathNodeClear startState) (es.frame + 1) startState 0 0 none with inOpen := true })], frame := es.frame + 1 } N + fuel := by
    omega
  obtain ⟨esf, cl, heqLoop, hinvF⟩ := sfnsLoop_spec hg hmax0 hflt fuel _ [startState] []
    hAinit hcnt
  have hnoopen : ∀ x n, poolFind esf.pool x = some n → n.inOpen = false := by
    intro x n hn
    cases ho : n.inOpen with
    | false => rfl
    | true => exact absurd ((hinvF.openMem x).mpr ⟨n, hn, ho⟩) (List.not_mem_nil x)
  have hiff : ∀ t w, ((t, w) ∈ cl.filterMap fun t =>
      match poolFind esf.pool t with
      | some m => if m.totalCost ≤ maxCost then some (t, m.totalCost) else none
      | none => none) ↔ (IsMinDist g startState t w ∧ w ≤ maxCost) := by
    intro t w
    constructor
    · intro hmem
      obtain ⟨t0, ht0, hf⟩ := List.mem_filterMap.mp hmem
      rcases hfind : poolFind esf.pool t0 with _ | m
      · rw [hfind] at hf
        exact absurd hf (by simp)
      · rw [hfind] at hf
        simp only [] at hf
        by_cases hle : m.totalCost ≤ maxCost
        · rw [if_pos hle] at hf
          have hpair := Option.some_inj.mp hf
          have h1 : t0 = t := congrArg Prod.fst hpair
          have h2 : m.totalCost = w := congrArg Prod.snd hpair
          subst h1
          subst h2
          obtain ⟨n, hn, hcl⟩ := (hinvF.closedIff t0).mp ht0
          rw [hfind] at hn
          obtain rfl := Option.some_inj.mp hn
          have htct := (hinvF.tct t0 m hfind (Or.inr hcl)).1
          obtain ⟨w', hp', hw'le⟩ := hinvF.pathLe t0 m hfind (Or.inr hcl)
          rw [htct] at hle ⊢
          have hcfseq : m.costFromStart = w' := by
            rcases nPathCover hg hinvF t0 w' hp' with ⟨x, mx, hx, hxo, -⟩ |
              ⟨m2, hm2, -, hle2⟩ | hgt
            · rw [hnoopen x mx hx] at hxo
              exact Bool.noConfusion hxo
            · rw [hfind] at hm2
              obtain rfl := Option.some_inj.mp hm2
              exact le_antisymm hle2 hw'le
            · exact absurd (lt_of_lt_of_le hgt hw'le) (not_lt.mpr hle)
          refine ⟨⟨hcfseq ▸ hp', ?_⟩, hle⟩
          intro w2 hp2
          rcases nPathCover hg hinvF t0 w2 hp2 with ⟨x, mx, hx, hxo, -⟩ |
            ⟨m2, hm2, -, hle2⟩ | hgt
          · rw [hnoopen x mx hx] at hxo
            exact Bool.noConfusion hxo
          · rw [hfind] at hm2
            obtain rfl := Option.some_inj.mp hm2
            exact hle2
          · exact le_of_lt (lt_of_le_of_lt hle hgt)
        · rw [if_neg hle] at hf
          exact Option.noConfusion hf
    · rintro ⟨⟨hpw, hmin⟩, hwle⟩
      rcases nPathCover hg hinvF t w hpw with ⟨x, mx, hx, hxo, -⟩ |
        ⟨m, hm, htch, hle2⟩ | hgt
      · rw [hnoopen x mx hx] at hxo
        exact Bool.noConfusion hxo
      · have hcl : m.inClosed = true := by
          rcases htch with h | h
          · rw [hnoopen t m hm] at h
            exact Bool.noConfusion h
          · exact h
        obtain ⟨w', hp', hw'le⟩ := hinvF.pathLe t m hm (Or.inr hcl)
        have hweq : m.costFromStart = w := le_antisymm hle2 (le_trans (hmin w' hp') hw'le)
        refine List.mem_filterMap.mpr ⟨t, (hinvF.closedIff t).mpr ⟨m, hm, hcl⟩, ?_⟩
        rw [hm]
        simp only []
        have htct := (hinvF.tct t m hm (Or.inr hcl)).1
        rw [if_pos (by rw [htct, hweq]; exact hwle)]
        rw [htct, hweq]
      · exact absurd hgt (not_lt.mpr hwle)
  have hkey : ∀ t0 (p : State × ℚ), (match poolFind esf.pool t0 with
      | some m => if m.totalCost ≤ maxCost then some (t0, m.totalCost) else none
      | none => none) = some p → p.1 = t0 := by
    intro t0 p hp
    rcases hfind : poolFind esf.pool t0 with _ | m
    · rw [hfind] at hp
      exact absurd hp (by simp)
    · rw [hfind] at hp
      simp only [] at hp
      by_cases hle : m.totalCost ≤ maxCost
      · rw [if_pos hle] at hp
        obtain rfl := Option.some_inj.mp hp
        rfl
      · rw [if_neg hle] at hp
        exact Option.noConfusion hp
  have hnodup : ((cl.filterMap fun t =>
      match poolFind esf.pool t with
      | some m => if m.totalCost ≤ maxCost then some (t, m.totalCost) else none
      | none => none).map Prod.fst).Nodup :=
    List.Nodup.sublist (filterMap_keys_sublist _ hkey cl) hinvF.closedNodup
  have hstartmem : (startState, (0 : ℚ)) ∈ cl.filterMap fun t =>
      match poolFind esf.pool t with
      | some m => if m.totalCost ≤ maxCost then some (t, m.totalCost) else none
      | none => none := by
    refine (hiff startState 0).mpr ⟨⟨PathTo.refl startState, ?_⟩, hmax0⟩
    intro w' hp'
    exact pathTo_nonneg (fun u t c he _ => (hg.cost u t c he).1) hp'
  refine ⟨esf, _, ?_, hiff, hnodup, hstartmem⟩
  unfold solveForNearStates
  simp only []
  have hnone' : poolFind ({ es with frame := es.frame + 1 } : Engine).pool startState =
      none := by
    show poolFind es.pool startState = none
    rw [hpool]
    rfl
  rw [getPathNode_absent hnone']
  simp only []
  have hseedtot : (pathNodeInit (pathNodeClear startState) (es.frame + 1) startState 0 0 none).totalCost < fltMax := by
    show calcTotalCost 0 0 < fltMax
    rw [hctc]
    exact h0pos
  split_ifs with h1 h2
  · exfalso
    rcases h1 with h1 | h1
    · exact Bool.noConfusion h1
    · exact Bool.noConfusion h1
  · rw [hpool]
    have hps : poolSet (poolSet ([] : Pool) startState (pathNodeInit (pathNodeClear startState) (es.frame + 1) startState 0 0 none)) startState { pathNodeInit (pathNodeClear startState) (es.frame + 1) startState 0 0 none with inOpen := true } = [(startState, { pathNodeInit (pathNodeClear startState) (es.frame + 1) startState 0 0 none with inOpen := true })] := by
      simp [poolSet]
    rw [hps]
    rw [heqLoop]

/-- Witness: on the 4-chain graph with budget 2, the amended budgeted-search
theorem applies with concrete bounds; states 1, 2, 3 are within budget and
state 4 (distance 3) is not. -/
theorem c6_budgeted_search_exact_witness :
    (0 : ℚ) ≤ 2 ∧ (mkEngine 1 1 false).pool = [] ∧
    (∃ es' near, solveForNearStates c4g (mkEngine 1 1 false) 1 2 6 = some (es', near) ∧
      (∀ t w, (t, w) ∈ near ↔ (IsMinDist c4g 1 t w ∧ w ≤ 2)) ∧
      (near.map Prod.fst).Nodup ∧
      ((1 : State), (0 : ℚ)) ∈ near) := by
  have hedge : ∀ s t c, (t, c) ∈ c4g.adjacentCost s → c = 1 ∧ t < 5 := by
    intro s t c h
    simp only [c4g] at h
    unfold c4adj at h
    split_ifs at h <;> simp at h
    · exact ⟨h.2, by rw [h.1]; norm_num⟩
    · exact ⟨h.2, by rw [h.1]; norm_num⟩
    · exact ⟨h.2, by rw [h.1]; norm_num⟩
  have hG : NHyp c4g 5 1 := by
    refine ⟨by norm_num, ?_, ?_, ?_⟩
    · intro s t c h
      constructor
      · rw [(hedge s t c h).1]
        norm_num
      · rw [(hedge s t c h).1]
    · intro s c h
      simp only [c4g] at h
      unfold c4adj at h
      split_ifs at h with h1 h2 h3
      · subst h1
        simp at h
      · subst h2
        simp at h
      · subst h3
        simp at h
      · simp at h
    · exact fun s t c h => (hedge s t c h).2
  refine ⟨by norm_num, rfl, ?_⟩
  exact @c6_budgeted_search_exact c4g 1 5 1 2 (mkEngine 1 1 false) 6
    hG (by norm_num) (by norm_num [fltMax]) (by decide) rfl (by decide)

end MicroPather
